import Mathlib

/-!
# terraform-provider-wings: the value mapper and the remote value client

A shallow embedding of `internal/model/value.go`, of the mapper
(`valueResource.value`, `valueState`) and the lifecycle methods (`Create`,
`Read`, `Update`, `Delete`, `ImportState`) in
`internal/provider/resource_value.go`, and of the HTTP client
(`config.GetValue`, `CreateValue`, `UpdateValue`, `DeleteValue`, `do`) in
`internal/provider/provider.go`.

Conventions of the embedding:

* Go's builtin `string`, `bool`, `int64` are Lean's `String`, `Bool`, `Int`
  (an `int64` is only ever copied here, never computed with).
* A Go slice is a `List`; a `nil` slice and an empty one are not told apart.
* A pointer to a struct that the code dereferences without a nil test
  (`*EvaluationTest`, `*ValueTransform`, `*Value`) is the struct itself; the
  four pointers of `ValueEvaluation`, which the code does test, are `Option`s.
* A JSON number inside a `map[string]any` is a `float64`, read and written
  as `strconv` reads and writes it.
* A Go `map[string]ValueEvaluation` is an association list with pairwise
  distinct keys; the order of the list has no meaning, and the order in which a
  `range` loop visits it is a parameter (`GoEnv.Range`).
* What the mapper and the client call in Go's standard library
  (`encoding/json`, `net/url`) is a field of `GoEnv`.
* An `http.Header` is an association list from canonical header names to
  their values, and `Header.Set` canonicalizes the name it is given, as Go's
  does.
-/

namespace Wings

/-- Go's builtin `string`. -/
abbrev string := String

/-- Go's builtin `bool`. -/
abbrev bool := Bool

/-- Go's builtin `int64`. -/
abbrev int64 := Int

/-! ## Attribute values of the plugin framework (`types.String`, `types.Bool`, `types.Int64`) -/

/-- `types.String`: null, unknown, or a known string. -/
inductive types.String where
  | null
  | unknown
  | known (s : string)
deriving DecidableEq, Repr

/-- `types.Bool`: null, unknown, or a known boolean. -/
inductive types.Bool where
  | null
  | unknown
  | known (b : bool)
deriving DecidableEq, Repr

/-- `types.Int64`: null, unknown, or a known integer. -/
inductive types.Int64 where
  | null
  | unknown
  | known (n : int64)
deriving DecidableEq, Repr

/-- `types.StringValue(s)`: a known string. -/
def types.StringValue (s : string) : types.String := .known s

/-- `types.BoolValue(b)`: a known boolean. -/
def types.BoolValue (b : bool) : types.Bool := .known b

/-- `types.Int64Value(n)`: a known integer. -/
def types.Int64Value (n : int64) : types.Int64 := .known n

/-- `ValueString()`: the known string, `""` for null and unknown. -/
def types.String.ValueString : types.String → string
  | .known s => s
  | _ => ""

/-- `ValueBool()`: the known boolean, `false` for null and unknown. -/
def types.Bool.ValueBool : types.Bool → bool
  | .known b => b
  | _ => false

/-- `ValueInt64()`: the known integer, `0` for null and unknown. -/
def types.Int64.ValueInt64 : types.Int64 → int64
  | .known n => n
  | _ => 0

/-! ## `float64` and its decimal text (`strconv`)

`encoding/json` reads every JSON number into a `float64` with
`strconv.ParseFloat` and writes a `float64` with `strconv.AppendFloat`. A
`float64` is kept here as the exact value it stands for, so that reading and
writing are exact integer arithmetic.
-/

/-- Go's builtin `float64`, without infinities and NaN: the value
`mant * 2 ^ exp`, negated when `neg`. Zero has `mant = 0`, `exp = 0`; a
normal number has `2 ^ 52 ≤ mant < 2 ^ 53` and `-1074 ≤ exp ≤ 971`; a
subnormal number has `mant < 2 ^ 52` and `exp = -1074`. -/
structure float64 where
  neg : Bool
  mant : Nat
  exp : Int
deriving DecidableEq, Repr

namespace strconv

/-- The number of bits of `n`, for a `fuel` of at least that number. -/
def bitLen : Nat → Nat → Nat
  | 0, _ => 0
  | fuel + 1, n => if n = 0 then 0 else bitLen fuel (n / 2) + 1

/-- The `float64` nearest to `num / den`, ties going to the even mantissa;
`none` when that is beyond the largest `float64`. -/
def roundToFloat (neg : Bool) (num den : Nat) : Option float64 :=
  if num = 0 then some ⟨neg, 0, 0⟩
  else
    let t : Int := (bitLen num num : Int) - (bitLen den den : Int)
    let atLeast : Bool :=
      if 0 ≤ t then den * 2 ^ t.toNat ≤ num else den ≤ num * 2 ^ (-t).toNat
    let k : Int := if atLeast then t else t - 1
    let e : Int := max (k - 52) (-1074)
    let n1 : Nat := if 0 ≤ e then num else num * 2 ^ (-e).toNat
    let d1 : Nat := if 0 ≤ e then den * 2 ^ e.toNat else den
    let q : Nat := n1 / d1
    let r : Nat := n1 % d1
    let q1 : Nat := if d1 < 2 * r ∨ (2 * r = d1 ∧ q % 2 = 1) then q + 1 else q
    let m : Nat := if q1 = 2 ^ 53 then 2 ^ 52 else q1
    let e1 : Int := if q1 = 2 ^ 53 then e + 1 else e
    if m = 0 then some ⟨neg, 0, 0⟩
    else if 971 < e1 then none
    else some ⟨neg, m, e1⟩

/-- `strconv.ParseFloat(s, 64)` for a literal with the digits `m` and the
decimal exponent `e10`, that is the value `m * 10 ^ e10`: the nearest
`float64`, or `none` for the range error. A literal of 310 digits or more is
out of range and one below `10 ^ -330` rounds to zero, whatever its digits. -/
def parseDecimal (neg : Bool) (m : Nat) (e10 : Int) : Option float64 :=
  if m = 0 then some ⟨neg, 0, 0⟩
  else
    let nd : Int := ((Nat.toDigits 10 m).length : Int)
    if 310 < e10 + nd then none
    else if e10 + nd < -330 then some ⟨neg, 0, 0⟩
    else if 0 ≤ e10 then roundToFloat neg (m * 10 ^ e10.toNat) 1
    else roundToFloat neg m (10 ^ (-e10).toNat)

/-- Count up to the `p` with `num / den < 10 ^ p`, for `den ≤ num`. -/
def pointAbove : Nat → Nat → Nat → Int → Int
  | 0, _, _, p => p
  | fuel + 1, num, den, p =>
    if num < den then p else pointAbove fuel num (den * 10) (p + 1)

/-- Count down to the `p` with `10 ^ (p - 1) ≤ num / den`, for `num < den`. -/
def pointBelow : Nat → Nat → Nat → Int → Int
  | 0, _, _, p => p
  | fuel + 1, num, den, p =>
    if den ≤ num * 10 then p else pointBelow fuel (num * 10) den (p - 1)

/-- The position of the decimal point of `num / den`, which is positive: the
`p` with `10 ^ (p - 1) ≤ num / den < 10 ^ p`. -/
def decimalPoint (num den : Nat) : Int :=
  if den ≤ num then pointAbove 400 num den 0 else pointBelow 400 num den 0

/-- Drop the trailing zeros of `q`, counting them. -/
def trimZeros : Nat → Nat → Nat → Nat × Nat
  | 0, q, z => (q, z)
  | fuel + 1, q, z =>
    if q ≠ 0 ∧ q % 10 = 0 then trimZeros fuel (q / 10) (z + 1) else (q, z)

/-- The loop of `roundShortest`, for the values `lower / den < d / den <
upper / den`: at the digit of weight `10 ^ w`, cut the digits of `d` there
if that stays above `lower`, or add one at that digit if that stays below
`upper` (the bounds are allowed when `inclusive`); when both do, take the
nearer, ties going to the even digit; otherwise go on to the next digit. The
result is the digits kept, as a number, and the weight of the last one. -/
def shortestWalk : Nat → Nat → Nat → Nat → Nat → Bool → Int → Nat × Int
  | 0, _, d, _, _, _, w => (d, w)
  | fuel + 1, lower, d, upper, den, inclusive, w =>
    let un : Nat := if 0 ≤ w then 10 ^ w.toNat else 1
    let ud : Nat := if 0 ≤ w then 1 else 10 ^ (-w).toNat
    let q : Nat := (d * ud) / (den * un)
    let r : Nat := (d * ud) % (den * un)
    let down : Nat := q * un * den
    let up : Nat := (q + 1) * un * den
    let okdown : Bool := lower * ud < down || (inclusive && down = lower * ud)
    let okup : Bool := up < upper * ud || (inclusive && up = upper * ud)
    let roundUp : Bool := den * un < 2 * r || (2 * r = den * un && q % 2 = 1)
    if okdown && okup then (if roundUp then (q + 1, w) else (q, w))
    else if okdown then (q, w)
    else if okup then (q + 1, w)
    else shortestWalk fuel lower d upper den inclusive (w - 1)

/-- The shortest decimal that reads back as the non-zero `f`
(`strconv.AppendFloat` with precision `-1`): its digits, without trailing
zeros, as a number, and the position of its decimal point. The bounds are
the midpoints between `f` and its two neighbours. -/
def shortest (f : float64) : Nat × Int :=
  let c : Nat := (2 - f.exp).toNat
  let wide : Bool := f.mant > 2 ^ 52 || f.exp = -1074
  let mantlo : Nat := if wide then f.mant - 1 else 2 * f.mant - 1
  let explo : Int := if wide then f.exp else f.exp - 1
  let d : Nat := f.mant * 2 ^ (f.exp + c).toNat
  let upper : Nat := (2 * f.mant + 1) * 2 ^ (f.exp - 1 + c).toNat
  let lower : Nat := (2 * mantlo + 1) * 2 ^ (explo - 1 + c).toNat
  let den : Nat := 2 ^ c
  let p : Int := decimalPoint upper den
  let qw := shortestWalk 40 lower d upper den (f.mant % 2 = 0) (p - 1)
  let tz := trimZeros 400 qw.1 0
  (tz.1, ((Nat.toDigits 10 tz.1).length : Int) + (tz.2 : Int) + qw.2)

/-- Whether the absolute value of `a` is below that of `b`. -/
def absLt (a b : float64) : Bool :=
  a.mant * 2 ^ (a.exp - min a.exp b.exp).toNat < b.mant * 2 ^ (b.exp - min a.exp b.exp).toNat

/-- The test `abs < 1e-6 || abs >= 1e21` of `encoding/json`, the two bounds
being `float64` constants. -/
def useExponent (f : float64) : Bool :=
  match parseDecimal false 1 (-6), parseDecimal false 1 21 with
  | some small, some large => absLt f small || !(absLt f large)
  | _, _ => false

/-- The text of `%e` for the shortest digits, with the exponent as
`encoding/json` leaves it (`e-07` becomes `e-7`). -/
def formatE (digits : List Char) (dp : Int) : List Char :=
  let mantissa : List Char :=
    match digits with
    | [] => ['0']
    | [a] => [a]
    | a :: rest => a :: '.' :: rest
  mantissa ++ 'e' :: (if dp - 1 < 0 then '-' else '+') :: Nat.toDigits 10 (dp - 1).natAbs

/-- The text of `%f` for the shortest digits. -/
def formatF (digits : List Char) (dp : Int) : List Char :=
  if dp ≤ 0 then '0' :: '.' :: (List.replicate (-dp).toNat '0' ++ digits)
  else if (digits.length : Int) ≤ dp then
    digits ++ List.replicate (dp.toNat - digits.length) '0'
  else digits.take dp.toNat ++ '.' :: digits.drop dp.toNat

/-- The text `encoding/json` writes for a `float64` (`floatEncoder.encode`). -/
def formatFloat (f : float64) : List Char :=
  (if f.neg then ['-'] else []) ++
    (if f.mant = 0 then ['0']
     else if useExponent f then formatE (Nat.toDigits 10 (shortest f).1) (shortest f).2
     else formatF (Nat.toDigits 10 (shortest f).1) (shortest f).2)

end strconv

/-- A numeral as a `float64`: the one nearest to it. -/
instance (n : Nat) : OfNat float64 n :=
  ⟨(strconv.parseDecimal false n 0).getD ⟨false, 0, 0⟩⟩

/-- A decimal literal as a `float64`: the one nearest to it. -/
instance : OfScientific float64 :=
  ⟨fun m s e => (strconv.parseDecimal false m (if s then -(e : Int) else (e : Int))).getD
    ⟨false, 0, 0⟩⟩

/-! ## JSON values (`any` as produced and consumed by `encoding/json`) -/

/-- A dynamically typed JSON value: what `map[string]any` holds after
decoding. A number is a `float64`. -/
inductive JSON where
  | null
  | bool (b : bool)
  | number (n : float64)
  | str (s : string)
  | array (xs : List JSON)
  | object (kvs : List (string × JSON))
deriving Repr

/-- A Go `map[string]any`: `none` is the nil map, `some kvs` a map with the
entries `kvs`. -/
abbrev JSONMap := Option (List (string × JSON))

/-! ## The domain model (`internal/model/value.go`) -/

/-- `model.Bool`. -/
structure model.Bool where
  Value : bool
deriving DecidableEq, Repr

/-- `model.Int`. -/
structure model.Int where
  Value : int64
deriving DecidableEq, Repr

/-- `model.String`. -/
structure model.String where
  Value : string
deriving DecidableEq, Repr

/-- `model.ValueTransform`. -/
structure model.ValueTransform where
  Expr : string
deriving DecidableEq, Repr

/-- `model.Object`. -/
structure model.Object where
  Value : JSONMap
  Transforms : List model.ValueTransform
deriving Repr

/-- `model.ValueEvaluation`: four pointers, each nil or set. -/
structure model.ValueEvaluation where
  Bool : Option model.Bool := none
  String : Option model.String := none
  Object : Option model.Object := none
  Int : Option model.Int := none
deriving Repr

/-- `model.Variants`, a `map[string]ValueEvaluation`. -/
abbrev model.Variants := List (string × model.ValueEvaluation)

/-- `model.EvaluationTest`. -/
structure model.EvaluationTest where
  Variables : JSONMap
  Expected : string
deriving Repr

/-- `model.ValueTargetingRule`. -/
structure model.ValueTargetingRule where
  Variant : string
  Expr : string
deriving DecidableEq, Repr

/-- `model.Targeting`. -/
structure model.Targeting where
  Rules : List model.ValueTargetingRule
deriving DecidableEq, Repr

/-- `model.Value`. -/
structure model.Value where
  ID : string
  Enabled : bool
  Description : string
  DefaultVariant : string
  Variants : model.Variants
  Targeting : model.Targeting
  Tests : List model.EvaluationTest
deriving Repr

/-- The map read `m[k]`: the entry stored under `k`, if any. -/
def model.Variants.get (m : model.Variants) (k : string) : Option model.ValueEvaluation :=
  List.lookup k m

/-- The map write `m[k] = e`: any entry stored under `k` is replaced. -/
def model.Variants.assign (m : model.Variants) (k : string) (e : model.ValueEvaluation) :
    model.Variants :=
  (k, e) :: m.filter (fun p => p.1 != k)

/-- The key set of the map. -/
def model.Variants.keys (m : model.Variants) : List string :=
  m.map Prod.fst

/-- How many of the four members of a variant are set. -/
def model.ValueEvaluation.populated (e : model.ValueEvaluation) : Nat :=
  (if e.Bool.isSome then 1 else 0) + (if e.String.isSome then 1 else 0)
    + (if e.Object.isSome then 1 else 0) + (if e.Int.isSome then 1 else 0)

/-! ## The declarative resource shape (`resource_value.go`, lines 31-80) -/

/-- `valueResourceBool`. -/
structure valueResourceBool where
  Variant : types.String
  Value : types.Bool
deriving DecidableEq, Repr

/-- `valueResourceInt`. -/
structure valueResourceInt where
  Variant : types.String
  Value : types.Int64
deriving DecidableEq, Repr

/-- `valueResourceString`. -/
structure valueResourceString where
  Variant : types.String
  Value : types.String
deriving DecidableEq, Repr

/-- `valueResourceTransform`. -/
structure valueResourceTransform where
  Expr : types.String
deriving DecidableEq, Repr

/-- `valueResourceObject`. -/
structure valueResourceObject where
  Variant : types.String
  Value : types.String
  Transform : List valueResourceTransform
deriving DecidableEq, Repr

/-- `valueResourceTargeting`. -/
structure valueResourceTargeting where
  Variant : types.String
  Expr : types.String
deriving DecidableEq, Repr

/-- `valueResourceTest`. -/
structure valueResourceTest where
  Variables : types.String
  Expected : types.String
deriving DecidableEq, Repr

/-- `valueResource`. -/
structure valueResource where
  ID : types.String
  ValueID : types.String
  Description : types.String
  Enabled : types.Bool
  DefaultVariant : types.String
  Bool : List valueResourceBool
  Int : List valueResourceInt
  String : List valueResourceString
  Object : List valueResourceObject
  Targeting : List valueResourceTargeting
  Test : List valueResourceTest
deriving DecidableEq, Repr

/-! ## `encoding/json` for `map[string]any`

The mapper calls `json.Marshal` and `json.Unmarshal` on `map[string]any`
values. Both are functions of Go's standard library and are not part of the
repository; the definitions of this section follow what the specification
says of them: a sorted-key encoding, and a parser that accepts a JSON object.
Numbers, strings and the limit on nesting are those of Go's package.
-/

namespace json

/-- The double quote character. -/
def quote : Char := Char.ofNat 34

/-- The backslash character. -/
def backslash : Char := Char.ofNat 92

/-- The opening brace. -/
def lbrace : Char := Char.ofNat 123

/-- The closing brace. -/
def rbrace : Char := Char.ofNat 125

/-- Strict order of two keys, character by character (the byte order of
their UTF-8 encodings). -/
def keyLt : List Char → List Char → Bool
  | [], [] => false
  | [], _ :: _ => true
  | _ :: _, [] => false
  | a :: as, b :: bs =>
    if a.toNat < b.toNat then true
    else if b.toNat < a.toNat then false
    else keyLt as bs

/-- Insert an encoded member into a list of members sorted by key. -/
def insertMember (p : string × List Char) : List (string × List Char) → List (string × List Char)
  | [] => [p]
  | q :: qs => if keyLt q.1.data p.1.data then q :: insertMember p qs else p :: q :: qs

/-- Sort encoded members by key, ascending. -/
def sortMembers : List (string × List Char) → List (string × List Char)
  | [] => []
  | p :: ps => insertMember p (sortMembers ps)

/-- A lower-case hexadecimal digit. -/
def hexDigit (n : Nat) : Char :=
  if n < 10 then Char.ofNat (48 + n) else Char.ofNat (87 + n)

/-- The six characters of a `\uXXXX` escape. -/
def escapeUnicode (n : Nat) : List Char :=
  [backslash, 'u', hexDigit (n / 4096 % 16), hexDigit (n / 256 % 16),
    hexDigit (n / 16 % 16), hexDigit (n % 16)]

/-- The encoding of one character of a string: quote and backslash are
escaped, control characters and the HTML-sensitive characters become
`\uXXXX` or a short escape. -/
def encodeChar (c : Char) : List Char :=
  if c = quote ∨ c = backslash then [backslash, c]
  else if c.toNat = 8 then [backslash, 'b']
  else if c.toNat = 12 then [backslash, 'f']
  else if c.toNat = 10 then [backslash, 'n']
  else if c.toNat = 13 then [backslash, 'r']
  else if c.toNat = 9 then [backslash, 't']
  else if c.toNat < 32 ∨ c = '<' ∨ c = '>' ∨ c = '&' ∨ c.toNat = 8232 ∨ c.toNat = 8233 then
    escapeUnicode c.toNat
  else [c]

/-- A string literal: the escaped characters between quotes. -/
def encodeString (s : string) : List Char :=
  quote :: (s.data.flatMap encodeChar ++ [quote])

/-- The members `"key":value` separated by commas, in the order given. -/
def joinMembers : List (string × List Char) → List Char
  | [] => []
  | [p] => encodeString p.1 ++ ':' :: p.2
  | p :: q :: ps => encodeString p.1 ++ ':' :: p.2 ++ ',' :: joinMembers (q :: ps)

/-- The elements of an array separated by commas. -/
def joinElems : List (List Char) → List Char
  | [] => []
  | [p] => p
  | p :: q :: ps => p ++ ',' :: joinElems (q :: ps)

mutual
/-- The encoding of a JSON value; the members of an object are written in
ascending key order. -/
def encodeValue : JSON → List Char
  | .null => "null".data
  | .bool b => if b then "true".data else "false".data
  | .number n => strconv.formatFloat n
  | .str s => encodeString s
  | .array xs => '[' :: (joinElems (encodeElems xs) ++ [']'])
  | .object kvs => lbrace :: (joinMembers (sortMembers (encodeMembers kvs)) ++ [rbrace])
/-- The encodings of the elements of an array. -/
def encodeElems : List JSON → List (List Char)
  | [] => []
  | x :: xs => encodeValue x :: encodeElems xs
/-- The keys of an object with the encodings of their values. -/
def encodeMembers : List (string × JSON) → List (string × List Char)
  | [] => []
  | (k, v) :: kvs => (k, encodeValue v) :: encodeMembers kvs
end

/-- Modelled from the spec: `json.Marshal` of Go's `encoding/json` (standard
library, not under src/) applied to a `map[string]any`, as the string
`string(b)` of `b, _ := json.Marshal(m)`. The spec asks for a sorted-key JSON
encoding; the nil map is written `null`. -/
def Marshal : JSONMap → string
  | none => "null"
  | some kvs => String.mk (encodeValue (.object kvs))

/-- JSON white space: space, tab, line feed, carriage return. -/
def isSpace (c : Char) : Bool :=
  c.toNat = 32 || c.toNat = 9 || c.toNat = 10 || c.toNat = 13

/-- Drop leading white space. -/
def skipSpace : List Char → List Char
  | [] => []
  | c :: cs => if isSpace c then skipSpace cs else c :: cs

/-- The value of a hexadecimal digit. -/
def hexVal (c : Char) : Option Nat :=
  if 48 ≤ c.toNat ∧ c.toNat ≤ 57 then some (c.toNat - 48)
  else if 97 ≤ c.toNat ∧ c.toNat ≤ 102 then some (c.toNat - 87)
  else if 65 ≤ c.toNat ∧ c.toNat ≤ 70 then some (c.toNat - 55)
  else none

/-- The value of four hexadecimal digits. -/
def hex4 (a b c d : Char) : Option Nat :=
  match hexVal a, hexVal b, hexVal c, hexVal d with
  | some w, some x, some y, some z => some (w * 4096 + x * 256 + y * 16 + z)
  | _, _, _, _ => none

/-- The character a one-letter escape stands for. -/
def unescape (e : Char) : Option Char :=
  if e = quote ∨ e = backslash ∨ e = '/' then some e
  else if e = 'b' then some (Char.ofNat 8)
  else if e = 'f' then some (Char.ofNat 12)
  else if e = 'n' then some (Char.ofNat 10)
  else if e = 'r' then some (Char.ofNat 13)
  else if e = 't' then some (Char.ofNat 9)
  else none

/-- The replacement character U+FFFD, which stands for an unpaired surrogate. -/
def replacementChar : Char := Char.ofNat 65533

/-- Put a character in front of a parsed string. -/
def consChar (c : Char) : Option (List Char × List Char) → Option (List Char × List Char)
  | some (s, rest) => some (c :: s, rest)
  | none => none

/-- Put the replacement character in front of a parsed string when a high
surrogate is still waiting for its pair. -/
def unpaired (hi : Option Nat) (r : Option (List Char × List Char)) :
    Option (List Char × List Char) :=
  match hi with
  | some _ => consChar replacementChar r
  | none => r

/-- The rest of a string literal after its opening quote: the decoded
characters and the input after the closing quote. `hi` is a high surrogate
read just before, waiting for its low surrogate. -/
def parseString : Option Nat → List Char → Option (List Char × List Char)
  | _, [] => none
  | hi, c :: cs =>
    if c = quote then unpaired hi (some ([], cs))
    else if c = backslash then
      match cs with
      | [] => none
      | e :: cs1 =>
        if e = 'u' then
          match cs1 with
          | a :: b :: c :: d :: cs2 =>
            match hex4 a b c d with
            | none => none
            | some n =>
              if 55296 ≤ n ∧ n < 56320 then unpaired hi (parseString (some n) cs2)
              else if 56320 ≤ n ∧ n < 57344 then
                match hi with
                | some h =>
                  consChar (Char.ofNat (65536 + (h - 55296) * 1024 + (n - 56320)))
                    (parseString none cs2)
                | none => consChar replacementChar (parseString none cs2)
              else unpaired hi (consChar (Char.ofNat n) (parseString none cs2))
          | _ => none
        else
          match unescape e with
          | some x => unpaired hi (consChar x (parseString none cs1))
          | none => none
    else if c.toNat < 32 then none
    else unpaired hi (consChar c (parseString none cs))

/-- A decimal digit. -/
def isDigit (c : Char) : Bool := 48 ≤ c.toNat && c.toNat ≤ 57

/-- Read the following digits into the accumulator, counting them. -/
def parseDigits : Nat → Nat → List Char → Nat × Nat × List Char
  | acc, n, [] => (acc, n, [])
  | acc, n, c :: cs =>
    if isDigit c then parseDigits (acc * 10 + (c.toNat - 48)) (n + 1) cs
    else (acc, n, c :: cs)

/-- The integer part of a number: `0`, or a non-zero digit followed by
digits. -/
def parseIntPart : List Char → Option (Nat × List Char)
  | [] => none
  | c :: cs =>
    if c = '0' then some (0, cs)
    else if isDigit c then
      some ((parseDigits (c.toNat - 48) 1 cs).1, (parseDigits (c.toNat - 48) 1 cs).2.2)
    else none

/-- The fraction of a number, if there is one: a point followed by at least
one digit. The digits go on from the integer part `i`; the result is the
digits read so far, the number of fraction digits and the rest. -/
def parseFraction (i : Nat) : List Char → Option (Nat × Nat × List Char)
  | [] => some (i, 0, [])
  | c :: cs =>
    if c = '.' then
      match parseDigits i 0 cs with
      | (_, 0, _) => none
      | r => some r
    else some (i, 0, c :: cs)

/-- The exponent of a number, if there is one: `e` or `E`, a sign or none,
and at least one digit. -/
def parseExponent : List Char → Option (Int × List Char)
  | [] => some (0, [])
  | c :: cs =>
    if c = 'e' ∨ c = 'E' then
      match cs with
      | [] => none
      | s :: cs1 =>
        if s = '-' then
          match parseDigits 0 0 cs1 with
          | (_, 0, _) => none
          | (e, _, rest) => some (-(e : Int), rest)
        else if s = '+' then
          match parseDigits 0 0 cs1 with
          | (_, 0, _) => none
          | (e, _, rest) => some ((e : Int), rest)
        else
          match parseDigits 0 0 (s :: cs1) with
          | (_, 0, _) => none
          | (e, _, rest) => some ((e : Int), rest)
    else some (0, c :: cs)

/-- A number literal, `-? int frac? exp?`, read into a `float64`; `none` for
a text that is no number and for a number out of the range of `float64`. -/
def parseNumber : List Char → Option (float64 × List Char)
  | [] => none
  | c :: cs =>
    match parseIntPart (if c = '-' then cs else c :: cs) with
    | none => none
    | some (i, rest) =>
      match parseFraction i rest with
      | none => none
      | some (m, fl, rest1) =>
        match parseExponent rest1 with
        | none => none
        | some (e, rest2) =>
          match strconv.parseDecimal (c = '-') m (e - (fl : Int)) with
          | none => none
          | some f => some (f, rest2)

/-- Add a member in front of the members parsed after it; a later member with
the same key wins. -/
def putMember (k : string) (v : JSON) (kvs : List (string × JSON)) : List (string × JSON) :=
  if kvs.any (fun p => p.1 == k) then kvs else (k, v) :: kvs

/-- The deepest nesting of arrays and objects that `encoding/json` reads
(`maxNestingDepth`). -/
def maxNestingDepth : Nat := 10000

mutual
/-- Parse one JSON value; `fuel` bounds the number of nested and chained
calls, `depth` is the number of arrays and objects that are open around the
value. -/
def parseValue : Nat → Nat → List Char → Option (JSON × List Char)
  | 0, _, _ => none
  | fuel + 1, depth, cs =>
    match skipSpace cs with
    | [] => none
    | c :: rest =>
      if c = lbrace then
        if maxNestingDepth ≤ depth then none
        else
          match skipSpace rest with
          | [] => none
          | d :: rest1 =>
            if d = rbrace then some (.object [], rest1)
            else
              match parseMembers fuel (depth + 1) (d :: rest1) with
              | some (kvs, rest2) => some (.object kvs, rest2)
              | none => none
      else if c = '[' then
        if maxNestingDepth ≤ depth then none
        else
          match skipSpace rest with
          | [] => none
          | d :: rest1 =>
            if d = ']' then some (.array [], rest1)
            else
              match parseElems fuel (depth + 1) (d :: rest1) with
              | some (xs, rest2) => some (.array xs, rest2)
              | none => none
      else if c = quote then
        match parseString none rest with
        | some (s, rest1) => some (.str (String.mk s), rest1)
        | none => none
      else if c = 't' then
        match rest with
        | 'r' :: 'u' :: 'e' :: rest1 => some (.bool true, rest1)
        | _ => none
      else if c = 'f' then
        match rest with
        | 'a' :: 'l' :: 's' :: 'e' :: rest1 => some (.bool false, rest1)
        | _ => none
      else if c = 'n' then
        match rest with
        | 'u' :: 'l' :: 'l' :: rest1 => some (.null, rest1)
        | _ => none
      else
        match parseNumber (c :: rest) with
        | some (n, rest1) => some (.number n, rest1)
        | none => none
/-- Parse the elements of an array up to its closing bracket. -/
def parseElems : Nat → Nat → List Char → Option (List JSON × List Char)
  | 0, _, _ => none
  | fuel + 1, depth, cs =>
    match parseValue fuel depth cs with
    | none => none
    | some (x, rest) =>
      match skipSpace rest with
      | [] => none
      | d :: rest1 =>
        if d = ']' then some ([x], rest1)
        else if d = ',' then
          match parseElems fuel depth rest1 with
          | some (xs, rest2) => some (x :: xs, rest2)
          | none => none
        else none
/-- Parse the members of an object up to its closing brace. -/
def parseMembers : Nat → Nat → List Char → Option (List (string × JSON) × List Char)
  | 0, _, _ => none
  | fuel + 1, depth, cs =>
    match skipSpace cs with
    | [] => none
    | q :: rest =>
      if q = quote then
        match parseString none rest with
        | none => none
        | some (k, rest1) =>
          match skipSpace rest1 with
          | [] => none
          | c :: rest2 =>
            if c = ':' then
              match parseValue fuel depth rest2 with
              | none => none
              | some (v, rest3) =>
                match skipSpace rest3 with
                | [] => none
                | d :: rest4 =>
                  if d = rbrace then some ([(String.mk k, v)], rest4)
                  else if d = ',' then
                    match parseMembers fuel depth rest4 with
                    | some (kvs, rest5) => some (putMember (String.mk k) v kvs, rest5)
                    | none => none
                  else none
            else none
      else none
end

/-- Modelled from the spec: `json.Unmarshal` of Go's `encoding/json` (standard
library, not under src/) applied to the text `s` and a fresh
`map[string]any`. The spec asks for a parser of a JSON object that fails on
text that does not parse. As in Go, a number is any literal of the JSON
grammar, read into a `float64`, and one beyond the range of `float64` is an
error; arrays and objects nest at most `maxNestingDepth` deep; the text
`null` is accepted and leaves the nil map; an array or scalar root is an
error. The error texts stand in for Go's. -/
def Unmarshal (s : string) : Except string JSONMap :=
  match parseValue (s.data.length + 1) 0 s.data with
  | none => .error "invalid character"
  | some (v, rest) =>
    match skipSpace rest with
    | _ :: _ => .error "invalid character after top-level value"
    | [] =>
      match v with
      | .object kvs => .ok (some kvs)
      | .null => .ok none
      | _ => .error "json: cannot unmarshal into Go value of type map[string]interface \x7b\x7d"

end json

/-! ## The Go runtime and standard library, as seen by the mapper and the client -/

/-- What the code calls outside the repository. Every field is a parameter of
the embedding. -/
structure GoEnv where
  /-- The order in which `for k, val := range m` visits the map `m`. -/
  Range : model.Variants → List (string × model.ValueEvaluation)
  /-- A `range` loop visits every entry of the map exactly once. -/
  Range_perm : ∀ m, (Range m).Perm m
  /-- `json.Unmarshal([]byte(s), &m)` for a fresh `m := make(map[string]any)`:
  the error, or the map left in `m`. -/
  Unmarshal : string → Except string JSONMap
  /-- `string(b)` for `b, _ := json.Marshal(m)` with `m` a `map[string]any`. -/
  Marshal : JSONMap → string
  /-- `json.Marshal(value)` for a `*model.Value`. -/
  MarshalValue : model.Value → Except string string
  /-- `json.NewDecoder(body).Decode(v)` for `v := new(model.Value)`: the
  value left in `v` and the error, if any. -/
  DecodeValue : string → model.Value × Option string
  /-- `url.JoinPath(base, elem...)`. -/
  JoinPath : string → List string → Except string string
  /-- The error of `http.NewRequest` for a URL it cannot parse. -/
  URLError : string → Option string

/-! ## The mapper (`resource_value.go`, lines 220-382) -/

/-- The loop over `v.Object` (lines 236-254): parse each block's value and
store its entry, stopping at the first error. -/
def value.objects (env : GoEnv) : List valueResourceObject → model.Variants →
    Except string model.Variants
  | [], variants => .ok variants
  | val :: rest, variants =>
    match env.Unmarshal val.Value.ValueString with
    | .error err => .error err
    | .ok m =>
      let transforms := val.Transform.map (fun t => model.ValueTransform.mk t.Expr.ValueString)
      value.objects env rest
        (variants.assign val.Variant.ValueString
          { Object := some { Value := m, Transforms := transforms } })

/-- The loop over `v.Test` (lines 271-282): parse each block's variables,
stopping at the first error. -/
def value.tests (env : GoEnv) : List valueResourceTest → Except string (List model.EvaluationTest)
  | [] => .ok []
  | t :: rest =>
    match env.Unmarshal t.Variables.ValueString with
    | .error err => .error err
    | .ok m =>
      match value.tests env rest with
      | .error err => .error err
      | .ok tests => .ok ({ Variables := m, Expected := t.Expected.ValueString } :: tests)

/-- The method `(v *valueResource) value()` (lines 220-295): the shape as a
domain Value, or the first JSON error. -/
def valueResource.value (env : GoEnv) (v : valueResource) : Except string model.Value :=
  let variants : model.Variants := []
  let variants := v.Bool.foldl (fun (m : model.Variants) val =>
    m.assign val.Variant.ValueString { Bool := some { Value := val.Value.ValueBool } }) variants
  let variants := v.String.foldl (fun (m : model.Variants) val =>
    m.assign val.Variant.ValueString { String := some { Value := val.Value.ValueString } }) variants
  match value.objects env v.Object variants with
  | .error err => .error err
  | .ok variants =>
    let variants := v.Int.foldl (fun (m : model.Variants) val =>
      m.assign val.Variant.ValueString { Int := some { Value := val.Value.ValueInt64 } }) variants
    let rules := v.Targeting.map (fun t =>
      model.ValueTargetingRule.mk t.Variant.ValueString t.Expr.ValueString)
    match value.tests env v.Test with
    | .error err => .error err
    | .ok tests =>
      .ok { ID := v.ID.ValueString
            Enabled := v.Enabled.ValueBool
            Description := v.Description.ValueString
            DefaultVariant := v.DefaultVariant.ValueString
            Variants := variants
            Targeting := { Rules := rules }
            Tests := tests }

/-- The four slices `bools`, `strs`, `objects`, `ints` that the loop of
`valueState` fills. -/
structure valueState.blocks where
  bools : List valueResourceBool := []
  strs : List valueResourceString := []
  objects : List valueResourceObject := []
  ints : List valueResourceInt := []

/-- The body of the loop over `v.Variants` (lines 306-349): four independent
tests, each appending to its own slice. -/
def valueState.visit (env : GoEnv) (acc : valueState.blocks) (k : string)
    (val : model.ValueEvaluation) : valueState.blocks :=
  let acc := match val.Bool with
    | some b => { acc with bools := acc.bools ++ [⟨types.StringValue k, types.BoolValue b.Value⟩] }
    | none => acc
  let acc := match val.String with
    | some s => { acc with strs := acc.strs ++ [⟨types.StringValue k, types.StringValue s.Value⟩] }
    | none => acc
  let acc := match val.Object with
    | some o =>
      let b := env.Marshal o.Value
      let transforms := o.Transforms.map (fun t => valueResourceTransform.mk (types.StringValue t.Expr))
      { acc with objects := acc.objects ++ [⟨types.StringValue k, types.StringValue b, transforms⟩] }
    | none => acc
  match val.Int with
  | some n => { acc with ints := acc.ints ++ [⟨types.StringValue k, types.Int64Value n.Value⟩] }
  | none => acc

/-- The function `valueState` (lines 297-382): the domain Value as a shape. -/
def valueState (env : GoEnv) (v : model.Value) : valueResource :=
  let acc := (env.Range v.Variants).foldl
    (fun acc p => valueState.visit env acc p.1 p.2) {}
  let targeting := v.Targeting.Rules.map (fun t =>
    valueResourceTargeting.mk (types.StringValue t.Variant) (types.StringValue t.Expr))
  let tests := v.Tests.map (fun t =>
    valueResourceTest.mk (types.StringValue (env.Marshal t.Variables)) (types.StringValue t.Expected))
  { ID := types.StringValue v.ID
    ValueID := types.StringValue v.ID
    Description := types.StringValue v.Description
    Enabled := types.BoolValue v.Enabled
    DefaultVariant := types.StringValue v.DefaultVariant
    Bool := acc.bools
    String := acc.strs
    Object := acc.objects
    Int := acc.ints
    Targeting := targeting
    Test := tests }

/-! ## The remote value client (`provider.go`, lines 26-35 and 212-343) -/

/-- The constant `headerKeyID`. -/
def headerKeyID : string := "X-API-KEY-ID"

/-- The constant `headerKey`. -/
def headerKey : string := "X-API-KEY"

/-- The constant `headerUA`. -/
def headerUA : string := "User-Agent"

/-- The constant `headerContentType`. -/
def headerContentType : string := "Content-Type"

/-- The constant `applicationJSON`. -/
def applicationJSON : string := "application/json"

/-- A `context.Context`, as far as a request can observe it: `Err` is what
`ctx.Err()` returns, `none` while the context is live and the reason once it
is cancelled or past its deadline. -/
structure context.Context where
  Err : Option string
deriving DecidableEq, Repr

/-- `context.Background()`: never cancelled, no deadline. -/
def context.Background : context.Context := { Err := none }

/-- The bytes allowed in a header field name (`textproto.validHeaderFieldByte`):
letters, digits and the fifteen token characters. -/
def textproto.validHeaderFieldByte (c : Char) : Bool :=
  (48 ≤ c.toNat && c.toNat ≤ 57) || (65 ≤ c.toNat && c.toNat ≤ 90)
    || (97 ≤ c.toNat && c.toNat ≤ 122)
    || [33, 35, 36, 37, 38, 39, 42, 43, 45, 46, 94, 95, 96, 124, 126].contains c.toNat

/-- The loop of `textproto.canonicalMIMEHeaderKey`: a letter that starts the
name or follows a hyphen becomes upper case, any other letter lower case. -/
def textproto.canonicalize : Bool → List Char → List Char
  | _, [] => []
  | upper, c :: cs =>
    let c1 : Char :=
      if upper && (97 ≤ c.toNat && c.toNat ≤ 122) then Char.ofNat (c.toNat - 32)
      else if !upper && (65 ≤ c.toNat && c.toNat ≤ 90) then Char.ofNat (c.toNat + 32)
      else c
    c1 :: textproto.canonicalize (c1.toNat == 45) cs

/-- `textproto.CanonicalMIMEHeaderKey(s)`: the canonical form of a header
name, or `s` itself when it holds a byte that no header name may hold. -/
def textproto.CanonicalMIMEHeaderKey (s : string) : string :=
  if s.data.all textproto.validHeaderFieldByte then
    String.mk (textproto.canonicalize true s.data)
  else s

/-- `http.Header`, a `map[string][]string`: the values stored under each
(canonical) header name. -/
abbrev http.Header := List (string × List string)

/-- `Header.Set(key, value)`: the single value replaces whatever was stored
under the canonical form of the key. -/
def http.Header.Set (h : http.Header) (key value : string) : http.Header :=
  h.filter (fun p => p.1 != textproto.CanonicalMIMEHeaderKey key)
    ++ [(textproto.CanonicalMIMEHeaderKey key, [value])]

/-- `Header.Values(key)`: the values stored under the canonical form of the
key. -/
def http.Header.Values (h : http.Header) (key : string) : List string :=
  (List.lookup (textproto.CanonicalMIMEHeaderKey key) h).getD []

/-- `Header.Get(key)`: the first value stored under the canonical form of the
key, `""` if none. -/
def http.Header.Get (h : http.Header) (key : string) : string :=
  (h.Values key).headD ""

/-- `http.Request`, with the context it is bound to. -/
structure http.Request where
  Method : string
  URL : string
  Header : http.Header
  Body : Option string
  ctx : context.Context
deriving DecidableEq, Repr

/-- `http.Response`: the status code and the body as read by `io.ReadAll`. -/
structure http.Response where
  StatusCode : Int
  Body : string
deriving DecidableEq, Repr

/-- `http.NewRequest(method, url, body)`, which is
`NewRequestWithContext(context.Background(), method, url, body)`. -/
def http.NewRequest (env : GoEnv) (method url : string) (body : Option string) :
    Except string http.Request :=
  match env.URLError url with
  | some err => .error err
  | none =>
    .ok { Method := method, URL := url, Header := [], Body := body, ctx := context.Background }

/-- `req.WithContext(ctx)`: a copy of the request bound to `ctx`; the
receiver is left as it was. -/
def http.Request.WithContext (req : http.Request) (ctx : context.Context) : http.Request :=
  { req with ctx := ctx }

/-- The struct `config`; `client` is `c.client.Do`. -/
structure config where
  ua : string
  keyID : string
  key : string
  endpoint : string
  client : http.Request → Except string http.Response

/-- The request that `do` hands to `c.client.Do` (lines 337-342): the four
`Header.Set` calls change `req` in place, the result of `req.WithContext(ctx)`
is dropped. -/
def config.doRequest (c : config) (ctx : context.Context) (req : http.Request) : http.Request :=
  let req := { req with Header := req.Header.Set headerKeyID c.keyID }
  let req := { req with Header := req.Header.Set headerKey c.key }
  let req := { req with Header := req.Header.Set headerUA c.ua }
  let req := { req with Header := req.Header.Set headerContentType applicationJSON }
  let _ := req.WithContext ctx
  req

/-- The method `do` (lines 336-343). -/
def config.do (c : config) (ctx : context.Context) (req : http.Request) :
    Except string http.Response :=
  c.client (c.doRequest ctx req)

/-- The error built by `fmt.Errorf("unexpected status code: %d, %s", code, body)`. -/
def statusError (resp : http.Response) : string :=
  "unexpected status code: " ++ toString resp.StatusCode ++ ", " ++ resp.Body

/-- The method `GetValue` (lines 220-245); the pair is Go's `(*model.Value, error)`. -/
def config.GetValue (env : GoEnv) (c : config) (ctx : context.Context) (id : string) :
    Option model.Value × Option string :=
  match env.JoinPath c.endpoint ["values", id] with
  | .error err => (none, some err)
  | .ok u =>
    match http.NewRequest env "GET" u none with
    | .error err => (none, some err)
    | .ok req =>
      match c.do ctx req with
      | .error err => (none, some err)
      | .ok resp =>
        if resp.StatusCode ≥ 400 then (none, some (statusError resp))
        else
          let r := env.DecodeValue resp.Body
          (some r.1, r.2)

/-- The method `CreateValue` (lines 247-277). -/
def config.CreateValue (env : GoEnv) (c : config) (ctx : context.Context) (value : model.Value) :
    Option model.Value × Option string :=
  match env.JoinPath c.endpoint ["values"] with
  | .error err => (none, some err)
  | .ok u =>
    match env.MarshalValue value with
    | .error err => (none, some err)
    | .ok j =>
      match http.NewRequest env "POST" u (some j) with
      | .error err => (none, some err)
      | .ok req =>
        match c.do ctx req with
        | .error err => (none, some err)
        | .ok resp =>
          if resp.StatusCode ≥ 400 then (none, some (statusError resp))
          else
            let r := env.DecodeValue resp.Body
            (some r.1, r.2)

/-- The method `UpdateValue` (lines 279-309). -/
def config.UpdateValue (env : GoEnv) (c : config) (ctx : context.Context) (value : model.Value) :
    Option model.Value × Option string :=
  match env.JoinPath c.endpoint ["values", value.ID] with
  | .error err => (none, some err)
  | .ok u =>
    match env.MarshalValue value with
    | .error err => (none, some err)
    | .ok j =>
      match http.NewRequest env "PUT" u (some j) with
      | .error err => (none, some err)
      | .ok req =>
        match c.do ctx req with
        | .error err => (none, some err)
        | .ok resp =>
          if resp.StatusCode ≥ 400 then (none, some (statusError resp))
          else
            let r := env.DecodeValue resp.Body
            (some r.1, r.2)

/-- The method `DeleteValue` (lines 311-334); the result is Go's `error`. -/
def config.DeleteValue (env : GoEnv) (c : config) (ctx : context.Context) (id : string) :
    Option string :=
  match env.JoinPath c.endpoint ["values", id] with
  | .error err => some err
  | .ok u =>
    match http.NewRequest env "DELETE" u none with
    | .error err => some err
    | .ok req =>
      match c.do ctx req with
      | .error err => some err
      | .ok resp =>
        if resp.StatusCode ≥ 400 ∧ resp.StatusCode ≠ 404 then some (statusError resp)
        else none

/-! ## The entries of a shape in processing order

`value()` writes the map in four loops. The definitions below name the entry
each block writes, so that what the loops leave in the map can be stated.
-/

/-- The entry written for a `bool` block (lines 223-227). -/
def value.boolEntry (val : valueResourceBool) : string × model.ValueEvaluation :=
  (val.Variant.ValueString, { Bool := some { Value := val.Value.ValueBool } })

/-- The entry written for a `string` block (lines 230-234). -/
def value.stringEntry (val : valueResourceString) : string × model.ValueEvaluation :=
  (val.Variant.ValueString, { String := some { Value := val.Value.ValueString } })

/-- The entry written for an `int` block (lines 256-260). -/
def value.intEntry (val : valueResourceInt) : string × model.ValueEvaluation :=
  (val.Variant.ValueString, { Int := some { Value := val.Value.ValueInt64 } })

/-- The transforms built for an `object` block (lines 242-247). -/
def value.transforms (val : valueResourceObject) : List model.ValueTransform :=
  val.Transform.map (fun t => model.ValueTransform.mk t.Expr.ValueString)

/-- The entries written for the `object` blocks (lines 236-254), or the first
parse error. -/
def value.objectEntries (env : GoEnv) : List valueResourceObject →
    Except string (List (string × model.ValueEvaluation))
  | [] => .ok []
  | val :: rest =>
    match env.Unmarshal val.Value.ValueString with
    | .error err => .error err
    | .ok m =>
      match value.objectEntries env rest with
      | .error err => .error err
      | .ok es =>
        .ok ((val.Variant.ValueString,
          { Object := some { Value := m, Transforms := value.transforms val } }) :: es)

/-- All map writes of `value()` in processing order: the `bool` blocks, then
`string`, then `object`, then `int`, each in sequence order. -/
def value.writes (v : valueResource) (objects : List (string × model.ValueEvaluation)) :
    List (string × model.ValueEvaluation) :=
  v.Bool.map value.boolEntry ++ v.String.map value.stringEntry ++ objects
    ++ v.Int.map value.intEntry

/-- The last entry written under the name `k`, if any. -/
def value.lastWrite (k : string) (writes : List (string × model.ValueEvaluation)) :
    Option model.ValueEvaluation :=
  List.lookup k writes.reverse

/-- A map built by writing the entries of a list in order, starting from `m`. -/
def model.Variants.assignAll (m : model.Variants) (writes : List (string × model.ValueEvaluation)) :
    model.Variants :=
  writes.foldl (fun m p => m.assign p.1 p.2) m

/-! ## A test environment

A double for what lies outside the repository, used to run the definitions
on concrete inputs: the JSON functions of the section above, a `range` order
that happens to be the reverse of the stored order, and stand-ins for the
rest.
-/

/-- The Value that the test server of `testEnv` sends back. -/
def testValue : model.Value :=
  { ID := "test-bool-value"
    Enabled := true
    Description := "test bool value"
    DefaultVariant := "off"
    Variants := [("on", { Bool := some { Value := true } }),
      ("off", { Bool := some { Value := false } })]
    Targeting := { Rules := [{ Variant := "on", Expr := "env == \x27dev\x27" },
      { Variant := "on", Expr := "userId == \x27XXX\x27" }] }
    Tests := [model.EvaluationTest.mk (some [("count", .number 1), ("env", .str "test")]) "on"] }

/-- The test environment. -/
def testEnv : GoEnv :=
  { Range := List.reverse
    Range_perm := fun m => List.reverse_perm m
    Unmarshal := json.Unmarshal
    Marshal := json.Marshal
    MarshalValue := fun v => .ok v.ID
    DecodeValue := fun _ => (testValue, none)
    JoinPath := fun base elems => .ok (String.intercalate "/" (base :: elems))
    URLError := fun _ => none }

/-! ## The blocks of a Value in visiting order

The loop of `valueState` appends to four slices independently. The
definitions below name the block, if any, that one map entry adds to each.
-/

/-- The `bool` block appended for a map entry (lines 306-314). -/
def valueState.boolBlock (p : string × model.ValueEvaluation) : Option valueResourceBool :=
  p.2.Bool.map (fun b => ⟨types.StringValue p.1, types.BoolValue b.Value⟩)

/-- The `string` block appended for a map entry (lines 315-323). -/
def valueState.stringBlock (p : string × model.ValueEvaluation) : Option valueResourceString :=
  p.2.String.map (fun s => ⟨types.StringValue p.1, types.StringValue s.Value⟩)

/-- The `object` block appended for a map entry (lines 324-340). -/
def valueState.objectBlock (env : GoEnv) (p : string × model.ValueEvaluation) :
    Option valueResourceObject :=
  p.2.Object.map (fun o => ⟨types.StringValue p.1, types.StringValue (env.Marshal o.Value),
    o.Transforms.map (fun t => valueResourceTransform.mk (types.StringValue t.Expr))⟩)

/-- The `int` block appended for a map entry (lines 341-349). -/
def valueState.intBlock (p : string × model.ValueEvaluation) : Option valueResourceInt :=
  p.2.Int.map (fun n => ⟨types.StringValue p.1, types.Int64Value n.Value⟩)


/-- The entries that `value()` writes for the shape `valueState` built from
the entries `l`, in processing order. -/
def rebuilt (l : List (string × model.ValueEvaluation)) : List (string × model.ValueEvaluation) :=
  l.filterMap (fun p => p.2.Bool.map (fun b => (p.1, { Bool := some b })))
    ++ l.filterMap (fun p => p.2.String.map (fun s => (p.1, { String := some s })))
    ++ l.filterMap (fun p => p.2.Object.map (fun o => (p.1, { Object := some o })))
    ++ l.filterMap (fun p => p.2.Int.map (fun n => (p.1, { Int := some n })))

/-- A Value with one variant of each kind, two targeting rules on the same
variant and one test. -/
def sampleValue : model.Value :=
  { ID := "sample"
    Enabled := true
    Description := "one variant of each kind"
    DefaultVariant := "off"
    Variants := [("on", { Bool := some { Value := true } }),
      ("name", { String := some { Value := "wings" } }),
      ("json", { Object := some (model.Object.mk
        (some [("items", .array [.object [("content", .str "c1"), ("viewable", .bool true)]])])
        [{ Expr := "first" }, { Expr := "second" }]) }),
      ("one", { Int := some { Value := 1 } })]
    Targeting := { Rules := [{ Variant := "on", Expr := "env == \x27dev\x27" },
      { Variant := "on", Expr := "userId == \x27XXX\x27" }] }
    Tests := [model.EvaluationTest.mk (some [("count", .number 1), ("env", .str "test")]) "on"] }

/-- How many blocks of a shape, over its four typed sequences, carry the
variant name `name`. -/
def valueResource.variantCount (s : valueResource) (name : types.String) : Nat :=
  s.Bool.countP (fun b => decide (b.Variant = name))
    + s.String.countP (fun b => decide (b.Variant = name))
    + s.Object.countP (fun b => decide (b.Variant = name))
    + s.Int.countP (fun b => decide (b.Variant = name))

/-- How many blocks a shape has over its four typed sequences. -/
def valueResource.variantBlocks (s : valueResource) : Nat :=
  s.Bool.length + s.String.length + s.Object.length + s.Int.length

/-- A shape with one `bool` block and one `object` block whose value is not
JSON. -/
def malformedShape : valueResource :=
  { ID := .unknown
    ValueID := .known "bad"
    Description := .null
    Enabled := .known true
    DefaultVariant := .known "on"
    Bool := [⟨.known "on", .known true⟩]
    Int := []
    String := []
    Object := [⟨.known "json", .known "\x7bnot json", []⟩]
    Targeting := [⟨.known "on", .known "env == \x27dev\x27"⟩]
    Test := [] }

/-- `IsNull()` of a `types.String`. -/
def types.String.IsNull : types.String → bool
  | .null => true
  | _ => false

/-- `IsUnknown()` of a `types.String`. -/
def types.String.IsUnknown : types.String → bool
  | .unknown => true
  | _ => false

/-- The shape of the acceptance test `TestAccResourceWingsValue_BoolValue`
(`resource_value_test.go`, lines 244-280), with its id set. -/
def boolShape : valueResource :=
  { ID := .known "test-bool-value"
    ValueID := .known "test-bool-value"
    Description := .known "test bool value"
    Enabled := .known true
    DefaultVariant := .known "off"
    Bool := [⟨.known "on", .known true⟩, ⟨.known "off", .known false⟩]
    Int := []
    String := []
    Object := []
    Targeting := [⟨.known "on", .known "env == \x27dev\x27"⟩,
      ⟨.known "on", .known "userId == \x27XXX\x27"⟩]
    Test := [⟨.known "\x7b\"count\":1,\"env\":\"test\"\x7d", .known "on"⟩] }

/-- The variant names of all blocks of a shape, in processing order. -/
def valueResource.names (s : valueResource) : List string :=
  s.Bool.map (fun b => b.Variant.ValueString) ++ s.String.map (fun b => b.Variant.ValueString)
    ++ s.Object.map (fun b => b.Variant.ValueString) ++ s.Int.map (fun b => b.Variant.ValueString)

/-- The shape of the acceptance test `TestAccResourceWingsValue_ObjectValue`
(`resource_value_test.go`, lines 297-322), with its id set and the transform
expressions shortened. -/
def objectShape : valueResource :=
  { ID := .known "test-json-value"
    ValueID := .known "test-json-value"
    Description := .known "test json value"
    Enabled := .known true
    DefaultVariant := .known "json"
    Bool := []
    Int := []
    String := []
    Object := [⟨.known "json",
      .known "\x7b\"items\":[\x7b\"content\":\"c1\",\"viewable\":true\x7d]\x7d",
      [⟨.known "items.map(item, item.deleteKey())"⟩,
        ⟨.known "items.map(item, item.selectKey())"⟩]⟩]
    Targeting := []
    Test := [] }

/-! ## JSON values with the same contents

A Go map has no order, so two association lists stand for the same
`map[string]any` when they have the same keys with the same values, the
values being compared the same way.
-/

mutual
/-- Two JSON values with the same contents: scalars are equal, arrays agree
element by element, objects agree as maps. -/
def JSON.same : JSON → JSON → Prop
  | .null, b => b = .null
  | .bool x, b => b = .bool x
  | .number n, b => b = .number n
  | .str s, b => b = .str s
  | .array xs, b => ∃ ys, b = .array ys ∧ JSON.sameElems xs ys
  | .object kvs, b =>
    ∃ kvs', b = .object kvs' ∧ kvs.length = kvs'.length ∧ JSON.sameMembers kvs kvs'
/-- Two arrays that agree element by element. -/
def JSON.sameElems : List JSON → List JSON → Prop
  | [], ys => ys = []
  | x :: xs, ys => ∃ y ys', ys = y :: ys' ∧ JSON.same x y ∧ JSON.sameElems xs ys'
/-- Every member of the first list has its key in the second, with a value
of the same contents. -/
def JSON.sameMembers : List (string × JSON) → List (string × JSON) → Prop
  | [], _ => True
  | (k, v) :: rest, kvs' => (∃ w, (k, w) ∈ kvs' ∧ JSON.same v w) ∧ JSON.sameMembers rest kvs'
end

mutual
/-- The keys of every object inside a JSON value are pairwise distinct, as
the keys of a Go map are. -/
def JSON.distinctKeys : JSON → Prop
  | .null => True
  | .bool _ => True
  | .number _ => True
  | .str _ => True
  | .array xs => JSON.distinctKeysElems xs
  | .object kvs => (kvs.map Prod.fst).Nodup ∧ JSON.distinctKeysMembers kvs
/-- The elements of an array all have distinct keys. -/
def JSON.distinctKeysElems : List JSON → Prop
  | [] => True
  | x :: xs => JSON.distinctKeys x ∧ JSON.distinctKeysElems xs
/-- The values of the members of an object all have distinct keys. -/
def JSON.distinctKeysMembers : List (string × JSON) → Prop
  | [] => True
  | (_, v) :: rest => JSON.distinctKeys v ∧ JSON.distinctKeysMembers rest
end

/-- Two `map[string]any` with the same contents: both nil, or both maps with
the same keys and values. -/
def JSONMap.same : JSONMap → JSONMap → Prop
  | none, b => b = none
  | some kvs, b => ∃ kvs', b = some kvs' ∧ JSON.same (.object kvs) (.object kvs')

/-- The keys of every object inside a `map[string]any` are pairwise distinct. -/
def JSONMap.distinctKeys : JSONMap → Prop
  | none => True
  | some kvs => JSON.distinctKeys (.object kvs)

namespace json

/-- The keys of a list of encoded members never descend. -/
def Ascending (ms : List (string × List Char)) : Prop :=
  ms.Pairwise (fun p q => keyLt q.1.data p.1.data = false)

/-- A JSON text in which the members of every object, at every nesting level,
are written in ascending key order. -/
inductive SortedText : List Char → Prop where
  | null : SortedText (encodeValue .null)
  | bool (b : Bool) : SortedText (encodeValue (.bool b))
  | number (n : float64) : SortedText (encodeValue (.number n))
  | str (s : string) : SortedText (encodeValue (.str s))
  | array (ts : List (List Char)) (h : ∀ t ∈ ts, SortedText t) :
    SortedText ('[' :: (joinElems ts ++ [']']))
  | object (ms : List (string × List Char)) (h : ∀ p ∈ ms, SortedText p.2)
    (ha : Ascending ms) : SortedText (lbrace :: (joinMembers ms ++ [rbrace]))

end json

/-- A shape in which the name `x` is carried by a `bool` block and a `string`
block, and the name `y` by a `bool` block, an `object` block and two `int`
blocks. -/
def collisionShape : valueResource :=
  { ID := .known "collision"
    ValueID := .known "collision"
    Description := .null
    Enabled := .known true
    DefaultVariant := .known "x"
    Bool := [⟨.known "x", .known true⟩, ⟨.known "y", .known false⟩]
    Int := [⟨.known "y", .known 1⟩, ⟨.known "y", .known 2⟩]
    String := [⟨.known "x", .known "text"⟩]
    Object := [⟨.known "y", .known "\x7b\x7d", []⟩]
    Targeting := []
    Test := [] }

/-- A test server: an HTTP client that gives up with the context's error when
the context of the request it is handed is done, and otherwise answers every
request with the given status and body. -/
def testClient (status : Int) (body : string) (req : http.Request) :
    Except string http.Response :=
  match req.ctx.Err with
  | some err => .error err
  | none => .ok { StatusCode := status, Body := body }

/-- The client configuration of the acceptance tests (`provider_test.go` and
`resource_value_test.go`, lines 38-44) over a test server. -/
def testConfig (status : Int) (body : string) : config :=
  { ua := "terraform-provider-wings"
    keyID := "test_key_id"
    key := "test_key"
    endpoint := "http://localhost:8018"
    client := testClient status body }

/-- A context that has been cancelled. -/
def cancelledContext : context.Context := { Err := some "context canceled" }

/-! ## What the operations of the client do with the answer of the HTTP client -/

/-- What `GetValue`, `CreateValue` and `UpdateValue` return for the answer
of `c.do` (lines 231-244, 263-276, 295-308). -/
def config.valueResult (env : GoEnv) (answer : Except string http.Response) :
    Option model.Value × Option string :=
  match answer with
  | .error err => (none, some err)
  | .ok resp =>
    if resp.StatusCode ≥ 400 then (none, some (statusError resp))
    else (some (env.DecodeValue resp.Body).1, (env.DecodeValue resp.Body).2)

/-- What `DeleteValue` returns for the answer of `c.do` (lines 322-333). -/
def config.errorResult (answer : Except string http.Response) : Option string :=
  match answer with
  | .error err => some err
  | .ok resp =>
    if resp.StatusCode ≥ 400 ∧ resp.StatusCode ≠ 404 then some (statusError resp) else none

/-- Modelled from the spec: `url.JoinPath` of Go's `net/url` (standard
library, not under src/). The spec says the request path is built by joining
the endpoint with `values` and, where applicable, the id: the elements are
put after the base, each behind a slash. -/
def url.JoinPath (base : string) (elem : List string) : Except string string :=
  .ok (String.intercalate "/" (base :: elem))

/-- The test environment with `url.JoinPath` for its `JoinPath`. -/
def urlEnv : GoEnv := { testEnv with JoinPath := url.JoinPath }

/-- A test server that answers 200 to the one request of the acceptance test
(`GET http://localhost:8018/values/test-bool-value`, without body) and 404 to
any other. -/
def routeClient (req : http.Request) : Except string http.Response :=
  if req.Method = "GET" ∧ req.URL = "http://localhost:8018/values/test-bool-value"
      ∧ req.Body = none then
    .ok { StatusCode := 200, Body := "ok" }
  else .ok { StatusCode := 404, Body := "no route" }

/-- The test environment with a `range` order that happens to be the stored
order of the map. -/
def storedOrderEnv : GoEnv :=
  { testEnv with Range := id, Range_perm := fun m => List.Perm.refl m }

/-- A shape with one `object` block, whose value is the text given. -/
def objectShapeOf (text : string) : valueResource :=
  { ID := .known "test-json-value"
    ValueID := .known "test-json-value"
    Description := .known "test json value"
    Enabled := .known true
    DefaultVariant := .known "json"
    Bool := []
    Int := []
    String := []
    Object := [⟨.known "json", .known text, []⟩]
    Targeting := []
    Test := [] }

/-- A JSON value that is an array, a number, a string or a boolean. -/
def JSON.isArrayOrScalar : JSON → Prop
  | .array _ => True
  | .number _ => True
  | .str _ => True
  | .bool _ => True
  | .null => False
  | .object _ => False

/-- A Value as the server may send it, with a variant `both` that has two
members populated, a variant `none` that has no member populated and a
variant `on` that has one. -/
def malformedValue : model.Value :=
  { ID := "malformed"
    Enabled := true
    Description := ""
    DefaultVariant := "on"
    Variants := [("both", { Bool := some { Value := true }, String := some { Value := "yes" } }),
      ("none", { }), ("on", { Bool := some { Value := true } })]
    Targeting := { Rules := [] }
    Tests := [] }

/-! ## The lifecycle controller (`resource_value.go`, lines 82-92 and 384-460)

A lifecycle method receives a response from the framework and fills it. The
plan or the prior state of the request is an argument, already decoded into
a `valueResource`; decoding it and encoding the state raise no diagnostics
here.
-/

/-- An error added with `resp.Diagnostics.AddError(summary, detail)`. -/
structure diag.Diagnostic where
  Summary : string
  Detail : string
deriving DecidableEq, Repr

/-- The response of a lifecycle method: its diagnostics, which here are all
errors, and its state, `none` when there is no resource state. -/
structure resource.Response where
  Diagnostics : List diag.Diagnostic
  State : Option valueResource
deriving DecidableEq, Repr

/-- `resp.Diagnostics.AddError(summary, detail)`. -/
def resource.Response.AddError (resp : resource.Response) (summary detail : string) :
    resource.Response :=
  { resp with Diagnostics := resp.Diagnostics ++ [{ Summary := summary, Detail := detail }] }

/-- `resp.Diagnostics.HasError()`. -/
def resource.Response.HasError (resp : resource.Response) : Bool :=
  !resp.Diagnostics.isEmpty

/-- The struct `ValueResource`, with the client configuration it was
configured with. -/
structure ValueResource where
  c : config

/-- The method `Create` (lines 384-407). The result `none` is a run-time
panic: the client returned neither a Value nor an error. -/
def ValueResource.Create (env : GoEnv) (v : ValueResource) (ctx : context.Context)
    (plan : valueResource) (resp : resource.Response) : Option resource.Response :=
  if resp.HasError then some resp
  else
    match plan.value env with
    | .error err =>
      some (resp.AddError "Error creating value" ("Invalid Attribute(s): " ++ err))
    | .ok value =>
      match v.c.CreateValue env ctx value with
      | (_, some err) => some (resp.AddError "Error creating value" err)
      | (none, none) => none
      | (some value, none) =>
        some { resp with State := some { plan with ID := types.StringValue value.ID } }

/-- The method `Read` (lines 409-419): the state of the request is stored
back. -/
def ValueResource.Read (_v : ValueResource) (_ctx : context.Context) (state : valueResource)
    (resp : resource.Response) : resource.Response :=
  if resp.HasError then resp
  else { resp with State := some state }

/-- The method `Update` (lines 421-443). -/
def ValueResource.Update (env : GoEnv) (v : ValueResource) (ctx : context.Context)
    (plan : valueResource) (resp : resource.Response) : resource.Response :=
  if resp.HasError then resp
  else
    match plan.value env with
    | .error err => resp.AddError "Error updating value" ("Invalid Attribute(s): " ++ err)
    | .ok value =>
      match (v.c.UpdateValue env ctx value).2 with
      | some err => resp.AddError "Error updating value" err
      | none => { resp with State := some plan }

/-- The method `Delete` (lines 445-460). -/
def ValueResource.Delete (env : GoEnv) (v : ValueResource) (ctx : context.Context)
    (state : valueResource) (resp : resource.Response) : resource.Response :=
  if resp.HasError then resp
  else
    match v.c.DeleteValue env ctx state.ID.ValueString with
    | some err => resp.AddError "Error deleting value" err
    | none => { resp with State := none }

/-- The method `ImportState` (lines 82-92), for the id of the import
request. The result `none` is a run-time panic: the client returned neither
a Value nor an error. -/
def ValueResource.ImportState (env : GoEnv) (v : ValueResource) (ctx : context.Context)
    (id : string) (resp : resource.Response) : Option resource.Response :=
  match v.c.GetValue env ctx id with
  | (_, some err) => some (resp.AddError "Error get value" err)
  | (none, none) => none
  | (some value, none) => some { resp with State := some (valueState env value) }

/-- The response a lifecycle method starts from when no resource exists yet. -/
def resource.emptyResponse : resource.Response := { Diagnostics := [], State := none }

/-- The plan of the acceptance test for a new resource, with a description
edited away from the one the test server holds. -/
def editedPlan : valueResource :=
  { boolShape with ID := .unknown, Description := .known "edited locally" }

/-! ## Lemmas on the map operations -/

theorem lookup_filter_ne (k k' : string) (m : model.Variants) (h : k' ≠ k) :
    List.lookup k' (m.filter (fun p => p.1 != k)) = List.lookup k' m := by
  induction m with
  | nil => rfl
  | cons p m ih =>
    obtain ⟨a, e⟩ := p
    by_cases ha : a = k
    · subst ha
      have hk : (k' == a) = false := by simpa using h
      simp [List.filter_cons, List.lookup_cons, hk, ih]
    · by_cases hk : k' = a
      · subst hk
        simp [List.filter_cons, ha, List.lookup_cons]
      · have hk' : (k' == a) = false := by simpa using hk
        simp [List.filter_cons, ha, List.lookup_cons, hk', ih]

theorem get_assign (m : model.Variants) (k k' : string) (e : model.ValueEvaluation) :
    (m.assign k e).get k' = if k' = k then some e else m.get k' := by
  unfold model.Variants.assign model.Variants.get
  by_cases h : k' = k
  · subst h
    simp [List.lookup_cons]
  · have hk : (k' == k) = false := by simpa using h
    simp [List.lookup_cons, hk, h, lookup_filter_ne k k' m h]

theorem lookup_append (k : string) (l₁ l₂ : model.Variants) :
    List.lookup k (l₁ ++ l₂) = (List.lookup k l₁).orElse (fun _ => List.lookup k l₂) := by
  induction l₁ with
  | nil => simp
  | cons p l ih =>
    obtain ⟨a, e⟩ := p
    by_cases h : k = a
    · subst h
      simp [List.lookup_cons]
    · have hk : (k == a) = false := by simpa using h
      simp [List.lookup_cons, hk, ih]

theorem get_assignAll (writes : List (string × model.ValueEvaluation)) (m : model.Variants)
    (k : string) :
    (m.assignAll writes).get k = (value.lastWrite k writes).orElse (fun _ => m.get k) := by
  induction writes generalizing m with
  | nil => simp [model.Variants.assignAll, value.lastWrite]
  | cons p l ih =>
    obtain ⟨a, e⟩ := p
    have hfold : model.Variants.assignAll m ((a, e) :: l)
        = model.Variants.assignAll (m.assign a e) l := rfl
    rw [hfold, ih, get_assign]
    unfold value.lastWrite
    rw [List.reverse_cons, lookup_append]
    cases hl : List.lookup k l.reverse with
    | some x => simp
    | none =>
      by_cases h : k = a
      · subst h
        simp [List.lookup_cons, model.Variants.get]
      · have hk : (k == a) = false := by simpa using h
        simp [List.lookup_cons, hk, h, model.Variants.get]

theorem keys_assign (m : model.Variants) (k : string) (e : model.ValueEvaluation) :
    (m.assign k e).keys = k :: m.keys.filter (fun a => a != k) := by
  simp [model.Variants.assign, model.Variants.keys, List.filter_map, Function.comp_def]

theorem keys_assign_nodup (m : model.Variants) (k : string) (e : model.ValueEvaluation)
    (h : m.keys.Nodup) : (m.assign k e).keys.Nodup := by
  rw [keys_assign]
  refine List.nodup_cons.mpr ⟨?_, h.filter _⟩
  simp [List.mem_filter]

theorem keys_assignAll_nodup (writes : List (string × model.ValueEvaluation))
    (m : model.Variants) (h : m.keys.Nodup) : (m.assignAll writes).keys.Nodup := by
  induction writes generalizing m with
  | nil => simpa [model.Variants.assignAll] using h
  | cons p l ih => exact ih _ (keys_assign_nodup m p.1 p.2 h)

theorem lookup_perm (k : string) {l₁ l₂ : model.Variants} (hp : l₁.Perm l₂)
    (hn : (l₁.map Prod.fst).Nodup) : List.lookup k l₁ = List.lookup k l₂ := by
  induction hp with
  | nil => rfl
  | cons p _ ih =>
    obtain ⟨a, e⟩ := p
    have hn' : (List.map Prod.fst _).Nodup := (List.nodup_cons.mp hn).2
    by_cases h : k = a
    · subst h
      simp [List.lookup_cons]
    · have hk : (k == a) = false := by simpa using h
      simp [List.lookup_cons, hk, ih hn']
  | swap p q l =>
    obtain ⟨a, e⟩ := p
    obtain ⟨b, f⟩ := q
    have hab : b ≠ a := by
      intro h
      simp [h] at hn
    by_cases h1 : k = a
    · subst h1
      have hk : (k == b) = false := by simpa using (Ne.symm hab)
      simp [List.lookup_cons, hk]
    · have hk : (k == a) = false := by simpa using h1
      simp [List.lookup_cons, hk]
  | trans h₁ _ ih₁ ih₂ =>
    rw [ih₁ hn, ih₂ ((List.Perm.map Prod.fst h₁).nodup_iff.mp hn)]

theorem mem_keys_of_get {m : model.Variants} {k : string} {e : model.ValueEvaluation}
    (h : m.get k = some e) : (k, e) ∈ m := by
  induction m with
  | nil => simp [model.Variants.get] at h
  | cons p l ih =>
    obtain ⟨a, f⟩ := p
    by_cases hk : k = a
    · subst hk
      simp [model.Variants.get, List.lookup_cons] at h
      simp [h]
    · have hk' : (k == a) = false := by simpa using hk
      simp [model.Variants.get, List.lookup_cons, hk'] at h
      exact List.mem_cons_of_mem _ (ih h)

theorem get_of_mem {m : model.Variants} {k : string} {e : model.ValueEvaluation}
    (hn : m.keys.Nodup) (h : (k, e) ∈ m) : m.get k = some e := by
  induction m with
  | nil => simp at h
  | cons p l ih =>
    obtain ⟨a, f⟩ := p
    have hn' : a ∉ l.map Prod.fst ∧ (l.map Prod.fst).Nodup := List.nodup_cons.mp hn
    rcases List.mem_cons.mp h with h1 | h2
    · cases h1
      simp [model.Variants.get, List.lookup_cons]
    · have hne : k ≠ a := by
        intro hk
        subst hk
        exact hn'.1 (List.mem_map.mpr ⟨(k, e), h2, rfl⟩)
      have hk' : (k == a) = false := by simpa using hne
      have := ih hn'.2 h2
      simpa [model.Variants.get, List.lookup_cons, hk'] using this


/-! ## What `value()` computes -/

theorem assignAll_append (m : model.Variants) (l₁ l₂ : List (string × model.ValueEvaluation)) :
    m.assignAll (l₁ ++ l₂) = (m.assignAll l₁).assignAll l₂ := by
  simp [model.Variants.assignAll, List.foldl_append]

theorem foldl_assign_map {α : Type} (f : α → string × model.ValueEvaluation) (l : List α)
    (m : model.Variants) :
    l.foldl (fun (m : model.Variants) x => m.assign (f x).1 (f x).2) m = m.assignAll (l.map f) := by
  simp [model.Variants.assignAll, List.foldl_map]

theorem value_objects_eq (env : GoEnv) (l : List valueResourceObject) (m : model.Variants) :
    value.objects env l m =
      match value.objectEntries env l with
      | .error err => .error err
      | .ok es => .ok (m.assignAll es) := by
  induction l generalizing m with
  | nil => rfl
  | cons val rest ih =>
    simp only [value.objects, value.objectEntries]
    cases env.Unmarshal val.Value.ValueString with
    | error err => rfl
    | ok j =>
      simp only []
      rw [ih]
      cases value.objectEntries env rest with
      | error err => rfl
      | ok es => rfl

theorem value_eq (env : GoEnv) (v : valueResource) :
    v.value env =
      match value.objectEntries env v.Object with
      | .error err => .error err
      | .ok es =>
        match value.tests env v.Test with
        | .error err => .error err
        | .ok tests =>
          .ok { ID := v.ID.ValueString
                Enabled := v.Enabled.ValueBool
                Description := v.Description.ValueString
                DefaultVariant := v.DefaultVariant.ValueString
                Variants := model.Variants.assignAll [] (value.writes v es)
                Targeting := { Rules := v.Targeting.map (fun t =>
                  model.ValueTargetingRule.mk t.Variant.ValueString t.Expr.ValueString) }
                Tests := tests } := by
  unfold valueResource.value
  simp only []
  rw [value_objects_eq]
  cases value.objectEntries env v.Object with
  | error err => rfl
  | ok es =>
    simp only []
    cases value.tests env v.Test with
    | error err => rfl
    | ok tests =>
      simp only []
      have hb := foldl_assign_map value.boolEntry v.Bool []
      have hs := foldl_assign_map value.stringEntry v.String (model.Variants.assignAll [] (v.Bool.map value.boolEntry))
      have hi := foldl_assign_map value.intEntry v.Int
        (((model.Variants.assignAll [] (v.Bool.map value.boolEntry)).assignAll
          (v.String.map value.stringEntry)).assignAll es)
      simp only [value.boolEntry, value.stringEntry, value.intEntry] at hb hs hi
      rw [hb, hs, hi]
      simp only [value.writes, assignAll_append, value.boolEntry, value.stringEntry,
        value.intEntry]

/-! ## What `valueState` computes -/

theorem valueState_visit_foldl (env : GoEnv) (l : List (string × model.ValueEvaluation))
    (acc : valueState.blocks) :
    l.foldl (fun acc p => valueState.visit env acc p.1 p.2) acc =
      { bools := acc.bools ++ l.filterMap valueState.boolBlock
        strs := acc.strs ++ l.filterMap valueState.stringBlock
        objects := acc.objects ++ l.filterMap (valueState.objectBlock env)
        ints := acc.ints ++ l.filterMap valueState.intBlock } := by
  induction l generalizing acc with
  | nil => simp
  | cons p l ih =>
    obtain ⟨k, ⟨b, s, o, n⟩⟩ := p
    rw [List.foldl_cons, ih]
    cases b <;> cases s <;> cases o <;> cases n <;>
      simp [valueState.visit, valueState.boolBlock, valueState.stringBlock,
        valueState.objectBlock, valueState.intBlock, List.filterMap_cons]

theorem valueState_Bool (env : GoEnv) (v : model.Value) :
    (valueState env v).Bool = (env.Range v.Variants).filterMap valueState.boolBlock := by
  simp [valueState, valueState_visit_foldl]

theorem valueState_String (env : GoEnv) (v : model.Value) :
    (valueState env v).String = (env.Range v.Variants).filterMap valueState.stringBlock := by
  simp [valueState, valueState_visit_foldl]

theorem valueState_Object (env : GoEnv) (v : model.Value) :
    (valueState env v).Object = (env.Range v.Variants).filterMap (valueState.objectBlock env) := by
  simp [valueState, valueState_visit_foldl]

theorem valueState_Int (env : GoEnv) (v : model.Value) :
    (valueState env v).Int = (env.Range v.Variants).filterMap valueState.intBlock := by
  simp [valueState, valueState_visit_foldl]


/-! ## The round trip `value(valueState(v))` -/

/-- The entry that `value()` rebuilds from the `bool` block of a map entry. -/
theorem boolEntry_boolBlock (l : List (string × model.ValueEvaluation)) :
    (l.filterMap valueState.boolBlock).map value.boolEntry =
      l.filterMap (fun p => p.2.Bool.map (fun b => (p.1, { Bool := some b }))) := by
  induction l with
  | nil => rfl
  | cons p l ih =>
    obtain ⟨k, ⟨b, s, o, n⟩⟩ := p
    cases b <;>
      simp_all [List.filterMap_cons, valueState.boolBlock, value.boolEntry, types.StringValue,
        types.BoolValue, types.String.ValueString, types.Bool.ValueBool]

theorem stringEntry_stringBlock (l : List (string × model.ValueEvaluation)) :
    (l.filterMap valueState.stringBlock).map value.stringEntry =
      l.filterMap (fun p => p.2.String.map (fun s => (p.1, { String := some s }))) := by
  induction l with
  | nil => rfl
  | cons p l ih =>
    obtain ⟨k, ⟨b, s, o, n⟩⟩ := p
    cases s <;>
      simp_all [List.filterMap_cons, valueState.stringBlock, value.stringEntry,
        types.StringValue, types.String.ValueString]

theorem intEntry_intBlock (l : List (string × model.ValueEvaluation)) :
    (l.filterMap valueState.intBlock).map value.intEntry =
      l.filterMap (fun p => p.2.Int.map (fun n => (p.1, { Int := some n }))) := by
  induction l with
  | nil => rfl
  | cons p l ih =>
    obtain ⟨k, ⟨b, s, o, n⟩⟩ := p
    cases n <;>
      simp_all [List.filterMap_cons, valueState.intBlock, value.intEntry, types.StringValue,
        types.Int64Value, types.String.ValueString, types.Int64.ValueInt64]

theorem transforms_objectBlock (k : string) (j : string) (ts : List model.ValueTransform) :
    value.transforms ⟨types.StringValue k, types.StringValue j,
      ts.map (fun t => valueResourceTransform.mk (types.StringValue t.Expr))⟩ = ts := by
  simp [value.transforms, types.StringValue, types.String.ValueString, Function.comp_def]

theorem objectEntries_objectBlock (env : GoEnv) (l : List (string × model.ValueEvaluation))
    (h : ∀ p ∈ l, ∀ o, p.2.Object = some o →
      env.Unmarshal (env.Marshal o.Value) = .ok o.Value) :
    value.objectEntries env (l.filterMap (valueState.objectBlock env)) =
      .ok (l.filterMap (fun p => p.2.Object.map (fun o => (p.1, { Object := some o })))) := by
  induction l with
  | nil => rfl
  | cons p l ih =>
    obtain ⟨k, ⟨b, s, o, n⟩⟩ := p
    have ih' := ih (fun q hq => h q (List.mem_cons_of_mem _ hq))
    cases o with
    | none => simpa [List.filterMap_cons, valueState.objectBlock] using ih'
    | some o =>
      have hU := h _ (List.mem_cons_self _ _) o rfl
      obtain ⟨j, ts⟩ := o
      simp only [List.filterMap_cons, valueState.objectBlock, Option.map_some',
        value.objectEntries]
      simp only [types.StringValue, types.String.ValueString] at hU ⊢
      rw [hU]
      simp only []
      have ih'' := ih'
      simp only [valueState.objectBlock] at ih''
      rw [ih'']
      simp only []
      have ht := transforms_objectBlock k (env.Marshal j) ts
      simp only [types.StringValue] at ht
      rw [ht]

theorem tests_valueState (env : GoEnv) (l : List model.EvaluationTest)
    (h : ∀ t ∈ l, env.Unmarshal (env.Marshal t.Variables) = .ok t.Variables) :
    value.tests env (l.map (fun t => valueResourceTest.mk
      (types.StringValue (env.Marshal t.Variables)) (types.StringValue t.Expected))) = .ok l := by
  induction l with
  | nil => rfl
  | cons t l ih =>
    have ih' := ih (fun q hq => h q (List.mem_cons_of_mem _ hq))
    have hU := h t (List.mem_cons_self _ _)
    simp only [List.map_cons, value.tests, types.StringValue, types.String.ValueString] at ih' ⊢
    rw [hU]
    simp only []
    rw [ih']

theorem perm_insert_third {α : Type} (p : α) (A B C : List α) :
    (A ++ (B ++ p :: C)).Perm (p :: (A ++ (B ++ C))) :=
  (List.Perm.append_left A List.perm_middle).trans List.perm_middle

theorem perm_insert_fourth {α : Type} (p : α) (A B C D : List α) :
    (A ++ (B ++ (C ++ p :: D))).Perm (p :: (A ++ (B ++ (C ++ D)))) :=
  (List.Perm.append_left A (perm_insert_third p B C D)).trans List.perm_middle

theorem rebuilt_perm (l : List (string × model.ValueEvaluation))
    (h : ∀ p ∈ l, p.2.populated = 1) : (rebuilt l).Perm l := by
  induction l with
  | nil => exact List.Perm.refl _
  | cons p l ih =>
    have ih' := ih (fun q hq => h q (List.mem_cons_of_mem _ hq))
    have hp := h p (List.mem_cons_self _ _)
    obtain ⟨k, ⟨b, s, o, n⟩⟩ := p
    unfold rebuilt at ih' ⊢
    simp only [List.append_assoc] at ih' ⊢
    cases b <;> cases s <;> cases o <;> cases n <;>
      simp [model.ValueEvaluation.populated] at hp <;>
      simp only [List.filterMap_cons, Option.map_none', Option.map_some', List.cons_append]
    · exact (perm_insert_fourth _ _ _ _ _).trans (List.Perm.cons _ ih')
    · exact (perm_insert_third _ _ _ _).trans (List.Perm.cons _ ih')
    · exact List.perm_middle.trans (List.Perm.cons _ ih')
    · exact List.Perm.cons _ ih'

theorem assignAll_fresh (writes : List (string × model.ValueEvaluation)) (m : model.Variants)
    (hn : (writes.map Prod.fst).Nodup) (hm : ∀ p ∈ writes, p.1 ∉ m.keys) :
    m.assignAll writes = writes.reverse ++ m := by
  induction writes generalizing m with
  | nil => rfl
  | cons p l ih =>
    obtain ⟨a, e⟩ := p
    have hn' : a ∉ l.map Prod.fst ∧ (l.map Prod.fst).Nodup := List.nodup_cons.mp hn
    have ha : a ∉ m.keys := hm (a, e) (List.mem_cons_self _ _)
    have hassign : m.assign a e = (a, e) :: m := by
      unfold model.Variants.assign
      congr 1
      refine List.filter_eq_self.mpr (fun q hq => ?_)
      have : q.1 ≠ a := by
        intro hqa
        exact ha (hqa ▸ List.mem_map.mpr ⟨q, hq, rfl⟩)
      simpa using this
    have hfold : model.Variants.assignAll m ((a, e) :: l)
        = model.Variants.assignAll (m.assign a e) l := rfl
    rw [hfold, hassign, ih _ hn'.2]
    · simp
    · intro q hq hmem
      have hq' : q.1 ∈ a :: m.keys := by simpa [model.Variants.keys] using hmem
      rcases List.mem_cons.mp hq' with h1 | h2
      · exact hn'.1 (h1 ▸ List.mem_map.mpr ⟨q, hq, rfl⟩)
      · exact hm q (List.mem_cons_of_mem _ hq) h2

/-- C1. Round trip: for every domain Value whose variants each have exactly one
populated member, `value()` applied to `valueState(v)` succeeds and returns a
Value with the same id, enabled, description and defaultVariant, the same
variants map (the same entries, each Object with its JSON value and its
transforms), the same targeting rules and the same tests. The JSON library is
asked to give back, from the text it wrote for a map of `v`, that map. -/
theorem value_valueState_roundtrip (env : GoEnv) (v : model.Value)
    (hkeys : v.Variants.keys.Nodup)
    (hone : ∀ p ∈ v.Variants, p.2.populated = 1)
    (hobj : ∀ p ∈ v.Variants, ∀ o, p.2.Object = some o →
      env.Unmarshal (env.Marshal o.Value) = .ok o.Value)
    (htest : ∀ t ∈ v.Tests, env.Unmarshal (env.Marshal t.Variables) = .ok t.Variables) :
    ∃ v', (valueState env v).value env = .ok v' ∧
      v'.ID = v.ID ∧ v'.Enabled = v.Enabled ∧ v'.Description = v.Description ∧
      v'.DefaultVariant = v.DefaultVariant ∧
      v'.Variants.Perm v.Variants ∧ (∀ k, v'.Variants.get k = v.Variants.get k) ∧
      v'.Targeting = v.Targeting ∧ v'.Tests = v.Tests := by
  have hperm := env.Range_perm v.Variants
  have hobj' : ∀ p ∈ env.Range v.Variants, ∀ o, p.2.Object = some o →
      env.Unmarshal (env.Marshal o.Value) = .ok o.Value :=
    fun p hp => hobj p (hperm.mem_iff.mp hp)
  have hone' : ∀ p ∈ env.Range v.Variants, p.2.populated = 1 :=
    fun p hp => hone p (hperm.mem_iff.mp hp)
  have hO := objectEntries_objectBlock env (env.Range v.Variants) hobj'
  have hT := tests_valueState env v.Tests htest
  have hw : value.writes (valueState env v)
      ((env.Range v.Variants).filterMap
        (fun p => p.2.Object.map (fun o => (p.1, { Object := some o }))))
      = rebuilt (env.Range v.Variants) := by
    unfold value.writes rebuilt
    rw [valueState_Bool, valueState_String, valueState_Int, boolEntry_boolBlock,
      stringEntry_stringBlock, intEntry_intBlock]
  have hrb : (rebuilt (env.Range v.Variants)).Perm v.Variants :=
    (rebuilt_perm _ hone').trans hperm
  have hnd : ((rebuilt (env.Range v.Variants)).map Prod.fst).Nodup :=
    (List.Perm.map Prod.fst hrb).nodup_iff.mpr hkeys
  have hall : model.Variants.assignAll [] (rebuilt (env.Range v.Variants))
      = (rebuilt (env.Range v.Variants)).reverse := by
    rw [assignAll_fresh _ _ hnd (by simp [model.Variants.keys])]
    simp
  have hfinal : ((rebuilt (env.Range v.Variants)).reverse).Perm v.Variants :=
    (List.reverse_perm _).trans hrb
  have hTest : (valueState env v).Test = v.Tests.map (fun t => valueResourceTest.mk
      (types.StringValue (env.Marshal t.Variables)) (types.StringValue t.Expected)) := rfl
  rw [value_eq, valueState_Object, hO]
  simp only []
  rw [hTest, hT]
  refine ⟨_, rfl, rfl, rfl, rfl, rfl, ?_, ?_, ?_, rfl⟩
  · simp only [hw, hall]
    exact hfinal
  · intro k
    simp only [hw, hall]
    exact lookup_perm k hfinal ((List.Perm.map Prod.fst hfinal).nodup_iff.mpr hkeys)
  · obtain ⟨id, en, de, dv, vs, ⟨rules⟩, ts⟩ := v
    simp [valueState, types.StringValue, types.String.ValueString, Function.comp_def]

set_option maxRecDepth 100000 in
theorem value_valueState_roundtrip_witness :
    ∃ v', (valueState testEnv sampleValue).value testEnv = .ok v' ∧
      v'.ID = sampleValue.ID ∧ v'.Enabled = sampleValue.Enabled ∧
      v'.Description = sampleValue.Description ∧
      v'.DefaultVariant = sampleValue.DefaultVariant ∧
      v'.Variants.Perm sampleValue.Variants ∧
      (∀ k, v'.Variants.get k = sampleValue.Variants.get k) ∧
      v'.Targeting = sampleValue.Targeting ∧ v'.Tests = sampleValue.Tests :=
  value_valueState_roundtrip testEnv sampleValue (by decide) (by decide)
    (by
      intro p hp o ho
      simp only [sampleValue, List.mem_cons, List.mem_singleton, List.not_mem_nil,
        or_false] at hp
      rcases hp with rfl | rfl | rfl | rfl <;> simp at ho
      subst ho
      rfl)
    (by
      intro t ht
      simp only [sampleValue, List.mem_singleton] at ht
      subst ht
      rfl)

/-! ## One block per variant -/

theorem blocks_length (env : GoEnv) (l : List (string × model.ValueEvaluation))
    (h : ∀ p ∈ l, p.2.populated = 1) :
    (l.filterMap valueState.boolBlock).length + (l.filterMap valueState.stringBlock).length
      + (l.filterMap (valueState.objectBlock env)).length
      + (l.filterMap valueState.intBlock).length = l.length := by
  induction l with
  | nil => rfl
  | cons p l ih =>
    have ih' := ih (fun q hq => h q (List.mem_cons_of_mem _ hq))
    have hp := h p (List.mem_cons_self _ _)
    obtain ⟨k, ⟨b, s, o, n⟩⟩ := p
    cases b <;> cases s <;> cases o <;> cases n <;>
      simp [model.ValueEvaluation.populated] at hp <;>
      simp [List.filterMap_cons, valueState.boolBlock, valueState.stringBlock,
        valueState.objectBlock, valueState.intBlock] <;> omega

theorem blocks_count (env : GoEnv) (l : List (string × model.ValueEvaluation)) (k : string)
    (h : ∀ p ∈ l, p.2.populated = 1) :
    (l.filterMap valueState.boolBlock).countP (fun b => decide (b.Variant = types.StringValue k))
      + (l.filterMap valueState.stringBlock).countP
          (fun b => decide (b.Variant = types.StringValue k))
      + (l.filterMap (valueState.objectBlock env)).countP
          (fun b => decide (b.Variant = types.StringValue k))
      + (l.filterMap valueState.intBlock).countP
          (fun b => decide (b.Variant = types.StringValue k))
      = (l.map Prod.fst).count k := by
  induction l with
  | nil => rfl
  | cons p l ih =>
    have ih' := ih (fun q hq => h q (List.mem_cons_of_mem _ hq))
    have hp := h p (List.mem_cons_self _ _)
    obtain ⟨a, ⟨b, s, o, n⟩⟩ := p
    simp only [types.StringValue] at ih' ⊢
    by_cases hak : a = k
    · cases b <;> cases s <;> cases o <;> cases n <;>
        simp [model.ValueEvaluation.populated] at hp <;>
        simp [List.filterMap_cons, valueState.boolBlock, valueState.stringBlock,
          valueState.objectBlock, valueState.intBlock, List.countP_cons, List.count_cons,
          types.StringValue, hak] <;> omega
    · cases b <;> cases s <;> cases o <;> cases n <;>
        simp [model.ValueEvaluation.populated] at hp <;>
        simp [List.filterMap_cons, valueState.boolBlock, valueState.stringBlock,
          valueState.objectBlock, valueState.intBlock, List.countP_cons, List.count_cons,
          types.StringValue, hak] <;> omega

/-- C2. For every domain Value whose variants each have exactly one populated
member, the four sequences built by `valueState` have together as many blocks
as the Value has variants; every variant name is carried by exactly one block
over the four sequences, and that block sits in the sequence of the populated
member with that member's value (for an Object, the JSON text of its value
and its transforms). -/
theorem valueState_one_block_per_variant (env : GoEnv) (v : model.Value)
    (hkeys : v.Variants.keys.Nodup) (hone : ∀ p ∈ v.Variants, p.2.populated = 1) :
    (valueState env v).variantBlocks = v.Variants.length ∧
    ∀ p ∈ v.Variants,
      (valueState env v).variantCount (types.StringValue p.1) = 1 ∧
      (∀ b, p.2.Bool = some b →
        ⟨types.StringValue p.1, types.BoolValue b.Value⟩ ∈ (valueState env v).Bool) ∧
      (∀ s, p.2.String = some s →
        ⟨types.StringValue p.1, types.StringValue s.Value⟩ ∈ (valueState env v).String) ∧
      (∀ o, p.2.Object = some o →
        ⟨types.StringValue p.1, types.StringValue (env.Marshal o.Value),
          o.Transforms.map (fun t => valueResourceTransform.mk (types.StringValue t.Expr))⟩
          ∈ (valueState env v).Object) ∧
      (∀ n, p.2.Int = some n →
        ⟨types.StringValue p.1, types.Int64Value n.Value⟩ ∈ (valueState env v).Int) := by
  have hperm := env.Range_perm v.Variants
  have hone' : ∀ p ∈ env.Range v.Variants, p.2.populated = 1 :=
    fun p hp => hone p (hperm.mem_iff.mp hp)
  refine ⟨?_, fun p hp => ⟨?_, ?_, ?_, ?_, ?_⟩⟩
  · unfold valueResource.variantBlocks
    rw [valueState_Bool, valueState_String, valueState_Object, valueState_Int,
      blocks_length env _ hone', hperm.length_eq]
  · unfold valueResource.variantCount
    rw [valueState_Bool, valueState_String, valueState_Object, valueState_Int,
      blocks_count env _ p.1 hone', (List.Perm.map Prod.fst hperm).count_eq]
    exact List.count_eq_one_of_mem hkeys (List.mem_map.mpr ⟨p, hp, rfl⟩)
  · intro b hb
    rw [valueState_Bool]
    exact List.mem_filterMap.mpr ⟨p, hperm.mem_iff.mpr hp, by simp [valueState.boolBlock, hb]⟩
  · intro s hs
    rw [valueState_String]
    exact List.mem_filterMap.mpr ⟨p, hperm.mem_iff.mpr hp, by simp [valueState.stringBlock, hs]⟩
  · intro o ho
    rw [valueState_Object]
    exact List.mem_filterMap.mpr ⟨p, hperm.mem_iff.mpr hp, by simp [valueState.objectBlock, ho]⟩
  · intro n hn
    rw [valueState_Int]
    exact List.mem_filterMap.mpr ⟨p, hperm.mem_iff.mpr hp, by simp [valueState.intBlock, hn]⟩

theorem valueState_one_block_per_variant_witness :
    (valueState testEnv sampleValue).variantBlocks = sampleValue.Variants.length ∧
    ∀ p ∈ sampleValue.Variants,
      (valueState testEnv sampleValue).variantCount (types.StringValue p.1) = 1 ∧
      (∀ b, p.2.Bool = some b →
        ⟨types.StringValue p.1, types.BoolValue b.Value⟩ ∈ (valueState testEnv sampleValue).Bool) ∧
      (∀ s, p.2.String = some s →
        ⟨types.StringValue p.1, types.StringValue s.Value⟩
          ∈ (valueState testEnv sampleValue).String) ∧
      (∀ o, p.2.Object = some o →
        ⟨types.StringValue p.1, types.StringValue (testEnv.Marshal o.Value),
          o.Transforms.map (fun t => valueResourceTransform.mk (types.StringValue t.Expr))⟩
          ∈ (valueState testEnv sampleValue).Object) ∧
      (∀ n, p.2.Int = some n →
        ⟨types.StringValue p.1, types.Int64Value n.Value⟩
          ∈ (valueState testEnv sampleValue).Int) :=
  valueState_one_block_per_variant testEnv sampleValue (by decide) (by decide)

/-! ## When `value()` fails -/

theorem objectEntries_error_iff (env : GoEnv) (l : List valueResourceObject) :
    (∃ err, value.objectEntries env l = .error err) ↔
      ∃ ob ∈ l, ∃ err, env.Unmarshal ob.Value.ValueString = .error err := by
  induction l with
  | nil => simp [value.objectEntries]
  | cons val rest ih =>
    simp only [value.objectEntries, List.mem_cons, exists_eq_or_imp]
    cases hU : env.Unmarshal val.Value.ValueString with
    | error err => simp
    | ok m =>
      simp only [false_or, exists_false]
      rw [← ih]
      cases value.objectEntries env rest with
      | error err => simp
      | ok es => simp

theorem tests_error_iff (env : GoEnv) (l : List valueResourceTest) :
    (∃ err, value.tests env l = .error err) ↔
      ∃ t ∈ l, ∃ err, env.Unmarshal t.Variables.ValueString = .error err := by
  induction l with
  | nil => simp [value.tests]
  | cons val rest ih =>
    simp only [value.tests, List.mem_cons, exists_eq_or_imp]
    cases hU : env.Unmarshal val.Variables.ValueString with
    | error err => simp
    | ok m =>
      simp only [false_or, exists_false]
      rw [← ih]
      cases value.tests env rest with
      | error err => simp
      | ok es => simp

theorem value_error_iff (env : GoEnv) (v : valueResource) :
    (∃ err, v.value env = .error err) ↔
      (∃ ob ∈ v.Object, ∃ err, env.Unmarshal ob.Value.ValueString = .error err) ∨
      (∃ t ∈ v.Test, ∃ err, env.Unmarshal t.Variables.ValueString = .error err) := by
  rw [← objectEntries_error_iff, ← tests_error_iff, value_eq]
  cases value.objectEntries env v.Object with
  | error err => simp
  | ok es =>
    cases value.tests env v.Test with
    | error err => simp
    | ok tests => simp

/-- C3. `value()` returns an error, and with it no Value, if and only if the
value string of some object block or the variables string of some test block
fails to parse as a JSON object; and with the JSON parser of the `json`
section, a shape with an object block whose value is `{not json` fails. -/
theorem value_fails_iff_json_fails (env : GoEnv) (v : valueResource) :
    ((∃ err, v.value env = .error err) ↔
      (∃ ob ∈ v.Object, ∃ err, env.Unmarshal ob.Value.ValueString = .error err) ∨
      (∃ t ∈ v.Test, ∃ err, env.Unmarshal t.Variables.ValueString = .error err)) ∧
    ((∀ value, v.value env ≠ .ok value) ↔ ∃ err, v.value env = .error err) ∧
    (env.Unmarshal = json.Unmarshal →
      (∃ ob ∈ v.Object, ob.Value = types.StringValue "\x7bnot json") →
      ∃ err, v.value env = .error err) := by
  refine ⟨value_error_iff env v, ?_, ?_⟩
  · cases v.value env with
    | error err => simp
    | ok value => simp
  · intro henv hob
    obtain ⟨ob, hmem, hval⟩ := hob
    refine (value_error_iff env v).mpr (Or.inl ⟨ob, hmem, "invalid character", ?_⟩)
    rw [henv, hval]
    rfl

theorem value_fails_iff_json_fails_witness :
    ∃ err, malformedShape.value testEnv = .error err :=
  (value_fails_iff_json_fails testEnv malformedShape).2.2 rfl
    ⟨⟨.known "json", .known "\x7bnot json", []⟩, by simp [malformedShape], rfl⟩

/-! ## Order of the targeting rules -/

theorem StringValue_ValueString (x : types.String) (hn : x.IsNull = false)
    (hu : x.IsUnknown = false) : types.StringValue x.ValueString = x := by
  cases x with
  | null => simp [types.String.IsNull] at hn
  | unknown => simp [types.String.IsUnknown] at hu
  | known s => rfl

theorem value_Targeting (env : GoEnv) (s : valueResource) (v : model.Value)
    (h : s.value env = .ok v) :
    v.Targeting.Rules = s.Targeting.map (fun t =>
      model.ValueTargetingRule.mk t.Variant.ValueString t.Expr.ValueString) := by
  rw [value_eq] at h
  cases hO : value.objectEntries env s.Object with
  | error err => simp [hO] at h
  | ok es =>
    cases hT : value.tests env s.Test with
    | error err => simp [hO, hT] at h
    | ok tests =>
      simp only [hO, hT, Except.ok.injEq] at h
      rw [← h]

/-- C4. Targeting order: a Value returned by `value()` has as many targeting
rules as the shape has targeting blocks, and the rule at each index carries
the variant and the expr string of the block at that index; `valueState` does
the same from the rules to the blocks; so for a shape whose targeting
attributes are known strings, `valueState` after `value()` gives back the
targeting sequence of the shape, whatever variants repeat in it. -/
theorem targeting_order_preserved (env : GoEnv) (s : valueResource) (v : model.Value)
    (h : s.value env = .ok v) :
    (v.Targeting.Rules.length = s.Targeting.length ∧
      ∀ (i : Nat) (t : valueResourceTargeting), s.Targeting[i]? = some t →
        v.Targeting.Rules[i]? =
          some (model.ValueTargetingRule.mk t.Variant.ValueString t.Expr.ValueString)) ∧
    ((valueState env v).Targeting.length = v.Targeting.Rules.length ∧
      ∀ (i : Nat) (r : model.ValueTargetingRule), v.Targeting.Rules[i]? = some r →
        (valueState env v).Targeting[i]? = some (valueResourceTargeting.mk
          (types.StringValue r.Variant) (types.StringValue r.Expr))) ∧
    ((∀ t ∈ s.Targeting, t.Variant.IsNull = false ∧ t.Variant.IsUnknown = false ∧
        t.Expr.IsNull = false ∧ t.Expr.IsUnknown = false) →
      (valueState env v).Targeting = s.Targeting) := by
  have hv := value_Targeting env s v h
  have hs : (valueState env v).Targeting = v.Targeting.Rules.map (fun t =>
      valueResourceTargeting.mk (types.StringValue t.Variant) (types.StringValue t.Expr)) := rfl
  refine ⟨⟨by simp [hv], ?_⟩, ⟨by simp [hs], ?_⟩, ?_⟩
  · intro i t ht
    simp [hv, List.getElem?_map, ht]
  · intro i r hr
    simp [hs, List.getElem?_map, hr]
  · intro hk
    rw [hs, hv, List.map_map]
    conv_rhs => rw [← List.map_id s.Targeting]
    refine List.map_congr_left (fun t ht => ?_)
    obtain ⟨h1, h2, h3, h4⟩ := hk t ht
    obtain ⟨a, b⟩ := t
    simp only [Function.comp, id]
    rw [StringValue_ValueString a h1 h2, StringValue_ValueString b h3 h4]

theorem targeting_order_preserved_witness :
    ∃ v, boolShape.value testEnv = .ok v ∧
      v.Targeting.Rules = [⟨"on", "env == \x27dev\x27"⟩, ⟨"on", "userId == \x27XXX\x27"⟩] ∧
      (valueState testEnv v).Targeting = boolShape.Targeting :=
  ⟨_, rfl, rfl,
    (targeting_order_preserved testEnv boolShape _ rfl).2.2 (by decide)⟩

/-! ## Order of the transforms -/

theorem objectEntries_mem (env : GoEnv) (l : List valueResourceObject)
    (es : List (string × model.ValueEvaluation)) (h : value.objectEntries env l = .ok es)
    (p : string × model.ValueEvaluation) :
    p ∈ es ↔ ∃ ob ∈ l, ∃ m, env.Unmarshal ob.Value.ValueString = .ok m ∧
      p = (ob.Variant.ValueString,
        { Object := some { Value := m, Transforms := value.transforms ob } }) := by
  induction l generalizing es with
  | nil =>
    simp only [value.objectEntries, Except.ok.injEq] at h
    simp [← h]
  | cons val rest ih =>
    simp only [value.objectEntries] at h
    cases hU : env.Unmarshal val.Value.ValueString with
    | error err => simp [hU] at h
    | ok m =>
      cases hR : value.objectEntries env rest with
      | error err => simp [hU, hR] at h
      | ok es' =>
        simp only [hU, hR, Except.ok.injEq] at h
        subst h
        simp only [List.mem_cons, exists_eq_or_imp, hU, Except.ok.injEq, exists_eq_left']
        rw [ih es' hR]

theorem objectEntries_names (env : GoEnv) (l : List valueResourceObject)
    (es : List (string × model.ValueEvaluation)) (h : value.objectEntries env l = .ok es) :
    es.map Prod.fst = l.map (fun b => b.Variant.ValueString) := by
  induction l generalizing es with
  | nil =>
    simp only [value.objectEntries, Except.ok.injEq] at h
    simp [← h]
  | cons val rest ih =>
    simp only [value.objectEntries] at h
    cases hU : env.Unmarshal val.Value.ValueString with
    | error err => simp [hU] at h
    | ok m =>
      cases hR : value.objectEntries env rest with
      | error err => simp [hU, hR] at h
      | ok es' =>
        simp only [hU, hR, Except.ok.injEq] at h
        subst h
        simp [ih es' hR]

theorem writes_names (env : GoEnv) (s : valueResource)
    (es : List (string × model.ValueEvaluation)) (h : value.objectEntries env s.Object = .ok es) :
    (value.writes s es).map Prod.fst = s.names := by
  simp [value.writes, valueResource.names, objectEntries_names env _ es h, value.boolEntry,
    value.stringEntry, value.intEntry, Function.comp_def]

theorem value_ok (env : GoEnv) (s : valueResource) (v : model.Value)
    (h : s.value env = .ok v) :
    ∃ es, value.objectEntries env s.Object = .ok es ∧
      v.Variants = model.Variants.assignAll [] (value.writes s es) := by
  rw [value_eq] at h
  cases hO : value.objectEntries env s.Object with
  | error err => simp [hO] at h
  | ok es =>
    cases hT : value.tests env s.Test with
    | error err => simp [hO, hT] at h
    | ok tests =>
      simp only [hO, hT, Except.ok.injEq] at h
      exact ⟨es, rfl, by rw [← h]⟩

theorem value_get (s : valueResource) (v : model.Value)
    (es : List (string × model.ValueEvaluation))
    (hv : v.Variants = model.Variants.assignAll [] (value.writes s es)) (k : string) :
    v.Variants.get k = value.lastWrite k (value.writes s es) := by
  rw [hv, get_assignAll]
  cases value.lastWrite k (value.writes s es) <;> simp [model.Variants.get]

theorem lookup_of_count_one (k : string) (e : model.ValueEvaluation)
    (l : List (string × model.ValueEvaluation)) (hm : (k, e) ∈ l)
    (hc : (l.map Prod.fst).count k = 1) : List.lookup k l = some e := by
  induction l with
  | nil => simp at hm
  | cons p l ih =>
    obtain ⟨a, f⟩ := p
    by_cases hak : a = k
    · subst hak
      have h0 : (l.map Prod.fst).count a = 0 := by
        simpa [List.count_cons] using hc
      have hnot : (a, e) ∉ l := fun hmem =>
        List.count_eq_zero.mp h0 (List.mem_map.mpr ⟨(a, e), hmem, rfl⟩)
      rcases List.mem_cons.mp hm with h1 | h2
      · cases h1
        simp [List.lookup_cons]
      · exact absurd h2 hnot
    · have hk : (k == a) = false := by simpa using (Ne.symm hak)
      have hc' : (l.map Prod.fst).count k = 1 := by
        simpa [List.count_cons, hak] using hc
      rcases List.mem_cons.mp hm with h1 | h2
      · cases h1
        exact absurd rfl hak
      · simp [List.lookup_cons, hk, ih h2 hc']

theorem lastWrite_of_count_one (k : string) (e : model.ValueEvaluation)
    (l : List (string × model.ValueEvaluation)) (hm : (k, e) ∈ l)
    (hc : (l.map Prod.fst).count k = 1) : value.lastWrite k l = some e := by
  unfold value.lastWrite
  refine lookup_of_count_one k e l.reverse (List.mem_reverse.mpr hm) ?_
  rw [List.map_reverse, List.count_reverse]
  exact hc

theorem writes_object_only (s : valueResource) (es : List (string × model.ValueEvaluation))
    (p : string × model.ValueEvaluation) (hp : p ∈ value.writes s es) (o : model.Object)
    (ho : p.2.Object = some o) : p ∈ es := by
  simp only [value.writes, List.mem_append, List.mem_map] at hp
  rcases hp with ((⟨b, _, hb⟩ | ⟨b, _, hb⟩) | h) | ⟨b, _, hb⟩
  · rw [← hb] at ho
    simp [value.boolEntry] at ho
  · rw [← hb] at ho
    simp [value.stringEntry] at ho
  · exact h
  · rw [← hb] at ho
    simp [value.intEntry] at ho

/-- C5. Transform order. For a Value `v` returned by `value()`: every Object
variant of `v` was written by an object block whose value parsed, and its
transforms are the exprs of the block's `transform[]`, one for one in the
same order; an object block whose variant name no other block carries has its
Object variant in `v`. `valueState` gives an Object variant an object block
whose `transform[]` are the variant's transforms, one for one in the same
order. So an object block with a name of its own and known exprs comes back
from `valueState` after `value()` with the `transform[]` it had. -/
theorem transforms_order_preserved (env : GoEnv) (s : valueResource) (v : model.Value)
    (h : s.value env = .ok v) :
    (∀ k e o, v.Variants.get k = some e → e.Object = some o →
      ∃ ob ∈ s.Object, ob.Variant.ValueString = k ∧
        env.Unmarshal ob.Value.ValueString = .ok o.Value ∧
        o.Transforms = ob.Transform.map (fun t => model.ValueTransform.mk t.Expr.ValueString)) ∧
    (∀ ob ∈ s.Object, s.names.count ob.Variant.ValueString = 1 →
      ∃ m, env.Unmarshal ob.Value.ValueString = .ok m ∧
        v.Variants.get ob.Variant.ValueString = some { Object := some (model.Object.mk m
          (ob.Transform.map (fun t => model.ValueTransform.mk t.Expr.ValueString))) }) ∧
    (∀ k e o, v.Variants.get k = some e → e.Object = some o →
      ∃ blk ∈ (valueState env v).Object, blk.Variant = types.StringValue k ∧
        blk.Transform = o.Transforms.map
          (fun t => valueResourceTransform.mk (types.StringValue t.Expr))) ∧
    (∀ ob ∈ s.Object, s.names.count ob.Variant.ValueString = 1 →
      (∀ t ∈ ob.Transform, t.Expr.IsNull = false ∧ t.Expr.IsUnknown = false) →
      ∃ blk ∈ (valueState env v).Object,
        blk.Variant = types.StringValue ob.Variant.ValueString ∧
        blk.Transform = ob.Transform) := by
  obtain ⟨es, hes, hv⟩ := value_ok env s v h
  have hget := value_get s v es hv
  have hkeys : v.Variants.keys.Nodup := by
    rw [hv]
    exact keys_assignAll_nodup _ [] List.nodup_nil
  have hback : ∀ k e o, v.Variants.get k = some e → e.Object = some o →
      ∃ ob ∈ s.Object, ob.Variant.ValueString = k ∧
        env.Unmarshal ob.Value.ValueString = .ok o.Value ∧
        o.Transforms = ob.Transform.map
          (fun t => model.ValueTransform.mk t.Expr.ValueString) := by
    intro k e o hk ho
    rw [hget] at hk
    have hmem : (k, e) ∈ value.writes s es :=
      List.mem_reverse.mp (mem_keys_of_get hk)
    have hes' := writes_object_only s es (k, e) hmem o ho
    obtain ⟨ob, hob, m, hm, heq⟩ := (objectEntries_mem env s.Object es hes (k, e)).mp hes'
    refine ⟨ob, hob, ?_⟩
    simp only [Prod.mk.injEq] at heq
    obtain ⟨h1, h2⟩ := heq
    rw [h2] at ho
    simp only [Option.some.injEq] at ho
    rw [← ho]
    exact ⟨h1.symm, hm, rfl⟩
  have hfwd : ∀ ob ∈ s.Object, s.names.count ob.Variant.ValueString = 1 →
      ∃ m, env.Unmarshal ob.Value.ValueString = .ok m ∧
        v.Variants.get ob.Variant.ValueString = some { Object := some (model.Object.mk m
          (ob.Transform.map (fun t => model.ValueTransform.mk t.Expr.ValueString))) } := by
    intro ob hob hc
    cases hU : env.Unmarshal ob.Value.ValueString with
    | error err =>
      have := (objectEntries_error_iff env s.Object).mpr ⟨ob, hob, err, hU⟩
      simp [hes] at this
    | ok m =>
      refine ⟨m, rfl, ?_⟩
      have hmem : (ob.Variant.ValueString, ({ Object := some (model.Object.mk m (value.transforms ob)) } : model.ValueEvaluation)) ∈ es :=
        (objectEntries_mem env s.Object es hes _).mpr ⟨ob, hob, m, hU, rfl⟩
      have hmem' : (ob.Variant.ValueString, ({ Object := some (model.Object.mk m (value.transforms ob)) } : model.ValueEvaluation))
          ∈ value.writes s es := by
        simp only [value.writes, List.mem_append]
        exact Or.inl (Or.inr hmem)
      rw [hget]
      refine lastWrite_of_count_one _ _ _ hmem' ?_
      rw [writes_names env s es hes]
      exact hc
  have hstate : ∀ k e o, v.Variants.get k = some e → e.Object = some o →
      ∃ blk ∈ (valueState env v).Object, blk.Variant = types.StringValue k ∧
        blk.Transform = o.Transforms.map
          (fun t => valueResourceTransform.mk (types.StringValue t.Expr)) := by
    intro k e o hk ho
    have hmem : (k, e) ∈ env.Range v.Variants :=
      (env.Range_perm v.Variants).mem_iff.mpr (mem_keys_of_get hk)
    refine ⟨⟨types.StringValue k, types.StringValue (env.Marshal o.Value),
      o.Transforms.map (fun t => valueResourceTransform.mk (types.StringValue t.Expr))⟩,
      ?_, rfl, rfl⟩
    rw [valueState_Object]
    exact List.mem_filterMap.mpr ⟨(k, e), hmem, by simp [valueState.objectBlock, ho]⟩
  refine ⟨hback, hfwd, hstate, ?_⟩
  intro ob hob hc hknown
  obtain ⟨m, _, hm⟩ := hfwd ob hob hc
  obtain ⟨blk, hblk, hname, htr⟩ := hstate _ _ _ hm rfl
  refine ⟨blk, hblk, hname, ?_⟩
  rw [htr, List.map_map]
  conv_rhs => rw [← List.map_id ob.Transform]
  refine List.map_congr_left (fun t ht => ?_)
  obtain ⟨h1, h2⟩ := hknown t ht
  obtain ⟨a⟩ := t
  simp only [Function.comp, id]
  rw [StringValue_ValueString a h1 h2]

theorem transforms_order_preserved_witness :
    ∃ v, objectShape.value testEnv = .ok v ∧
      ∃ blk ∈ (valueState testEnv v).Object,
        blk.Variant = types.StringValue "json" ∧
        blk.Transform = [⟨.known "items.map(item, item.deleteKey())"⟩,
          ⟨.known "items.map(item, item.selectKey())"⟩] :=
  ⟨_, rfl, (transforms_order_preserved testEnv objectShape _ rfl).2.2.2
    ⟨.known "json", .known "\x7b\"items\":[\x7b\"content\":\"c1\",\"viewable\":true\x7d]\x7d",
      [⟨.known "items.map(item, item.deleteKey())"⟩,
        ⟨.known "items.map(item, item.selectKey())"⟩]⟩
    (by simp [objectShape]) (by decide) (by decide)⟩

/-! ## Numbers in `encoding/json` -/

namespace json

/-- An object with a fraction and an exponent among its values is read, each
number into the nearest `float64`. -/
theorem Unmarshal_fraction_and_exponent :
    Unmarshal "\x7b\"a\":1.5,\"b\":-2e3,\"c\":[0.25,1E+2]\x7d"
      = .ok (some [("a", .number 1.5), ("b", .number (float64.mk true 8796093022208000 (-42))),
          ("c", .array [.number 0.25, .number 100])]) := by
  rfl

/-- The literals that the JSON grammar excludes are refused, and so is a
number beyond the range of `float64`. -/
theorem Unmarshal_number_errors :
    (∀ text ∈ ["\x7b\"a\":01\x7d", "\x7b\"a\":1.\x7d", "\x7b\"a\":.5\x7d", "\x7b\"a\":1e\x7d",
        "\x7b\"a\":+1\x7d", "\x7b\"a\":-\x7d", "\x7b\"a\":1e400\x7d"],
      ∃ err, Unmarshal text = .error err) := by
  intro text h
  simp only [List.mem_cons, List.mem_singleton, List.not_mem_nil, or_false] at h
  rcases h with rfl | rfl | rfl | rfl | rfl | rfl | rfl <;> exact ⟨_, rfl⟩

set_option maxRecDepth 100000 in
/-- A number is read into the nearest `float64`, ties going to the even
mantissa, down to the smallest subnormal and up to the largest `float64`,
and is written with the shortest digits that read back. -/
theorem parseNumber_formatFloat_examples :
    parseNumber "9007199254740993".data = some (⟨false, 2 ^ 52, 1⟩, []) ∧
    parseNumber "0.1".data = some (⟨false, 7205759403792794, -56⟩, []) ∧
    parseNumber "5e-324".data = some (⟨false, 1, -1074⟩, []) ∧
    parseNumber "1.7976931348623157e308".data = some (⟨false, 2 ^ 53 - 1, 971⟩, []) ∧
    parseNumber "1.7976931348623159e308".data = none ∧
    parseNumber "-0".data = some (⟨true, 0, 0⟩, []) ∧
    strconv.formatFloat ⟨false, 2 ^ 52, 1⟩ = "9007199254740992".data ∧
    strconv.formatFloat ⟨false, 5404319552844596, -54⟩ = "0.30000000000000004".data ∧
    strconv.formatFloat ⟨false, 1, -1074⟩ = "5e-324".data ∧
    strconv.formatFloat ⟨false, 2 ^ 53 - 1, 971⟩ = "1.7976931348623157e+308".data ∧
    strconv.formatFloat ⟨true, 0, 0⟩ = "-0".data := by
  decide

set_option maxRecDepth 100000 in
/-- Numbers are written as `encoding/json` writes a `float64`: the shortest
digits that read back, in plain notation from `1e-6` up to `1e21` and with an
exponent outside. -/
theorem Marshal_numbers :
    Marshal (some [("a", .number 1.5), ("b", .number 1e-6), ("c", .number 1e21),
        ("d", .number 1e-7), ("e", .number 100), ("f", .number 0.1)])
      = "\x7b\"a\":1.5,\"b\":0.000001,\"c\":1e+21,\"d\":1e-7,\"e\":100,\"f\":0.1\x7d" := by
  decide

end json

/-! ## The order of keys in `json.Marshal` -/

namespace json

theorem keyLt_irrefl (a : List Char) : keyLt a a = false := by
  induction a with
  | nil => rfl
  | cons c cs ih => simp [keyLt, ih]

theorem keyLt_asymm (a b : List Char) (h : keyLt a b = true) : keyLt b a = false := by
  induction a generalizing b with
  | nil => cases b <;> simp_all [keyLt]
  | cons c cs ih =>
    cases b with
    | nil => simp [keyLt] at h
    | cons d ds =>
      simp only [keyLt] at h ⊢
      by_cases h1 : c.toNat < d.toNat
      · have h2 : ¬ d.toNat < c.toNat := by omega
        simp [h1, h2]
      · by_cases h2 : d.toNat < c.toNat
        · simp [h1, h2] at h
        · simp only [h1, h2, if_false] at h ⊢
          exact ih ds h

theorem keyLt_negtrans (x p q : List Char) (h : keyLt x p = true) :
    keyLt x q = true ∨ keyLt q p = true := by
  induction x generalizing p q with
  | nil =>
    cases p with
    | nil => simp [keyLt] at h
    | cons d ds => cases q <;> simp [keyLt]
  | cons c cs ih =>
    cases p with
    | nil => simp [keyLt] at h
    | cons d ds =>
      cases q with
      | nil => simp [keyLt]
      | cons e es =>
        simp only [keyLt] at h ⊢
        by_cases h1 : c.toNat < d.toNat
        · by_cases h3 : c.toNat < e.toNat
          · simp [h3]
          · have h4 : e.toNat < d.toNat := by omega
            simp [h4]
        · by_cases h2 : d.toNat < c.toNat
          · simp [h1, h2] at h
          · simp only [h1, h2, if_false] at h
            have hcd : c.toNat = d.toNat := by omega
            by_cases h3 : c.toNat < e.toNat
            · simp [h3]
            · by_cases h4 : e.toNat < c.toNat
              · have h5 : e.toNat < d.toNat := by omega
                simp [h5]
              · have h5 : ¬ e.toNat < d.toNat := by omega
                have h6 : ¬ d.toNat < e.toNat := by omega
                simp only [h3, h4, h5, h6, if_false]
                exact ih ds es h

theorem keyLt_total (a b : List Char) (h1 : keyLt a b = false) (h2 : keyLt b a = false) :
    a = b := by
  induction a generalizing b with
  | nil => cases b <;> simp_all [keyLt]
  | cons c cs ih =>
    cases b with
    | nil => simp [keyLt] at h2
    | cons d ds =>
      simp only [keyLt] at h1 h2
      by_cases h3 : c.toNat < d.toNat
      · simp [h3] at h1
      · by_cases h4 : d.toNat < c.toNat
        · simp [h4] at h2
        · simp only [h3, h4, if_false] at h1 h2
          have hcd : c.toNat = d.toNat := by omega
          have hc : c = d := by
            rw [← Char.ofNat_toNat c, ← Char.ofNat_toNat d, hcd]
          rw [hc, ih ds h1 h2]

theorem insertMember_perm (p : string × List Char) (l : List (string × List Char)) :
    (insertMember p l).Perm (p :: l) := by
  induction l with
  | nil => exact List.Perm.refl _
  | cons q qs ih =>
    simp only [insertMember]
    by_cases h : keyLt q.1.data p.1.data = true
    · simp only [h, if_true]
      exact (List.Perm.cons q ih).trans (List.Perm.swap p q qs)
    · simp only [h]
      exact List.Perm.refl _

theorem sortMembers_perm (l : List (string × List Char)) : (sortMembers l).Perm l := by
  induction l with
  | nil => exact List.Perm.refl _
  | cons p ps ih =>
    simp only [sortMembers]
    exact (insertMember_perm p _).trans (List.Perm.cons p ih)

theorem insertMember_ascending (p : string × List Char) (l : List (string × List Char))
    (h : Ascending l) : Ascending (insertMember p l) := by
  induction l with
  | nil => simp [insertMember, Ascending]
  | cons q qs ih =>
    unfold Ascending at h ih ⊢
    have hq := List.pairwise_cons.mp h
    simp only [insertMember]
    by_cases hlt : keyLt q.1.data p.1.data = true
    · simp only [hlt, if_true]
      refine List.pairwise_cons.mpr ⟨?_, ih hq.2⟩
      intro x hx
      rcases List.mem_cons.mp ((insertMember_perm p qs).mem_iff.mp hx) with h1 | h2
      · rw [h1]
        exact keyLt_asymm _ _ hlt
      · exact hq.1 x h2
    · simp only [hlt]
      have hle : keyLt q.1.data p.1.data = false := by simpa using hlt
      refine List.pairwise_cons.mpr ⟨?_, h⟩
      intro x hx
      rcases List.mem_cons.mp hx with h1 | h2
      · rw [h1]
        exact hle
      · cases hxp : keyLt x.1.data p.1.data with
        | false => rfl
        | true =>
          rcases keyLt_negtrans _ _ q.1.data hxp with h3 | h3
          · rw [hq.1 x h2] at h3
            exact absurd h3 (by simp)
          · rw [hle] at h3
            exact absurd h3 (by simp)

theorem sortMembers_ascending (l : List (string × List Char)) : Ascending (sortMembers l) := by
  induction l with
  | nil => simp [sortMembers, Ascending]
  | cons p ps ih => exact insertMember_ascending p _ ih

end json

namespace json

theorem encodeMembers_mem (kvs : List (string × JSON)) (k : string) (t : List Char) :
    (k, t) ∈ encodeMembers kvs ↔ ∃ v, (k, v) ∈ kvs ∧ t = encodeValue v := by
  induction kvs with
  | nil => simp [encodeMembers]
  | cons p rest ih =>
    obtain ⟨a, v⟩ := p
    simp only [encodeMembers, List.mem_cons, Prod.mk.injEq, ih]
    constructor
    · rintro (⟨h1, h2⟩ | ⟨w, hw, ht⟩)
      · exact ⟨v, Or.inl ⟨h1, rfl⟩, h2⟩
      · exact ⟨w, Or.inr hw, ht⟩
    · rintro ⟨w, (⟨h1, h2⟩ | hw), ht⟩
      · exact Or.inl ⟨h1, by rw [ht, h2]⟩
      · exact Or.inr ⟨w, hw, ht⟩

theorem encodeMembers_keys (kvs : List (string × JSON)) :
    (encodeMembers kvs).map Prod.fst = kvs.map Prod.fst := by
  induction kvs with
  | nil => simp [encodeMembers]
  | cons p rest ih =>
    obtain ⟨a, v⟩ := p
    simp [encodeMembers, ih]

theorem encodeMembers_length (kvs : List (string × JSON)) :
    (encodeMembers kvs).length = kvs.length := by
  have := congrArg List.length (encodeMembers_keys kvs)
  simpa using this

theorem ascending_unique (l₁ l₂ : List (string × List Char)) (h₁ : Ascending l₁)
    (h₂ : Ascending l₂) (hn : (l₁.map Prod.fst).Nodup) (hp : l₁.Perm l₂) : l₁ = l₂ := by
  have hn₂ : (l₂.map Prod.fst).Nodup := (List.Perm.map Prod.fst hp).nodup_iff.mp hn
  have strict : ∀ l : List (string × List Char), Ascending l → (l.map Prod.fst).Nodup →
      l.Pairwise (fun p q => keyLt p.1.data q.1.data = true) := by
    intro l ha hnd
    have hne : l.Pairwise (fun p q => p.1 ≠ q.1) := by
      have := List.pairwise_map.mp hnd
      exact this
    refine (ha.and hne).imp ?_
    rintro p q ⟨hqp, hpq⟩
    cases hlt : keyLt p.1.data q.1.data with
    | true => rfl
    | false =>
      have := keyLt_total _ _ hlt hqp
      exact absurd (String.ext this) hpq
  have anti : IsAntisymm (string × List Char) (fun p q => keyLt p.1.data q.1.data = true) :=
    ⟨fun p q h1 h2 => by
      rw [keyLt_asymm _ _ h1] at h2
      exact absurd h2 (by simp)⟩
  exact List.eq_of_perm_of_sorted hp (strict l₁ h₁ hn) (strict l₂ h₂ hn₂)

theorem sortMembers_congr (l₁ l₂ : List (string × List Char)) (hn : (l₁.map Prod.fst).Nodup)
    (hp : l₁.Perm l₂) : sortMembers l₁ = sortMembers l₂ := by
  refine ascending_unique _ _ (sortMembers_ascending l₁) (sortMembers_ascending l₂) ?_ ?_
  · exact (List.Perm.map Prod.fst (sortMembers_perm l₁)).nodup_iff.mpr hn
  · exact ((sortMembers_perm l₁).trans hp).trans (sortMembers_perm l₂).symm

end json

theorem distinctKeysMembers_mem (kvs : List (string × JSON)) (h : JSON.distinctKeysMembers kvs)
    (k : string) (v : JSON) (hm : (k, v) ∈ kvs) : v.distinctKeys := by
  induction kvs with
  | nil => simp at hm
  | cons p rest ih =>
    obtain ⟨a, w⟩ := p
    simp only [JSON.distinctKeysMembers] at h
    rcases List.mem_cons.mp hm with h1 | h2
    · cases h1
      exact h.1
    · exact ih h.2 h2

namespace json

mutual
theorem sortedText_encodeValue : ∀ j : JSON, SortedText (encodeValue j)
  | .null => SortedText.null
  | .bool b => SortedText.bool b
  | .number n => SortedText.number n
  | .str s => SortedText.str s
  | .array xs => by
    simp only [encodeValue]
    exact SortedText.array _ (sortedText_encodeElems xs)
  | .object kvs => by
    simp only [encodeValue]
    refine SortedText.object _ ?_ (sortMembers_ascending _)
    intro p hp
    exact sortedText_encodeMembers kvs p ((sortMembers_perm _).mem_iff.mp hp)
theorem sortedText_encodeElems : ∀ xs : List JSON, ∀ t ∈ encodeElems xs, SortedText t
  | [] => by simp [encodeElems]
  | x :: xs => by
    intro t ht
    simp only [encodeElems, List.mem_cons] at ht
    rcases ht with h | h
    · rw [h]
      exact sortedText_encodeValue x
    · exact sortedText_encodeElems xs t h
theorem sortedText_encodeMembers : ∀ kvs : List (string × JSON),
    ∀ p ∈ encodeMembers kvs, SortedText p.2
  | [] => by simp [encodeMembers]
  | (k, v) :: kvs => by
    intro p hp
    simp only [encodeMembers, List.mem_cons] at hp
    rcases hp with h | h
    · rw [h]
      exact sortedText_encodeValue v
    · exact sortedText_encodeMembers kvs p h
end

mutual
theorem same_encodeValue : ∀ a b : JSON, a.same b → a.distinctKeys → b.distinctKeys →
    encodeValue a = encodeValue b
  | .null, b => by
    intro h _ _
    simp only [JSON.same] at h
    rw [h]
  | .bool x, b => by
    intro h _ _
    simp only [JSON.same] at h
    rw [h]
  | .number n, b => by
    intro h _ _
    simp only [JSON.same] at h
    rw [h]
  | .str s, b => by
    intro h _ _
    simp only [JSON.same] at h
    rw [h]
  | .array xs, b => by
    intro h ha hb
    simp only [JSON.same] at h
    obtain ⟨ys, hys, hs⟩ := h
    subst hys
    simp only [JSON.distinctKeys] at ha hb
    simp only [encodeValue]
    rw [same_encodeElems xs ys hs ha hb]
  | .object kvs, b => by
    intro h ha hb
    simp only [JSON.same] at h
    obtain ⟨kvs', hk, hlen, hs⟩ := h
    subst hk
    simp only [JSON.distinctKeys] at ha hb
    simp only [encodeValue]
    have hsub := same_encodeMembers kvs kvs' hs ha.2 hb.2
    have hn₁ : ((encodeMembers kvs).map Prod.fst).Nodup := by
      rw [encodeMembers_keys]
      exact ha.1
    have hsubset : encodeMembers kvs ⊆ encodeMembers kvs' := by
      intro p hp
      obtain ⟨k, t⟩ := p
      obtain ⟨v, hv, ht⟩ := (encodeMembers_mem kvs k t).mp hp
      obtain ⟨w, hw, he⟩ := hsub k v hv
      exact (encodeMembers_mem kvs' k t).mpr ⟨w, hw, by rw [ht, he]⟩
    have hperm : (encodeMembers kvs).Perm (encodeMembers kvs') := by
      refine (List.subperm_of_subset (List.Nodup.of_map _ hn₁) hsubset).perm_of_length_le ?_
      rw [encodeMembers_length, encodeMembers_length, hlen]
    rw [sortMembers_congr _ _ hn₁ hperm]
theorem same_encodeElems : ∀ xs ys : List JSON, JSON.sameElems xs ys →
    JSON.distinctKeysElems xs → JSON.distinctKeysElems ys → encodeElems xs = encodeElems ys
  | [], ys => by
    intro h _ _
    simp only [JSON.sameElems] at h
    rw [h]
  | x :: xs, ys => by
    intro h ha hb
    simp only [JSON.sameElems] at h
    obtain ⟨y, ys', hys, hxy, hrest⟩ := h
    subst hys
    simp only [JSON.distinctKeysElems] at ha hb
    simp only [encodeElems]
    rw [same_encodeValue x y hxy ha.1 hb.1, same_encodeElems xs ys' hrest ha.2 hb.2]
theorem same_encodeMembers : ∀ kvs kvs' : List (string × JSON), JSON.sameMembers kvs kvs' →
    JSON.distinctKeysMembers kvs → JSON.distinctKeysMembers kvs' →
    ∀ k v, (k, v) ∈ kvs → ∃ w, (k, w) ∈ kvs' ∧ encodeValue v = encodeValue w
  | [], _ => by
    intro _ _ _ k v hm
    simp at hm
  | (a, u) :: rest, kvs' => by
    intro h ha hb k v hm
    simp only [JSON.sameMembers] at h
    simp only [JSON.distinctKeysMembers] at ha
    obtain ⟨⟨w, hw, hs⟩, hrest⟩ := h
    rcases List.mem_cons.mp hm with h1 | h2
    · simp only [Prod.mk.injEq] at h1
      obtain ⟨hk, hv⟩ := h1
      subst hk hv
      exact ⟨w, hw, same_encodeValue v w hs ha.1 (distinctKeysMembers_mem kvs' hb k w hw)⟩
    · exact same_encodeMembers rest kvs' hrest ha.2 hb k v h2
end

/-- The text written for a map depends only on its contents. -/
theorem Marshal_same (m₁ m₂ : JSONMap) (h : m₁.same m₂) (h₁ : m₁.distinctKeys)
    (h₂ : m₂.distinctKeys) : Marshal m₁ = Marshal m₂ := by
  cases m₁ with
  | none =>
    simp only [JSONMap.same] at h
    rw [h]
  | some kvs =>
    simp only [JSONMap.same] at h
    obtain ⟨kvs', hk, hs⟩ := h
    subst hk
    simp only [Marshal]
    rw [same_encodeValue _ _ hs h₁ h₂]

/-- The text written for a map has its keys in ascending order at every level. -/
theorem Marshal_sorted (kvs : List (string × JSON)) : SortedText (Marshal (some kvs)).data :=
  sortedText_encodeValue (.object kvs)

/-- The text written for a map, nil or not, has its keys in ascending order
at every level. -/
theorem Marshal_sorted_map (m : JSONMap) : SortedText (Marshal m).data := by
  cases m with
  | none => exact SortedText.null
  | some kvs => exact Marshal_sorted kvs

set_option maxRecDepth 100000 in
/-- The variables of the acceptance test, stored with `env` first, are written
with `count` first. -/
theorem Marshal_example :
    Marshal (some [("env", .str "test"), ("count", .number 1)])
      = "\x7b\"count\":1,\"env\":\"test\"\x7d" := by decide

end json

/-- C6. Stable serialization, for the sorted-key `json.Marshal` of the `json`
section. Every Object variant of the Value gets an object block, whose value
is the encoding of the variant's map, with the keys of every object, at every
nesting level, in ascending order; there is no other object block, and the
object blocks are, in some order, one per Object variant; the variables of
every test are encoded in the same way, in the order of the tests; a second
call, whatever the order in which it visits the variants, gives the same test
strings and the same object blocks; the encoding of a map has ascending keys
at every nesting level; two maps with the same contents have the same
encoding; and the variables `env = "test"`, `count = 1` become
`{"count":1,"env":"test"}`. -/
theorem valueState_stable_serialization (env : GoEnv) (v : model.Value)
    (hM : env.Marshal = json.Marshal) :
    (∀ p ∈ v.Variants, ∀ o, p.2.Object = some o →
      ∃ blk ∈ (valueState env v).Object, blk.Variant = types.StringValue p.1 ∧
        blk.Value = types.StringValue (json.Marshal o.Value) ∧
        json.SortedText (json.Marshal o.Value).data) ∧
    (∀ blk ∈ (valueState env v).Object, ∃ p ∈ v.Variants, ∃ o, p.2.Object = some o ∧
      blk.Variant = types.StringValue p.1 ∧
      blk.Value = types.StringValue (json.Marshal o.Value)) ∧
    ((valueState env v).Object.Perm (v.Variants.filterMap (fun p => p.2.Object.map (fun o =>
      valueResourceObject.mk (types.StringValue p.1) (types.StringValue (json.Marshal o.Value))
        (o.Transforms.map (fun t => valueResourceTransform.mk (types.StringValue t.Expr))))))) ∧
    ((valueState env v).Test.map (fun t => t.Variables) =
      v.Tests.map (fun t => types.StringValue (json.Marshal t.Variables))) ∧
    (∀ t ∈ v.Tests, json.SortedText (json.Marshal t.Variables).data) ∧
    (∀ env' : GoEnv, env'.Marshal = json.Marshal →
      (valueState env' v).Test = (valueState env v).Test ∧
      (valueState env' v).Object.Perm (valueState env v).Object) ∧
    (∀ kvs, json.SortedText (json.Marshal (some kvs)).data) ∧
    (∀ m₁ m₂ : JSONMap, m₁.same m₂ → m₁.distinctKeys → m₂.distinctKeys →
      json.Marshal m₁ = json.Marshal m₂) ∧
    json.Marshal (some [("env", .str "test"), ("count", .number 1)])
      = "\x7b\"count\":1,\"env\":\"test\"\x7d" := by
  have hblock : ∀ e : GoEnv, e.Marshal = json.Marshal → valueState.objectBlock e =
      (fun p => p.2.Object.map (fun o =>
        valueResourceObject.mk (types.StringValue p.1)
          (types.StringValue (json.Marshal o.Value))
          (o.Transforms.map (fun t => valueResourceTransform.mk (types.StringValue t.Expr))))) := by
    intro e he
    funext p
    simp only [valueState.objectBlock, he]
  have hperm : ∀ e : GoEnv, e.Marshal = json.Marshal →
      (valueState e v).Object.Perm (v.Variants.filterMap (fun p => p.2.Object.map (fun o =>
        valueResourceObject.mk (types.StringValue p.1)
          (types.StringValue (json.Marshal o.Value))
          (o.Transforms.map (fun t => valueResourceTransform.mk (types.StringValue t.Expr)))))) := by
    intro e he
    rw [valueState_Object, hblock e he]
    exact (e.Range_perm v.Variants).filterMap _
  refine ⟨?_, ?_, hperm env hM, ?_, fun t _ => json.Marshal_sorted_map t.Variables, ?_,
    json.Marshal_sorted, json.Marshal_same, json.Marshal_example⟩
  · intro p hp o ho
    refine ⟨⟨types.StringValue p.1, types.StringValue (json.Marshal o.Value),
      o.Transforms.map (fun t => valueResourceTransform.mk (types.StringValue t.Expr))⟩,
      ?_, rfl, rfl, json.Marshal_sorted_map o.Value⟩
    rw [valueState_Object, hblock env hM]
    exact List.mem_filterMap.mpr
      ⟨p, (env.Range_perm v.Variants).mem_iff.mpr hp, by simp only [ho, Option.map_some']⟩
  · intro blk hblk
    rw [valueState_Object] at hblk
    obtain ⟨p, hp, hb⟩ := List.mem_filterMap.mp hblk
    cases ho : p.2.Object with
    | none => simp [valueState.objectBlock, ho] at hb
    | some o =>
      simp only [valueState.objectBlock, ho, Option.map_some', Option.some.injEq] at hb
      refine ⟨p, (env.Range_perm v.Variants).mem_iff.mp hp, o, ho, ?_⟩
      rw [← hb, hM]
      exact ⟨rfl, rfl⟩
  · simp [valueState, hM, Function.comp_def]
  · intro env' hM'
    refine ⟨?_, (hperm env' hM').trans (hperm env hM).symm⟩
    simp [valueState, hM, hM']

set_option maxRecDepth 100000 in
theorem valueState_stable_serialization_witness :
    (∃ blk ∈ (valueState testEnv sampleValue).Object,
      blk.Variant = types.StringValue "json" ∧
      blk.Value = types.StringValue
        "\x7b\"items\":[\x7b\"content\":\"c1\",\"viewable\":true\x7d]\x7d") ∧
    (valueState testEnv sampleValue).Test.map (fun t => t.Variables) =
      [types.StringValue "\x7b\"count\":1,\"env\":\"test\"\x7d"] ∧
    (valueState storedOrderEnv sampleValue).Test = (valueState testEnv sampleValue).Test :=
  ⟨((valueState_stable_serialization testEnv sampleValue rfl).1
      ("json", { Object := some (model.Object.mk
        (some [("items", .array [.object [("content", .str "c1"), ("viewable", .bool true)]])])
        [{ Expr := "first" }, { Expr := "second" }]) })
      (by simp [sampleValue]) _ rfl).imp (fun _ h => ⟨h.1, h.2.1, h.2.2.1⟩),
    (valueState_stable_serialization testEnv sampleValue rfl).2.2.2.1,
    ((valueState_stable_serialization testEnv sampleValue rfl).2.2.2.2.2.1
      storedOrderEnv rfl).1⟩

/-! ## Last write wins -/

theorem lookup_eq_none_of_keys (k : string) (l : List (string × model.ValueEvaluation))
    (h : ∀ p ∈ l, p.1 ≠ k) : List.lookup k l = none := by
  induction l with
  | nil => rfl
  | cons p l ih =>
    obtain ⟨a, e⟩ := p
    have ha : a ≠ k := h (a, e) (List.mem_cons_self _ _)
    have hk : (k == a) = false := by simpa using (Ne.symm ha)
    simp [List.lookup_cons, hk, ih (fun q hq => h q (List.mem_cons_of_mem _ hq))]

theorem keys_of_lookup_eq_none (k : string) (l : List (string × model.ValueEvaluation))
    (h : List.lookup k l = none) : ∀ p ∈ l, p.1 ≠ k := by
  induction l with
  | nil => simp
  | cons p l ih =>
    obtain ⟨a, e⟩ := p
    by_cases hk : k = a
    · subst hk
      simp [List.lookup_cons] at h
    · have hk' : (k == a) = false := by simpa using hk
      simp only [List.lookup_cons, hk'] at h
      intro q hq
      rcases List.mem_cons.mp hq with h1 | h2
      · rw [h1]
        exact Ne.symm hk
      · exact ih h q h2

/-- The last write under a name is the entry after which the name does not
occur again. -/
theorem lastWrite_eq_some_iff (k : string) (e : model.ValueEvaluation)
    (l : List (string × model.ValueEvaluation)) :
    value.lastWrite k l = some e ↔
      ∃ l₁ l₂, l = l₁ ++ (k, e) :: l₂ ∧ ∀ p ∈ l₂, p.1 ≠ k := by
  unfold value.lastWrite
  constructor
  · intro h
    induction l with
    | nil => simp at h
    | cons p t ih =>
      obtain ⟨a, f⟩ := p
      rw [List.reverse_cons, lookup_append] at h
      cases ht : List.lookup k t.reverse with
      | some x =>
        rw [ht] at h
        simp only [Option.orElse] at h
        obtain ⟨l₁, l₂, hl, hn⟩ := ih (by rw [ht, h])
        exact ⟨(a, f) :: l₁, l₂, by rw [hl]; rfl, hn⟩
      | none =>
        rw [ht] at h
        simp only [Option.orElse] at h
        have hkeys := keys_of_lookup_eq_none k t.reverse ht
        by_cases hk : k = a
        · subst hk
          simp only [List.lookup_cons, beq_self_eq_true, Option.some.injEq] at h
          subst h
          exact ⟨[], t, rfl, fun p hp => hkeys p (List.mem_reverse.mpr hp)⟩
        · have hk' : (k == a) = false := by simpa using hk
          simp [List.lookup_cons, hk'] at h
  · rintro ⟨l₁, l₂, hl, hn⟩
    rw [hl, List.reverse_append, List.reverse_cons, List.append_assoc, lookup_append,
      lookup_eq_none_of_keys k l₂.reverse (fun p hp => hn p (List.mem_reverse.mp hp))]
    simp [Option.orElse, List.lookup_cons]

theorem objectEntries_ok (env : GoEnv) (l : List valueResourceObject)
    (h : ∀ ob ∈ l, ∃ m, env.Unmarshal ob.Value.ValueString = .ok m) :
    ∃ es, value.objectEntries env l = .ok es := by
  cases hO : value.objectEntries env l with
  | ok es => exact ⟨es, rfl⟩
  | error err =>
    obtain ⟨ob, hob, err', herr⟩ := (objectEntries_error_iff env l).mp ⟨err, hO⟩
    obtain ⟨m, hm⟩ := h ob hob
    rw [hm] at herr
    exact absurd herr (by simp)

theorem tests_ok (env : GoEnv) (l : List valueResourceTest)
    (h : ∀ t ∈ l, ∃ m, env.Unmarshal t.Variables.ValueString = .ok m) :
    ∃ ts, value.tests env l = .ok ts := by
  cases hO : value.tests env l with
  | ok ts => exact ⟨ts, rfl⟩
  | error err =>
    obtain ⟨t, ht, err', herr⟩ := (tests_error_iff env l).mp ⟨err, hO⟩
    obtain ⟨m, hm⟩ := h t ht
    rw [hm] at herr
    exact absurd herr (by simp)

theorem writes_populated (env : GoEnv) (s : valueResource)
    (es : List (string × model.ValueEvaluation)) (hes : value.objectEntries env s.Object = .ok es)
    (p : string × model.ValueEvaluation) (hp : p ∈ value.writes s es) : p.2.populated = 1 := by
  simp only [value.writes, List.mem_append, List.mem_map] at hp
  rcases hp with ((⟨b, _, hb⟩ | ⟨b, _, hb⟩) | h) | ⟨b, _, hb⟩
  · rw [← hb]
    rfl
  · rw [← hb]
    rfl
  · obtain ⟨ob, _, m, _, heq⟩ := (objectEntries_mem env s.Object es hes p).mp h
    rw [heq]
    rfl
  · rw [← hb]
    rfl

/-- C7. Last write wins. When every object value and every test's variables
parse, `value()` returns a Value whatever names the blocks share. In a Value
returned by `value()`, the keys of the variants map are pairwise distinct,
and the map holds under a name `k` the entry `e` exactly when `e` is the last
entry written under `k` in processing order (the `bool` blocks, then
`string`, then `object`, then `int`, each in sequence order); every entry of
the map has exactly one member populated. -/
theorem value_last_write_wins (env : GoEnv) (s : valueResource) :
    ((∀ ob ∈ s.Object, ∃ m, env.Unmarshal ob.Value.ValueString = .ok m) →
      (∀ t ∈ s.Test, ∃ m, env.Unmarshal t.Variables.ValueString = .ok m) →
      ∃ v, s.value env = .ok v) ∧
    (∀ v, s.value env = .ok v →
      ∃ es, value.objectEntries env s.Object = .ok es ∧
        v.Variants.keys.Nodup ∧
        (∀ k e, v.Variants.get k = some e ↔
          ∃ l₁ l₂, value.writes s es = l₁ ++ (k, e) :: l₂ ∧ ∀ p ∈ l₂, p.1 ≠ k) ∧
        (∀ k e, v.Variants.get k = some e → e.populated = 1)) := by
  constructor
  · intro hobj htest
    obtain ⟨es, hes⟩ := objectEntries_ok env s.Object hobj
    obtain ⟨ts, hts⟩ := tests_ok env s.Test htest
    rw [value_eq, hes, hts]
    exact ⟨_, rfl⟩
  · intro v hv
    obtain ⟨es, hes, hvar⟩ := value_ok env s v hv
    have hget := value_get s v es hvar
    refine ⟨es, hes, ?_, ?_, ?_⟩
    · rw [hvar]
      exact keys_assignAll_nodup _ [] List.nodup_nil
    · intro k e
      rw [hget, lastWrite_eq_some_iff]
    · intro k e hk
      rw [hget] at hk
      have hmem : (k, e) ∈ value.writes s es := List.mem_reverse.mp (mem_keys_of_get hk)
      exact writes_populated env s es hes (k, e) hmem

theorem value_last_write_wins_witness :
    ∃ v, collisionShape.value testEnv = .ok v ∧
      v.Variants.get "x" = some { String := some { Value := "text" } } ∧
      v.Variants.get "y" = some { Int := some { Value := 2 } } ∧
      v.Variants.keys.Nodup :=
  have h := (value_last_write_wins testEnv collisionShape).2 _ rfl
  ⟨_, rfl, rfl, rfl, h.choose_spec.2.1⟩

/-! ## The status code policy of the client -/

/-- C8. Status threshold. When the HTTP client answers a `GetValue`,
`CreateValue` or `UpdateValue` request with a response of status code 400 or
more, the operation returns no Value and the error
`unexpected status code: <code>, <body>` made of the status code and the
response body; for a status code below 400 it returns the Value decoded from
the response body (together with the decoder's error, if any). -/
theorem status_threshold (env : GoEnv) (c : config) (ctx : context.Context)
    (resp : http.Response) :
    (∀ id u req, env.JoinPath c.endpoint ["values", id] = .ok u →
      http.NewRequest env "GET" u none = .ok req → c.do ctx req = .ok resp →
      (resp.StatusCode ≥ 400 → c.GetValue env ctx id = (none, some
        ("unexpected status code: " ++ toString resp.StatusCode ++ ", " ++ resp.Body))) ∧
      (resp.StatusCode < 400 → c.GetValue env ctx id =
        (some (env.DecodeValue resp.Body).1, (env.DecodeValue resp.Body).2))) ∧
    (∀ value u j req, env.JoinPath c.endpoint ["values"] = .ok u →
      env.MarshalValue value = .ok j →
      http.NewRequest env "POST" u (some j) = .ok req → c.do ctx req = .ok resp →
      (resp.StatusCode ≥ 400 → c.CreateValue env ctx value = (none, some
        ("unexpected status code: " ++ toString resp.StatusCode ++ ", " ++ resp.Body))) ∧
      (resp.StatusCode < 400 → c.CreateValue env ctx value =
        (some (env.DecodeValue resp.Body).1, (env.DecodeValue resp.Body).2))) ∧
    (∀ value u j req, env.JoinPath c.endpoint ["values", value.ID] = .ok u →
      env.MarshalValue value = .ok j →
      http.NewRequest env "PUT" u (some j) = .ok req → c.do ctx req = .ok resp →
      (resp.StatusCode ≥ 400 → c.UpdateValue env ctx value = (none, some
        ("unexpected status code: " ++ toString resp.StatusCode ++ ", " ++ resp.Body))) ∧
      (resp.StatusCode < 400 → c.UpdateValue env ctx value =
        (some (env.DecodeValue resp.Body).1, (env.DecodeValue resp.Body).2))) := by
  refine ⟨?_, ?_, ?_⟩
  · intro id u req hu hreq hdo
    constructor
    · intro hst
      simp only [config.GetValue, hu, hreq, hdo, hst, if_true, statusError]
    · intro hst
      have hst' : ¬ resp.StatusCode ≥ 400 := by omega
      simp only [config.GetValue, hu, hreq, hdo, hst', if_false]
  · intro value u j req hu hj hreq hdo
    constructor
    · intro hst
      simp only [config.CreateValue, hu, hj, hreq, hdo, hst, if_true, statusError]
    · intro hst
      have hst' : ¬ resp.StatusCode ≥ 400 := by omega
      simp only [config.CreateValue, hu, hj, hreq, hdo, hst', if_false]
  · intro value u j req hu hj hreq hdo
    constructor
    · intro hst
      simp only [config.UpdateValue, hu, hj, hreq, hdo, hst, if_true, statusError]
    · intro hst
      have hst' : ¬ resp.StatusCode ≥ 400 := by omega
      simp only [config.UpdateValue, hu, hj, hreq, hdo, hst', if_false]

theorem status_threshold_witness :
    (testConfig 500 "boom").GetValue testEnv context.Background "test-bool-value"
      = (none, some "unexpected status code: 500, boom") ∧
    (testConfig 200 "ok").UpdateValue testEnv context.Background testValue
      = (some testValue, none) :=
  ⟨((status_threshold testEnv (testConfig 500 "boom") context.Background ⟨500, "boom"⟩).1
      "test-bool-value" _ _ rfl rfl rfl).1 (by decide),
    ((status_threshold testEnv (testConfig 200 "ok") context.Background ⟨200, "ok"⟩).2.2
      testValue _ _ _ rfl rfl rfl rfl).2 (by decide)⟩

/-- C9. Idempotent delete. When the HTTP client answers a `DeleteValue`
request with a response whose status code is 404 or below 400, the operation
returns no error; for every other status code of 400 or more it returns the
error `unexpected status code: <code>, <body>`. -/
theorem delete_idempotent (env : GoEnv) (c : config) (ctx : context.Context)
    (resp : http.Response) (id u : string) (req : http.Request)
    (hu : env.JoinPath c.endpoint ["values", id] = .ok u)
    (hreq : http.NewRequest env "DELETE" u none = .ok req)
    (hdo : c.do ctx req = .ok resp) :
    (resp.StatusCode = 404 ∨ resp.StatusCode < 400 → c.DeleteValue env ctx id = none) ∧
    (resp.StatusCode ≥ 400 → resp.StatusCode ≠ 404 → c.DeleteValue env ctx id = some
      ("unexpected status code: " ++ toString resp.StatusCode ++ ", " ++ resp.Body)) := by
  constructor
  · intro hst
    have hst' : ¬ (resp.StatusCode ≥ 400 ∧ resp.StatusCode ≠ 404) := by omega
    simp only [config.DeleteValue, hu, hreq, hdo, hst', if_false]
  · intro h1 h2
    have hst' : resp.StatusCode ≥ 400 ∧ resp.StatusCode ≠ 404 := ⟨h1, h2⟩
    simp only [config.DeleteValue, hu, hreq, hdo, statusError]
    rw [if_pos hst']

theorem delete_idempotent_witness :
    (testConfig 404 "not found").DeleteValue testEnv context.Background "test-bool-value" = none ∧
    (testConfig 204 "").DeleteValue testEnv context.Background "test-bool-value" = none ∧
    (testConfig 400 "bad request").DeleteValue testEnv context.Background "test-bool-value"
      = some "unexpected status code: 400, bad request" :=
  ⟨(delete_idempotent testEnv (testConfig 404 "not found") context.Background ⟨404, "not found"⟩
      "test-bool-value" _ _ rfl rfl rfl).1 (by decide),
    (delete_idempotent testEnv (testConfig 204 "") context.Background ⟨204, ""⟩
      "test-bool-value" _ _ rfl rfl rfl).1 (by decide),
    (delete_idempotent testEnv (testConfig 400 "bad request") context.Background
      ⟨400, "bad request"⟩ "test-bool-value" _ _ rfl rfl rfl).2 (by decide) (by decide)⟩

/-! ## The context of the request -/

/-- C10. What the code does instead: `do` drops the result of
`req.WithContext(ctx)`, so the request handed to the HTTP client keeps the
context it had, and for each of the four operations that context is
`context.Background()`, whatever `ctx` the caller supplies; against a test
server that gives up on a cancelled context, `GetValue` called with a
cancelled context still returns the server's Value and no error, and
`DeleteValue` no error. -/
theorem do_drops_the_context :
    (∀ (c : config) (ctx : context.Context) (req : http.Request),
      (c.doRequest ctx req).ctx = req.ctx ∧ c.do ctx req = c.client (c.doRequest ctx req)) ∧
    (∀ (env : GoEnv) (c : config) (ctx : context.Context) (method url : string)
      (body : Option string),
      (http.NewRequest env method url body).map (fun req => (c.doRequest ctx req).ctx)
        = (http.NewRequest env method url body).map (fun _ => context.Background)) ∧
    ((testConfig 200 "ok").doRequest cancelledContext
        ⟨"GET", "http://localhost:8018/values/test-bool-value", [], none,
          context.Background⟩).ctx ≠ cancelledContext ∧
    (testConfig 200 "ok").GetValue testEnv cancelledContext "test-bool-value"
      = (some testValue, none) ∧
    (testConfig 204 "").DeleteValue testEnv cancelledContext "test-bool-value" = none := by
  refine ⟨fun c ctx req => ⟨rfl, rfl⟩, ?_, by decide, rfl, rfl⟩
  intro env c ctx method url body
  unfold http.NewRequest
  cases env.URLError url with
  | some err => rfl
  | none => rfl

/-! ## The requests of the client -/

theorem GetValue_eq (env : GoEnv) (c : config) (ctx : context.Context) (id u : string)
    (hu : env.JoinPath c.endpoint ["values", id] = .ok u) (hv : env.URLError u = none) :
    c.GetValue env ctx id = config.valueResult env
      (c.client (c.doRequest ctx ⟨"GET", u, [], none, context.Background⟩)) := by
  simp only [config.GetValue, hu, http.NewRequest, hv, config.do, config.valueResult]

theorem CreateValue_eq (env : GoEnv) (c : config) (ctx : context.Context)
    (value : model.Value) (u j : string)
    (hu : env.JoinPath c.endpoint ["values"] = .ok u) (hj : env.MarshalValue value = .ok j)
    (hv : env.URLError u = none) :
    c.CreateValue env ctx value = config.valueResult env
      (c.client (c.doRequest ctx ⟨"POST", u, [], some j, context.Background⟩)) := by
  simp only [config.CreateValue, hu, hj, http.NewRequest, hv, config.do, config.valueResult]

theorem UpdateValue_eq (env : GoEnv) (c : config) (ctx : context.Context)
    (value : model.Value) (u j : string)
    (hu : env.JoinPath c.endpoint ["values", value.ID] = .ok u)
    (hj : env.MarshalValue value = .ok j) (hv : env.URLError u = none) :
    c.UpdateValue env ctx value = config.valueResult env
      (c.client (c.doRequest ctx ⟨"PUT", u, [], some j, context.Background⟩)) := by
  simp only [config.UpdateValue, hu, hj, http.NewRequest, hv, config.do, config.valueResult]

theorem DeleteValue_eq (env : GoEnv) (c : config) (ctx : context.Context) (id u : string)
    (hu : env.JoinPath c.endpoint ["values", id] = .ok u) (hv : env.URLError u = none) :
    c.DeleteValue env ctx id = config.errorResult
      (c.client (c.doRequest ctx ⟨"DELETE", u, [], none, context.Background⟩)) := by
  simp only [config.DeleteValue, hu, http.NewRequest, hv, config.do, config.errorResult]

/-- C11. Request method and path. Whatever the HTTP client is, each operation
hands it one request and returns what follows from its answer: `GetValue(id)`
a `GET` to the endpoint joined with `values` and `id`, without body;
`CreateValue(v)` a `POST` to the endpoint joined with `values`, with the JSON
encoding of `v` as body; `UpdateValue(v)` a `PUT` to the endpoint joined with
`values` and `v.ID`, with the JSON encoding of `v` as body; `DeleteValue(id)`
a `DELETE` to the endpoint joined with `values` and `id`, without body; `do`
leaves method, URL and body as they are. With `url.JoinPath`, the endpoint
`http://localhost:8018` and the id `test-bool-value` give
`http://localhost:8018/values/test-bool-value`. -/
theorem request_method_and_path (env : GoEnv) (c : config) (ctx : context.Context) :
    (∀ req : http.Request, (c.doRequest ctx req).Method = req.Method ∧
      (c.doRequest ctx req).URL = req.URL ∧ (c.doRequest ctx req).Body = req.Body) ∧
    (∀ id u, env.JoinPath c.endpoint ["values", id] = .ok u → env.URLError u = none →
      c.GetValue env ctx id = config.valueResult env
        (c.client (c.doRequest ctx ⟨"GET", u, [], none, context.Background⟩))) ∧
    (∀ v u j, env.JoinPath c.endpoint ["values"] = .ok u → env.MarshalValue v = .ok j →
      env.URLError u = none →
      c.CreateValue env ctx v = config.valueResult env
        (c.client (c.doRequest ctx ⟨"POST", u, [], some j, context.Background⟩))) ∧
    (∀ v u j, env.JoinPath c.endpoint ["values", v.ID] = .ok u → env.MarshalValue v = .ok j →
      env.URLError u = none →
      c.UpdateValue env ctx v = config.valueResult env
        (c.client (c.doRequest ctx ⟨"PUT", u, [], some j, context.Background⟩))) ∧
    (∀ id u, env.JoinPath c.endpoint ["values", id] = .ok u → env.URLError u = none →
      c.DeleteValue env ctx id = config.errorResult
        (c.client (c.doRequest ctx ⟨"DELETE", u, [], none, context.Background⟩))) ∧
    url.JoinPath "http://localhost:8018" ["values", "test-bool-value"]
      = .ok "http://localhost:8018/values/test-bool-value" := by
  refine ⟨fun req => ⟨rfl, rfl, rfl⟩, ?_, ?_, ?_, ?_, rfl⟩
  · exact fun id u hu hv => GetValue_eq env c ctx id u hu hv
  · exact fun v u j hu hj hv => CreateValue_eq env c ctx v u j hu hj hv
  · exact fun v u j hu hj hv => UpdateValue_eq env c ctx v u j hu hj hv
  · exact fun id u hu hv => DeleteValue_eq env c ctx id u hu hv

theorem request_method_and_path_witness :
    ({ testConfig 200 "" with client := routeClient }).GetValue urlEnv context.Background
        "test-bool-value" = (some testValue, none) ∧
    ({ testConfig 200 "" with client := routeClient }).GetValue urlEnv context.Background
        "other" = (none, some "unexpected status code: 404, no route") := by
  have h := request_method_and_path urlEnv { testConfig 200 "" with client := routeClient }
    context.Background
  exact ⟨(h.2.1 "test-bool-value" _ rfl rfl).trans rfl, (h.2.1 "other" _ rfl rfl).trans rfl⟩

/-! ## The headers set by `do` -/

theorem header_lookup_filter (h : http.Header) (a k : string) (hk : k ≠ a) :
    List.lookup k (h.filter (fun p => p.1 != a)) = List.lookup k h := by
  induction h with
  | nil => rfl
  | cons p l ih =>
    obtain ⟨b, vs⟩ := p
    by_cases hb : b = a
    · subst hb
      have hkb : (k == b) = false := by simpa using hk
      simp [List.filter_cons, List.lookup_cons, hkb, ih]
    · by_cases hkb : k = b
      · subst hkb
        simp [List.filter_cons, hb, List.lookup_cons]
      · have hkb' : (k == b) = false := by simpa using hkb
        simp [List.filter_cons, hb, List.lookup_cons, hkb', ih]

theorem header_lookup_filter_self (h : http.Header) (a : string) :
    List.lookup a (h.filter (fun p => p.1 != a)) = none := by
  rw [List.lookup_eq_none_iff]
  intro p hp
  have := (List.mem_filter.mp hp).2
  simpa [bne_iff_ne, ne_comm] using this

theorem Values_Set_same (h : http.Header) (key value : string) :
    (h.Set key value).Values key = [value] := by
  simp [http.Header.Set, http.Header.Values, List.lookup_append, header_lookup_filter_self,
    List.lookup_cons]

theorem Values_Set_other (h : http.Header) (key value k : string)
    (hk : textproto.CanonicalMIMEHeaderKey k ≠ textproto.CanonicalMIMEHeaderKey key) :
    (h.Set key value).Values k = h.Values k := by
  have hb : (textproto.CanonicalMIMEHeaderKey k == textproto.CanonicalMIMEHeaderKey key)
      = false := by simpa using hk
  simp only [http.Header.Set, http.Header.Values, List.lookup_append,
    header_lookup_filter h _ _ hk, List.lookup_cons, hb, List.lookup_nil]
  cases List.lookup (textproto.CanonicalMIMEHeaderKey k) h <;> rfl

theorem count_Set_same (h : http.Header) (key value : string) :
    ((h.Set key value).map Prod.fst).count (textproto.CanonicalMIMEHeaderKey key) = 1 := by
  have h0 : ((h.filter (fun p => p.1 != textproto.CanonicalMIMEHeaderKey key)).map
      Prod.fst).count (textproto.CanonicalMIMEHeaderKey key) = 0 := by
    rw [List.count_eq_zero]
    intro hmem
    obtain ⟨p, hp, hpk⟩ := List.mem_map.mp hmem
    have := (List.mem_filter.mp hp).2
    simp [hpk] at this
  simp [http.Header.Set, List.count_append, h0]

theorem count_Set_other (h : http.Header) (key value k : string)
    (hk : k ≠ textproto.CanonicalMIMEHeaderKey key) :
    ((h.Set key value).map Prod.fst).count k = (h.map Prod.fst).count k := by
  have hb : (textproto.CanonicalMIMEHeaderKey key == k) = false := by
    simpa using (Ne.symm hk)
  simp only [http.Header.Set, List.map_append, List.count_append, List.map_cons, List.map_nil,
    List.count_cons, hb, List.count_nil]
  simp only [Bool.false_eq_true, if_false, Nat.add_zero]
  induction h with
  | nil => rfl
  | cons p l ih =>
    obtain ⟨b, vs⟩ := p
    by_cases hbk : b = textproto.CanonicalMIMEHeaderKey key
    · have hbk' : b ≠ k := fun hh => hk (hh ▸ hbk)
      simp [List.filter_cons, hbk, List.count_cons, ih]
      intro hh
      exact absurd hh.symm (by rw [← hbk]; exact fun x => hbk' x.symm)
    · simp [List.filter_cons, hbk, List.count_cons, ih]

theorem doRequest_Header (c : config) (ctx : context.Context) (req : http.Request) :
    (c.doRequest ctx req).Header =
      (((req.Header.Set headerKeyID c.keyID).Set headerKey c.key).Set headerUA c.ua).Set
        headerContentType applicationJSON := rfl

/-- C12. The headers of every request. Each of the four operations hands its
request to `do`, and `do` hands the HTTP client that request with the values
of four headers set: `X-API-KEY-ID` to the configured key id, `X-API-KEY` to
the configured key, `User-Agent` to the configured user agent and
`Content-Type` to `application/json`. Each of the four then holds that one
value, whatever the request held for it before; every other header, the
method, the URL and the body are as they were; and for a request as
`http.NewRequest` builds it these four are all the headers. -/
theorem do_sets_the_headers (c : config) (ctx : context.Context) (req : http.Request) :
    c.do ctx req = c.client (c.doRequest ctx req) ∧
    ((c.doRequest ctx req).Header.Values headerKeyID = [c.keyID] ∧
      (c.doRequest ctx req).Header.Values headerKey = [c.key] ∧
      (c.doRequest ctx req).Header.Values headerUA = [c.ua] ∧
      (c.doRequest ctx req).Header.Values headerContentType = [applicationJSON]) ∧
    ((c.doRequest ctx req).Header.Get headerKeyID = c.keyID ∧
      (c.doRequest ctx req).Header.Get headerKey = c.key ∧
      (c.doRequest ctx req).Header.Get headerUA = c.ua ∧
      (c.doRequest ctx req).Header.Get headerContentType = applicationJSON) ∧
    (∀ k, textproto.CanonicalMIMEHeaderKey k ∉
        [textproto.CanonicalMIMEHeaderKey headerKeyID, textproto.CanonicalMIMEHeaderKey headerKey,
          textproto.CanonicalMIMEHeaderKey headerUA,
          textproto.CanonicalMIMEHeaderKey headerContentType] →
      (c.doRequest ctx req).Header.Values k = req.Header.Values k) ∧
    ((c.doRequest ctx req).Method = req.Method ∧ (c.doRequest ctx req).URL = req.URL ∧
      (c.doRequest ctx req).Body = req.Body) ∧
    (req.Header = [] → (c.doRequest ctx req).Header =
      [("X-Api-Key-Id", [c.keyID]), ("X-Api-Key", [c.key]), ("User-Agent", [c.ua]),
        ("Content-Type", ["application/json"])]) ∧
    (∀ (env : GoEnv) (id u : string), env.JoinPath c.endpoint ["values", id] = .ok u →
      env.URLError u = none →
      c.GetValue env ctx id = config.valueResult env
        (c.do ctx ⟨"GET", u, [], none, context.Background⟩) ∧
      c.DeleteValue env ctx id = config.errorResult
        (c.do ctx ⟨"DELETE", u, [], none, context.Background⟩)) ∧
    (∀ (env : GoEnv) (v : model.Value) (u j : string),
      env.MarshalValue v = .ok j → env.URLError u = none →
      (env.JoinPath c.endpoint ["values"] = .ok u →
        c.CreateValue env ctx v = config.valueResult env
          (c.do ctx ⟨"POST", u, [], some j, context.Background⟩)) ∧
      (env.JoinPath c.endpoint ["values", v.ID] = .ok u →
        c.UpdateValue env ctx v = config.valueResult env
          (c.do ctx ⟨"PUT", u, [], some j, context.Background⟩))) := by
  have h1 : textproto.CanonicalMIMEHeaderKey headerKeyID
      ≠ textproto.CanonicalMIMEHeaderKey headerKey := by decide
  have h2 : textproto.CanonicalMIMEHeaderKey headerKeyID
      ≠ textproto.CanonicalMIMEHeaderKey headerUA := by decide
  have h3 : textproto.CanonicalMIMEHeaderKey headerKeyID
      ≠ textproto.CanonicalMIMEHeaderKey headerContentType := by decide
  have h4 : textproto.CanonicalMIMEHeaderKey headerKey
      ≠ textproto.CanonicalMIMEHeaderKey headerUA := by decide
  have h5 : textproto.CanonicalMIMEHeaderKey headerKey
      ≠ textproto.CanonicalMIMEHeaderKey headerContentType := by decide
  have h6 : textproto.CanonicalMIMEHeaderKey headerUA
      ≠ textproto.CanonicalMIMEHeaderKey headerContentType := by decide
  have hvals : (c.doRequest ctx req).Header.Values headerKeyID = [c.keyID] ∧
      (c.doRequest ctx req).Header.Values headerKey = [c.key] ∧
      (c.doRequest ctx req).Header.Values headerUA = [c.ua] ∧
      (c.doRequest ctx req).Header.Values headerContentType = [applicationJSON] := by
    rw [doRequest_Header]
    refine ⟨?_, ?_, ?_, ?_⟩
    · rw [Values_Set_other _ _ _ _ h3, Values_Set_other _ _ _ _ h2,
        Values_Set_other _ _ _ _ h1, Values_Set_same]
    · rw [Values_Set_other _ _ _ _ h5, Values_Set_other _ _ _ _ h4, Values_Set_same]
    · rw [Values_Set_other _ _ _ _ h6, Values_Set_same]
    · rw [Values_Set_same]
  refine ⟨rfl, hvals, ?_, ?_, ⟨rfl, rfl, rfl⟩, ?_, ?_, ?_⟩
  · simp [http.Header.Get, hvals.1, hvals.2.1, hvals.2.2.1, hvals.2.2.2]
  · intro k hk
    simp only [List.mem_cons, List.mem_singleton, List.not_mem_nil, or_false, not_or] at hk
    rw [doRequest_Header, Values_Set_other _ _ _ _ hk.2.2.2, Values_Set_other _ _ _ _ hk.2.2.1,
      Values_Set_other _ _ _ _ hk.2.1, Values_Set_other _ _ _ _ hk.1]
  · intro hreq
    have k1 : textproto.CanonicalMIMEHeaderKey headerKeyID = "X-Api-Key-Id" := by decide
    have k2 : textproto.CanonicalMIMEHeaderKey headerKey = "X-Api-Key" := by decide
    have k3 : textproto.CanonicalMIMEHeaderKey headerUA = "User-Agent" := by decide
    have k4 : textproto.CanonicalMIMEHeaderKey headerContentType = "Content-Type" := by decide
    rw [doRequest_Header, hreq]
    simp [http.Header.Set, k1, k2, k3, k4, applicationJSON]
  · intro env id u hu hv
    exact ⟨GetValue_eq env c ctx id u hu hv, DeleteValue_eq env c ctx id u hu hv⟩
  · intro env v u j hj hv
    exact ⟨fun hu => CreateValue_eq env c ctx v u j hu hj hv,
      fun hu => UpdateValue_eq env c ctx v u j hu hj hv⟩

theorem do_sets_the_headers_witness :
    ((testConfig 200 "ok").doRequest context.Background
        ⟨"GET", "http://localhost:8018/values/test-bool-value",
          [("X-Api-Key", ["stale", "older"]), ("Accept", ["text/plain"])], none,
          context.Background⟩).Header.Values "x-api-key" = ["test_key"] ∧
    ((testConfig 200 "ok").doRequest context.Background
        ⟨"GET", "http://localhost:8018/values/test-bool-value", [], none,
          context.Background⟩).Header =
      [("X-Api-Key-Id", ["test_key_id"]), ("X-Api-Key", ["test_key"]),
        ("User-Agent", ["terraform-provider-wings"]), ("Content-Type", ["application/json"])] :=
  ⟨(do_sets_the_headers (testConfig 200 "ok") context.Background
      ⟨"GET", "http://localhost:8018/values/test-bool-value",
        [("X-Api-Key", ["stale", "older"]), ("Accept", ["text/plain"])], none,
        context.Background⟩).2.1.2.1,
    (do_sets_the_headers (testConfig 200 "ok") context.Background
      ⟨"GET", "http://localhost:8018/values/test-bool-value", [], none,
        context.Background⟩).2.2.2.2.2.1 rfl⟩

/-! ## The order of the variants after a round trip through the map -/

theorem boolBlock_boolEntry (l : List valueResourceBool)
    (hk : ∀ b ∈ l, b.Variant.IsNull = false ∧ b.Variant.IsUnknown = false ∧
      ∃ x, b.Value = types.Bool.known x) :
    (l.map value.boolEntry).filterMap valueState.boolBlock = l := by
  induction l with
  | nil => rfl
  | cons b l ih =>
    have ih' := ih (fun q hq => hk q (List.mem_cons_of_mem _ hq))
    obtain ⟨h1, h2, x, hx⟩ := hk b (List.mem_cons_self _ _)
    obtain ⟨name, val⟩ := b
    simp only at h1 h2 hx
    subst hx
    simp only [List.map_cons, List.filterMap_cons, valueState.boolBlock, value.boolEntry,
      Option.map_some', ih']
    rw [StringValue_ValueString name h1 h2]
    rfl

/-- C13, amended. For a shape whose variants all sit in `bool[]` under
pairwise distinct names, with known names and values, `valueState` after
`value()` gives a `bool[]` sequence that holds the elements of the input
`bool[]`, each exactly once; its order is the order in which the variants map
is ranged over. -/
theorem bool_blocks_come_back_as_a_permutation (env : GoEnv) (s : valueResource)
    (v : model.Value) (h : s.value env = .ok v)
    (hS : s.String = []) (hO : s.Object = []) (hI : s.Int = [])
    (hname : (s.Bool.map (fun b => b.Variant.ValueString)).Nodup)
    (hk : ∀ b ∈ s.Bool, b.Variant.IsNull = false ∧ b.Variant.IsUnknown = false ∧
      ∃ x, b.Value = types.Bool.known x) :
    (valueState env v).Bool.Perm s.Bool ∧
    (valueState env v).Bool = (env.Range v.Variants).filterMap valueState.boolBlock ∧
    v.Variants.Perm (s.Bool.map value.boolEntry) := by
  obtain ⟨es, hes, hv⟩ := value_ok env s v h
  have hes' : es = [] := by
    rw [hO] at hes
    simp only [value.objectEntries, Except.ok.injEq] at hes
    exact hes.symm
  have hw : value.writes s es = s.Bool.map value.boolEntry := by
    simp [value.writes, hS, hI, hes']
  have hnd : ((s.Bool.map value.boolEntry).map Prod.fst).Nodup := by
    simpa [value.boolEntry, Function.comp_def] using hname
  have hvar : v.Variants = (s.Bool.map value.boolEntry).reverse := by
    rw [hv, hw, assignAll_fresh _ _ hnd (by simp [model.Variants.keys])]
    simp
  have hperm : v.Variants.Perm (s.Bool.map value.boolEntry) := by
    rw [hvar]
    exact List.reverse_perm _
  refine ⟨?_, valueState_Bool env v, hperm⟩
  rw [valueState_Bool]
  have h1 := ((env.Range_perm v.Variants).trans hperm).filterMap valueState.boolBlock
  rw [boolBlock_boolEntry s.Bool hk] at h1
  exact h1

theorem bool_blocks_come_back_as_a_permutation_witness :
    ∃ v, boolShape.value testEnv = .ok v ∧ (valueState testEnv v).Bool.Perm boolShape.Bool :=
  ⟨_, rfl, (bool_blocks_come_back_as_a_permutation testEnv boolShape _ rfl rfl rfl rfl
    (by decide) (by decide)).1⟩

/-- C13 as stated fails: the shape of the acceptance test has its two
variants `on`, `off` in `bool[]` under distinct names, and for a `range` order
that visits the map in its stored order `valueState` after `value()` gives
`bool[]` as `off`, `on`. -/
theorem bool_order_not_preserved :
    boolShape.String = [] ∧ boolShape.Object = [] ∧ boolShape.Int = [] ∧
    (boolShape.Bool.map (fun b => b.Variant.ValueString)).Nodup ∧
    ∃ v, boolShape.value storedOrderEnv = .ok v ∧
      (valueState storedOrderEnv v).Bool
        = [⟨.known "off", .known false⟩, ⟨.known "on", .known true⟩] ∧
      (valueState storedOrderEnv v).Bool ≠ boolShape.Bool :=
  ⟨rfl, rfl, rfl, by decide, _, rfl, rfl, by decide⟩

/-! ## JSON texts whose root is not an object -/

theorem Unmarshal_of_root (text : string) (j : JSON) (rest : List Char)
    (hp : json.parseValue (text.data.length + 1) 0 text.data = some (j, rest))
    (hr : json.skipSpace rest = []) :
    (j.isArrayOrScalar → ∃ err, json.Unmarshal text = .error err) ∧
    (j = .null → json.Unmarshal text = .ok none) ∧
    (∀ kvs, j = .object kvs → json.Unmarshal text = .ok (some kvs)) := by
  unfold json.Unmarshal
  rw [hp]
  simp only [hr]
  refine ⟨?_, ?_, ?_⟩
  · intro h
    cases j with
    | null => exact absurd h (by simp [JSON.isArrayOrScalar])
    | object kvs => exact absurd h (by simp [JSON.isArrayOrScalar])
    | bool b => exact ⟨_, rfl⟩
    | number n => exact ⟨_, rfl⟩
    | str t => exact ⟨_, rfl⟩
    | array xs => exact ⟨_, rfl⟩
  · intro h
    rw [h]
  · intro kvs h
    rw [h]

/-- A text whose first character after the white space opens neither an
object nor the word `null` is refused by `json.Unmarshal`: it is no JSON
text, or its root is an array, a string, a boolean or a number. -/
theorem Unmarshal_error_of_first_char (text : string) (c : Char) (rest : List Char)
    (h : json.skipSpace text.data = c :: rest) (hb : c ≠ json.lbrace) (hn : c ≠ 'n') :
    ∃ err, json.Unmarshal text = .error err := by
  have key : json.parseValue (text.data.length + 1) 0 text.data = none ∨
      ∃ j rest', json.parseValue (text.data.length + 1) 0 text.data = some (j, rest') ∧
        j.isArrayOrScalar := by
    simp only [json.parseValue, h, hb, hn, if_false]
    repeat' split
    all_goals simp_all [JSON.isArrayOrScalar]
  rcases key with hnone | ⟨j, rest', hsome, hj⟩
  · unfold json.Unmarshal
    rw [hnone]
    exact ⟨_, rfl⟩
  · cases hs : json.skipSpace rest' with
    | cons d ds =>
      unfold json.Unmarshal
      rw [hsome]
      simp only [hs]
      exact ⟨_, rfl⟩
    | nil => exact (Unmarshal_of_root text j rest' hsome hs).1 hj

/-- C14, amended. With the JSON parser of the `json` section, for an object
block of the shape: when its value string is a JSON text whose root is an
array, a number, a string or `true`/`false`, `value()` returns an error and
no Value; when the root is `null`, the parser accepts the text and leaves the
nil map, so that block raises no error; and whenever the first character of
the value string after the white space opens neither an object nor the word
`null`, `value()` returns an error and no Value. -/
theorem non_object_root_rejected_except_null (env : GoEnv) (s : valueResource)
    (hU : env.Unmarshal = json.Unmarshal) (ob : valueResourceObject) (hob : ob ∈ s.Object) :
    (∀ j rest,
      json.parseValue (ob.Value.ValueString.data.length + 1) 0 ob.Value.ValueString.data
        = some (j, rest) →
      json.skipSpace rest = [] →
      (j.isArrayOrScalar → (∃ err, s.value env = .error err) ∧ ∀ v, s.value env ≠ .ok v) ∧
      (j = .null → env.Unmarshal ob.Value.ValueString = .ok none)) ∧
    (∀ c rest, json.skipSpace ob.Value.ValueString.data = c :: rest →
      c ≠ json.lbrace → c ≠ 'n' →
      (∃ err, s.value env = .error err) ∧ ∀ v, s.value env ≠ .ok v) := by
  have hfails : (∃ err, json.Unmarshal ob.Value.ValueString = .error err) →
      (∃ err, s.value env = .error err) ∧ ∀ v, s.value env ≠ .ok v := by
    rintro ⟨err, herr⟩
    have hfail : ∃ err, s.value env = .error err :=
      (value_error_iff env s).mpr (Or.inl ⟨ob, hob, err, by rw [hU, herr]⟩)
    refine ⟨hfail, ?_⟩
    obtain ⟨e, he⟩ := hfail
    intro v hv
    rw [he] at hv
    exact absurd hv (by simp)
  refine ⟨?_, ?_⟩
  · intro j rest hp hr
    have hroot := Unmarshal_of_root ob.Value.ValueString j rest hp hr
    refine ⟨fun hj => hfails (hroot.1 hj), ?_⟩
    intro hj
    rw [hU]
    exact hroot.2.1 hj
  · intro c rest hc hb hn
    exact hfails (Unmarshal_error_of_first_char ob.Value.ValueString c rest hc hb hn)

theorem non_object_root_rejected_except_null_witness :
    (∃ err, (objectShapeOf "[1.5]").value testEnv = .error err) ∧
    (∃ err, (objectShapeOf "1.5").value testEnv = .error err) ∧
    (∃ err, (objectShapeOf "-2e3").value testEnv = .error err) ∧
    (∃ err, (objectShapeOf "\"a\"").value testEnv = .error err) ∧
    (∃ err, (objectShapeOf "true").value testEnv = .error err) ∧
    (∃ err, (objectShapeOf " [1, \x7b\"a\": 0.25\x7d]").value testEnv = .error err) ∧
    testEnv.Unmarshal "null" = .ok none :=
  ⟨(((non_object_root_rejected_except_null testEnv (objectShapeOf "[1.5]") rfl
      ⟨.known "json", .known "[1.5]", []⟩ (by simp [objectShapeOf])).1
      (.array [.number 1.5]) [] rfl rfl).1 trivial).1,
    (((non_object_root_rejected_except_null testEnv (objectShapeOf "1.5") rfl
      ⟨.known "json", .known "1.5", []⟩ (by simp [objectShapeOf])).1
      (.number 1.5) [] rfl rfl).1 trivial).1,
    ((non_object_root_rejected_except_null testEnv (objectShapeOf "-2e3") rfl
      ⟨.known "json", .known "-2e3", []⟩ (by simp [objectShapeOf])).2
      '-' "2e3".data rfl (by decide) (by decide)).1,
    (((non_object_root_rejected_except_null testEnv (objectShapeOf "\"a\"") rfl
      ⟨.known "json", .known "\"a\"", []⟩ (by simp [objectShapeOf])).1
      (.str "a") [] rfl rfl).1 trivial).1,
    (((non_object_root_rejected_except_null testEnv (objectShapeOf "true") rfl
      ⟨.known "json", .known "true", []⟩ (by simp [objectShapeOf])).1
      (.bool true) [] rfl rfl).1 trivial).1,
    ((non_object_root_rejected_except_null testEnv
      (objectShapeOf " [1, \x7b\"a\": 0.25\x7d]") rfl
      ⟨.known "json", .known " [1, \x7b\"a\": 0.25\x7d]", []⟩ (by simp [objectShapeOf])).2
      '[' "1, \x7b\"a\": 0.25\x7d]".data rfl (by decide) (by decide)).1,
    ((non_object_root_rejected_except_null testEnv (objectShapeOf "null") rfl
      ⟨.known "json", .known "null", []⟩ (by simp [objectShapeOf])).1
      .null [] rfl rfl).2 rfl⟩

/-- C14 as stated fails for `null`: the text `null` is valid JSON whose root
is not an object, and `value()` on a shape whose object block has that value
returns a Value, the variant holding an Object with the nil map. -/
theorem null_root_not_rejected :
    json.parseValue 5 0 "null".data = some (.null, []) ∧
    ∃ v, (objectShapeOf "null").value testEnv = .ok v ∧
      v.Variants = [("json", { Object := some { Value := none, Transforms := [] } })] :=
  ⟨rfl, _, rfl, rfl⟩

/-! ## Variants with no member or several members populated -/

theorem count_blocks_of_entry {α : Type} (g : string × model.ValueEvaluation → Option α)
    (name : α → types.String)
    (hg : ∀ p a, g p = some a → name a = types.StringValue p.1)
    (l : List (string × model.ValueEvaluation)) (hn : (l.map Prod.fst).Nodup)
    (p : string × model.ValueEvaluation) (hp : p ∈ l) :
    (l.filterMap g).countP (fun a => decide (name a = types.StringValue p.1))
      = if (g p).isSome then 1 else 0 := by
  induction l with
  | nil => simp at hp
  | cons q l ih =>
    have hn' : q.1 ∉ l.map Prod.fst ∧ (l.map Prod.fst).Nodup := List.nodup_cons.mp hn
    have hzero : ∀ r : string × model.ValueEvaluation, r.1 ∉ l.map Prod.fst →
        (l.filterMap g).countP (fun a => decide (name a = types.StringValue r.1)) = 0 := by
      intro r hr
      rw [List.countP_eq_zero]
      intro a ha
      obtain ⟨x, hx, hxa⟩ := List.mem_filterMap.mp ha
      have hname := hg x a hxa
      simp only [decide_eq_true_eq, hname, types.StringValue, types.String.known.injEq]
      intro hxr
      exact hr (hxr ▸ List.mem_map.mpr ⟨x, hx, rfl⟩)
    rcases List.mem_cons.mp hp with h1 | h2
    · subst h1
      cases hq : g p with
      | none => simp [List.filterMap_cons, hq, hzero p hn'.1]
      | some a =>
        simp [List.filterMap_cons, hq, List.countP_cons, hzero p hn'.1, hg p a hq]
    · have hne : q.1 ≠ p.1 := fun hqp => hn'.1 (hqp ▸ List.mem_map.mpr ⟨p, h2, rfl⟩)
      cases hq : g q with
      | none => simp [List.filterMap_cons, hq, ih hn'.2 h2]
      | some a =>
        have hna : name a ≠ types.StringValue p.1 := by
          rw [hg q a hq]
          intro hh
          exact hne (by simpa [types.StringValue] using hh)
        simp [List.filterMap_cons, hq, List.countP_cons, ih hn'.2 h2, hna]

/-- C15, amended. For every domain Value and every variant of it, each of the
four sequences built by `valueState` holds one block with the variant's name
when the variant's member for that sequence is populated, and none when it
is not. So a variant with no populated member contributes no element to any
sequence, and a variant with more than one populated member contributes one
element to each sequence whose member is populated. -/
theorem valueState_blocks_of_a_variant (env : GoEnv) (v : model.Value)
    (hkeys : v.Variants.keys.Nodup) (p : string × model.ValueEvaluation)
    (hp : p ∈ v.Variants) :
    ((valueState env v).Bool.countP (fun b => decide (b.Variant = types.StringValue p.1))
        = if p.2.Bool.isSome then 1 else 0) ∧
    ((valueState env v).String.countP (fun b => decide (b.Variant = types.StringValue p.1))
        = if p.2.String.isSome then 1 else 0) ∧
    ((valueState env v).Object.countP (fun b => decide (b.Variant = types.StringValue p.1))
        = if p.2.Object.isSome then 1 else 0) ∧
    ((valueState env v).Int.countP (fun b => decide (b.Variant = types.StringValue p.1))
        = if p.2.Int.isSome then 1 else 0) ∧
    (valueState env v).variantCount (types.StringValue p.1) = p.2.populated := by
  have hperm := env.Range_perm v.Variants
  have hn : ((env.Range v.Variants).map Prod.fst).Nodup :=
    (List.Perm.map Prod.fst hperm).nodup_iff.mpr hkeys
  have hp' : p ∈ env.Range v.Variants := hperm.mem_iff.mpr hp
  have hB := count_blocks_of_entry valueState.boolBlock (fun b => b.Variant)
    (by
      intro q a hq
      cases hb : q.2.Bool with
      | none => simp [valueState.boolBlock, hb] at hq
      | some x =>
        simp only [valueState.boolBlock, hb, Option.map_some', Option.some.injEq] at hq
        rw [← hq])
    _ hn p hp'
  have hS := count_blocks_of_entry valueState.stringBlock (fun b => b.Variant)
    (by
      intro q a hq
      cases hb : q.2.String with
      | none => simp [valueState.stringBlock, hb] at hq
      | some x =>
        simp only [valueState.stringBlock, hb, Option.map_some', Option.some.injEq] at hq
        rw [← hq])
    _ hn p hp'
  have hO := count_blocks_of_entry (valueState.objectBlock env) (fun b => b.Variant)
    (by
      intro q a hq
      cases hb : q.2.Object with
      | none => simp [valueState.objectBlock, hb] at hq
      | some x =>
        simp only [valueState.objectBlock, hb, Option.map_some', Option.some.injEq] at hq
        rw [← hq])
    _ hn p hp'
  have hI := count_blocks_of_entry valueState.intBlock (fun b => b.Variant)
    (by
      intro q a hq
      cases hb : q.2.Int with
      | none => simp [valueState.intBlock, hb] at hq
      | some x =>
        simp only [valueState.intBlock, hb, Option.map_some', Option.some.injEq] at hq
        rw [← hq])
    _ hn p hp'
  have eB : (valueState.boolBlock p).isSome = p.2.Bool.isSome := by
    simp [valueState.boolBlock]
  have eS : (valueState.stringBlock p).isSome = p.2.String.isSome := by
    simp [valueState.stringBlock]
  have eO : (valueState.objectBlock env p).isSome = p.2.Object.isSome := by
    simp [valueState.objectBlock]
  have eI : (valueState.intBlock p).isSome = p.2.Int.isSome := by
    simp [valueState.intBlock]
  rw [eB] at hB
  rw [eS] at hS
  rw [eO] at hO
  rw [eI] at hI
  rw [← valueState_Bool] at hB
  rw [← valueState_String] at hS
  rw [← valueState_Object] at hO
  rw [← valueState_Int] at hI
  refine ⟨hB, hS, hO, hI, ?_⟩
  unfold valueResource.variantCount model.ValueEvaluation.populated
  rw [hB, hS, hO, hI]

theorem valueState_blocks_of_a_variant_witness :
    (valueState testEnv malformedValue).variantCount (types.StringValue "both") = 2 ∧
    (valueState testEnv malformedValue).variantCount (types.StringValue "none") = 0 ∧
    (valueState testEnv malformedValue).variantCount (types.StringValue "on") = 1 :=
  ⟨(valueState_blocks_of_a_variant testEnv malformedValue (by decide)
      ("both", { Bool := some { Value := true }, String := some { Value := "yes" } })
      (by simp [malformedValue])).2.2.2.2,
    (valueState_blocks_of_a_variant testEnv malformedValue (by decide) ("none", { })
      (by simp [malformedValue])).2.2.2.2,
    (valueState_blocks_of_a_variant testEnv malformedValue (by decide)
      ("on", { Bool := some { Value := true } }) (by simp [malformedValue])).2.2.2.2⟩

/-- C15 as stated fails: the variant `both` has two members populated, and
`valueState` puts it in `bool[]` and in `string[]`. -/
theorem variant_with_two_members_not_skipped :
    (valueState testEnv malformedValue).Bool =
      [⟨.known "on", .known true⟩, ⟨.known "both", .known true⟩] ∧
    (valueState testEnv malformedValue).String = [⟨.known "both", .known "yes"⟩] ∧
    (valueState testEnv malformedValue).Object = [] ∧
    (valueState testEnv malformedValue).Int = [] :=
  ⟨rfl, rfl, rfl, rfl⟩

/-! ## The union invariant of `value()` -/

theorem lastWrite_isSome_iff (k : string) (l : List (string × model.ValueEvaluation)) :
    (∃ e, value.lastWrite k l = some e) ↔ k ∈ l.map Prod.fst := by
  unfold value.lastWrite
  rw [← Option.isSome_iff_exists, List.lookup_isSome_iff]
  constructor
  · rintro ⟨p, hp, hk⟩
    exact List.mem_map.mpr ⟨p, List.mem_reverse.mp hp, (by simpa using hk : k = p.1).symm⟩
  · intro hk
    obtain ⟨p, hp, hpk⟩ := List.mem_map.mp hk
    exact ⟨p, List.mem_reverse.mpr hp, by simp [hpk]⟩

/-- C16. Union invariant of `value()`: in a Value returned by `value()`, every
entry of the variants map has exactly one of Bool, Int, String, Object
populated, and the keys of the map, which are pairwise distinct, are exactly
the variant names that occur in `bool[]`, `string[]`, `object[]` and `int[]`. -/
theorem value_union_invariant (env : GoEnv) (s : valueResource) (v : model.Value)
    (h : s.value env = .ok v) :
    (∀ p ∈ v.Variants, p.2.populated = 1) ∧
    (∀ k, k ∈ v.Variants.keys ↔ k ∈ s.names) ∧
    v.Variants.keys.Nodup := by
  obtain ⟨es, hes, hv⟩ := value_ok env s v h
  have hget := value_get s v es hv
  have hkeys : v.Variants.keys.Nodup := by
    rw [hv]
    exact keys_assignAll_nodup _ [] List.nodup_nil
  refine ⟨?_, ?_, hkeys⟩
  · intro p hp
    have hg : v.Variants.get p.1 = some p.2 := get_of_mem hkeys hp
    rw [hget] at hg
    have hmem : (p.1, p.2) ∈ value.writes s es := List.mem_reverse.mp (mem_keys_of_get hg)
    exact writes_populated env s es hes _ hmem
  · intro k
    rw [← writes_names env s es hes, ← lastWrite_isSome_iff]
    constructor
    · intro hk
      obtain ⟨p, hp, hpk⟩ := List.mem_map.mp hk
      refine ⟨p.2, ?_⟩
      rw [← hget, ← hpk]
      exact get_of_mem hkeys hp
    · rintro ⟨e, he⟩
      rw [← hget] at he
      exact List.mem_map.mpr ⟨(k, e), mem_keys_of_get he, rfl⟩

theorem value_union_invariant_witness :
    ∃ v, collisionShape.value testEnv = .ok v ∧
      (∀ p ∈ v.Variants, p.2.populated = 1) ∧
      (∀ k, k ∈ v.Variants.keys ↔ k ∈ collisionShape.names) ∧
      v.Variants.keys.Nodup :=
  ⟨_, rfl, value_union_invariant testEnv collisionShape _ rfl⟩

/-! ## The state stored by the lifecycle methods -/

theorem CreateValue_value_or_error (env : GoEnv) (c : config) (ctx : context.Context)
    (value : model.Value) : c.CreateValue env ctx value ≠ (none, none) := by
  unfold config.CreateValue
  repeat' split
  all_goals simp

theorem GetValue_value_or_error (env : GoEnv) (c : config) (ctx : context.Context)
    (id : string) : c.GetValue env ctx id ≠ (none, none) := by
  unfold config.GetValue
  repeat' split
  all_goals simp

theorem AddError_Diagnostics_ne_nil (resp : resource.Response) (summary detail : string) :
    (resp.AddError summary detail).Diagnostics ≠ [] := by
  simp [resource.Response.AddError]

theorem HasError_of_Diagnostics_nil (resp : resource.Response) (h : resp.Diagnostics = []) :
    resp.HasError = false := by
  simp [resource.Response.HasError, h]

theorem Diagnostics_ne_nil_of_HasError (resp : resource.Response) (h : resp.HasError = true) :
    resp.Diagnostics ≠ [] := by
  intro hd
  rw [HasError_of_Diagnostics_nil resp hd] at h
  exact absurd h (by simp)

/-- C17, amended. `Create` never panics. When `Create` ends without a
diagnostic, the state it stores is the plan with its `id` set to the ID of
the Value the remote client returned, every other attribute being the
plan's; when `Update` ends without a diagnostic, the state it stores is the
plan, and nothing of what the remote client returned. -/
theorem write_stores_the_plan (env : GoEnv) (v : ValueResource) (ctx : context.Context)
    (plan : valueResource) (resp : resource.Response) :
    (∃ r, v.Create env ctx plan resp = some r) ∧
    (∀ r, v.Create env ctx plan resp = some r → r.Diagnostics = [] →
      ∃ sent returned, plan.value env = .ok sent ∧
        v.c.CreateValue env ctx sent = (some returned, none) ∧
        r.State = some { plan with ID := types.StringValue returned.ID }) ∧
    ((v.Update env ctx plan resp).Diagnostics = [] →
      ∃ sent, plan.value env = .ok sent ∧ (v.c.UpdateValue env ctx sent).2 = none ∧
        (v.Update env ctx plan resp).State = some plan) := by
  refine ⟨?_, ?_, ?_⟩
  · unfold ValueResource.Create
    by_cases hE : resp.HasError = true
    · simp [hE]
    · simp only [hE]
      cases hval : plan.value env with
      | error err => simp
      | ok sent =>
        simp only []
        rcases hc : v.c.CreateValue env ctx sent with ⟨a, b⟩
        cases b with
        | some err => simp
        | none =>
          cases a with
          | some returned => simp
          | none => exact absurd hc (CreateValue_value_or_error env v.c ctx sent)
  · intro r hr hd
    unfold ValueResource.Create at hr
    by_cases hE : resp.HasError = true
    · simp only [hE, if_true, Option.some.injEq] at hr
      rw [← hr] at hd
      exact absurd hd (Diagnostics_ne_nil_of_HasError resp hE)
    · simp only [hE] at hr
      cases hval : plan.value env with
      | error err =>
        simp only [hval, Bool.false_eq_true, if_false, Option.some.injEq] at hr
        rw [← hr] at hd
        exact absurd hd (AddError_Diagnostics_ne_nil _ _ _)
      | ok sent =>
        simp only [hval, Bool.false_eq_true, if_false] at hr
        rcases hc : v.c.CreateValue env ctx sent with ⟨a, b⟩
        rw [hc] at hr
        cases b with
        | some err =>
          simp only [Option.some.injEq] at hr
          rw [← hr] at hd
          exact absurd hd (AddError_Diagnostics_ne_nil _ _ _)
        | none =>
          cases a with
          | none => simp at hr
          | some returned =>
            simp only [Option.some.injEq] at hr
            exact ⟨sent, returned, rfl, hc, by rw [← hr]⟩
  · intro hd
    unfold ValueResource.Update at hd ⊢
    by_cases hE : resp.HasError = true
    · simp only [hE, if_true] at hd
      exact absurd hd (Diagnostics_ne_nil_of_HasError resp hE)
    · simp only [hE] at hd ⊢
      cases hval : plan.value env with
      | error err =>
        simp only [hval, Bool.false_eq_true, if_false] at hd
        exact absurd hd (AddError_Diagnostics_ne_nil _ _ _)
      | ok sent =>
        simp only [hval, Bool.false_eq_true, if_false] at hd ⊢
        cases hu : (v.c.UpdateValue env ctx sent).2 with
        | some err =>
          simp only [hu] at hd
          exact absurd hd (AddError_Diagnostics_ne_nil _ _ _)
        | none => exact ⟨sent, rfl, hu, rfl⟩

theorem write_stores_the_plan_witness :
    (ValueResource.mk (testConfig 200 "ok")).Create testEnv context.Background editedPlan
        resource.emptyResponse
      = some { Diagnostics := [],
               State := some { editedPlan with ID := .known "test-bool-value" } } ∧
    ((ValueResource.mk (testConfig 200 "ok")).Update testEnv context.Background boolShape
        resource.emptyResponse).State = some boolShape := by
  have h := write_stores_the_plan testEnv (ValueResource.mk (testConfig 200 "ok"))
    context.Background boolShape resource.emptyResponse
  exact ⟨rfl, (h.2.2 rfl).choose_spec.2.2⟩

/-- C17 as stated fails: the plan carries the description `edited locally`,
the test server answers the `POST` with a Value whose description is
`test bool value`, `Create` ends without a diagnostic, and the state it
stores keeps `edited locally`; it is not `valueState` of the returned Value. -/
theorem created_state_is_not_the_returned_value :
    (testConfig 200 "ok").CreateValue testEnv context.Background
        { ID := "", Enabled := true, Description := "edited locally", DefaultVariant := "off",
          Variants := [("off", { Bool := some { Value := false } }),
            ("on", { Bool := some { Value := true } })],
          Targeting := testValue.Targeting, Tests := testValue.Tests }
      = (some testValue, none) ∧
    ∃ r, (ValueResource.mk (testConfig 200 "ok")).Create testEnv context.Background editedPlan
        resource.emptyResponse = some r ∧
      r.Diagnostics = [] ∧
      r.State.map (fun s => s.Description) = some (.known "edited locally") ∧
      (valueState testEnv testValue).Description = .known "test bool value" ∧
      r.State ≠ some (valueState testEnv testValue) :=
  ⟨rfl, _, rfl, rfl, rfl, rfl, by decide⟩

/-! ## What `Read` stores -/

/-- C18. What the code does instead: `Read` stores back the state of the
request and never calls the remote client, so its response is the same for
every client configuration; `ImportState`, next to it, does store
`valueState` of the Value fetched with `GetValue`. With the test server
holding the bool Value of the acceptance test and the stored state being the
object shape, `Read` leaves the object shape in the state, while `GetValue`
at that moment returns the bool Value, whose `valueState` is another state. -/
theorem read_keeps_the_stored_state :
    (∀ (v : ValueResource) (ctx : context.Context) (state : valueResource),
      v.Read ctx state { Diagnostics := [], State := some state }
        = { Diagnostics := [], State := some state }) ∧
    (∀ (v w : ValueResource) (ctx : context.Context) (state : valueResource)
      (resp : resource.Response), v.Read ctx state resp = w.Read ctx state resp) ∧
    (ValueResource.mk (testConfig 200 "ok")).ImportState testEnv context.Background
        "test-json-value" resource.emptyResponse
      = some { Diagnostics := [], State := some (valueState testEnv testValue) } ∧
    (ValueResource.mk (testConfig 200 "ok")).Read context.Background objectShape
        { Diagnostics := [], State := some objectShape }
      = { Diagnostics := [], State := some objectShape } ∧
    (testConfig 200 "ok").GetValue testEnv context.Background "test-json-value"
      = (some testValue, none) ∧
    some objectShape ≠ some (valueState testEnv testValue) := by
  exact ⟨fun v ctx state => rfl, fun v w ctx state resp => rfl, rfl, rfl, rfl, by decide⟩

/-! ## The id of the Value -/

/-- C19. Identity mapping: `value()` never reads `value_id`, so a shape gives
the same result whatever its `value_id` is; the id of a Value returned by
`value()` is `ValueString()` of the shape's `id`, hence `""` when that `id`
is null or unknown; and `valueState` sets both `id` and `value_id` to the id
of the domain Value. -/
theorem identity_mapping (env : GoEnv) (s : valueResource) (x : types.String)
    (d : model.Value) :
    ({ s with ValueID := x }).value env = s.value env ∧
    (∀ v, s.value env = .ok v → v.ID = s.ID.ValueString) ∧
    (∀ v, s.value env = .ok v → s.ID = .null ∨ s.ID = .unknown → v.ID = "") ∧
    (valueState env d).ID = types.StringValue d.ID ∧
    (valueState env d).ValueID = types.StringValue d.ID := by
  have hid : ∀ v, s.value env = .ok v → v.ID = s.ID.ValueString := by
    intro v hv
    rw [value_eq] at hv
    cases hO : value.objectEntries env s.Object with
    | error err => simp [hO] at hv
    | ok es =>
      cases hT : value.tests env s.Test with
      | error err => simp [hO, hT] at hv
      | ok tests =>
        simp only [hO, hT, Except.ok.injEq] at hv
        rw [← hv]
  refine ⟨rfl, hid, ?_, rfl, rfl⟩
  intro v hv hn
  rw [hid v hv]
  rcases hn with h | h <;> rw [h] <;> rfl

theorem identity_mapping_witness :
    ({ boolShape with ID := .unknown, ValueID := .known "another-id" }).value testEnv
        = ({ boolShape with ID := .unknown }).value testEnv ∧
    ∃ v, ({ boolShape with ID := .unknown }).value testEnv = .ok v ∧ v.ID = "" :=
  ⟨(identity_mapping testEnv { boolShape with ID := .unknown } (.known "another-id")
      testValue).1,
    _, rfl, (identity_mapping testEnv { boolShape with ID := .unknown } (.known "another-id")
      testValue).2.2.1 _ rfl (Or.inr rfl)⟩

end Wings
